import Mathlib

/-!
TimedList: a deadline-ordered delay queue

Shallow embedding of `timed_list.go` (package `timedlist`) together with the
left-leaning red-black tree (`github.com/petar/GoLLRB/llrb`) that the list uses
as its deadline store.

Conventions of the embedding

* `time.Time` is an integer instant and `time.Duration` an integer number of
  nanoseconds (no overflow is modelled).
* A Go panic (nil dereference, failed type assertion, `panic(...)`) is the
  result `none`.
* A `*TimedEntry` is the entry together with its allocation address `addr`:
  two handles are the same pointer exactly when they are the same record.
* Every public operation is one atomic step (it runs under `t.mu`), and so is
  a turn of the loop of `run`; the clock readings a step makes are passed in as
  arguments. `Conc` refines this view by the channel of the timer and the
  mutex, for the one question of waiting while the lock is held.
* Sending on the channel `C` is done by a goroutine started per value; the
  field `C` of the model is the log of the values handed to such goroutines, in
  the order in which they were started. `Sys` adds these goroutines and a
  receiver of `C`, for the order in which the values are received.
* The two recursive functions of the tree that rebuild their argument on the
  way down (`deleteMin`, `delete`) and the two loops of `Drain` and `Purge`
  take a bound on their depth as `fuel`; the callers pass enough of it.
-/

namespace timedlist

/-- An instant (`time.Time`). -/
abbrev Time := Int

/-- A span of time (`time.Duration`). -/
abbrev Duration := Int

/-- The payload of an entry (`interface{}`). -/
abbrev Value := String

/-- The struct `TimedEntry`, seen through the pointer that the list hands out:
`addr` is the address of the allocation, `v` and `d` are the two fields. -/
structure TimedEntry where
  addr : Nat
  v : Value
  d : Time
deriving DecidableEq, Repr

/-- Go `func (t TimedEntry) Less(than llrb.Item) bool` -/
def TimedEntry.Less (t than : TimedEntry) : Bool :=
  decide (t.d < than.d)

/-- Go `func (t TimedEntry) Value() interface{}` -/
def TimedEntry.Value (t : TimedEntry) : Value :=
  t.v

end timedlist

namespace llrb

open timedlist

/-- The struct `Node` of the tree: item, children, colour of the incoming link.
`nil` is the nil pointer. -/
inductive Node where
  | nil : Node
  | node (Left : Node) (Item : TimedEntry) (Right : Node) (Black : Bool) : Node
deriving DecidableEq, Repr

/-- Field `h.Left` (only read on nodes that are present). -/
def Node.Left : Node → Node
  | .nil => .nil
  | .node l _ _ _ => l

/-- Field `h.Right` (only read on nodes that are present). -/
def Node.Right : Node → Node
  | .nil => .nil
  | .node _ _ r _ => r

/-- Number of nodes of a tree. -/
def Node.size : Node → Nat
  | .nil => 0
  | .node l _ r _ => l.size + r.size + 1

/-- The items of a tree from left to right. -/
def Node.toList : Node → List TimedEntry
  | .nil => []
  | .node l x r _ => l.toList ++ x :: r.toList

/-- Go `func less(x, y Item) bool`; the sentinel items of the package are never
stored by the list, so the comparison is the one of the items. -/
def less (x y : TimedEntry) : Bool :=
  x.Less y

/-- Go `func newNode(item Item) *Node`: new nodes are red. -/
def newNode (item : TimedEntry) : Node :=
  .node .nil item .nil false

/-- Go `func isRed(h *Node) bool` -/
def isRed : Node → Bool
  | .nil => false
  | .node _ _ _ b => !b

/-- Go `func rotateLeft(h *Node) *Node`; panics when the right link is absent or
black. -/
def rotateLeft : Node → Option Node
  | .node l x (.node rl y rr false) c => some (.node (.node l x rl false) y rr c)
  | _ => none

/-- Go `func rotateRight(h *Node) *Node`; panics when the left link is absent or
black. -/
def rotateRight : Node → Option Node
  | .node (.node ll y lr false) x r c => some (.node ll y (.node lr x r false) c)
  | _ => none

/-- Go `func flip(h *Node)`; both children must be present. -/
def flip : Node → Option Node
  | .node (.node ll y lr cl) x (.node rl z rr cr) c =>
      some (.node (.node ll y lr (!cl)) x (.node rl z rr (!cr)) (!c))
  | _ => none

/-- Go `func moveRedLeft(h *Node) *Node` -/
def moveRedLeft (h : Node) : Option Node :=
  match flip h with
  | some (.node l x r c) =>
    if isRed r.Left then
      match rotateRight r with
      | some r1 =>
        match rotateLeft (.node l x r1 c) with
        | some h1 => flip h1
        | none => none
      | none => none
    else some (.node l x r c)
  | _ => none

/-- Go `func moveRedRight(h *Node) *Node` -/
def moveRedRight (h : Node) : Option Node :=
  match flip h with
  | some (.node l x r c) =>
    if isRed l.Left then
      match rotateRight (.node l x r c) with
      | some h1 => flip h1
      | none => none
    else some (.node l x r c)
  | _ => none

/-- Go `func fixUp(h *Node) *Node` -/
def fixUp (h : Node) : Option Node :=
  match h with
  | .nil => none
  | .node _ _ _ _ =>
    match (if isRed h.Right then rotateLeft h else some h) with
    | none => none
    | some h1 =>
      match (if isRed h1.Left && isRed h1.Left.Left then rotateRight h1 else some h1) with
      | none => none
      | some h2 => if isRed h2.Left && isRed h2.Right then flip h2 else some h2

/-- Go `func walkDownRot23(h *Node) *Node` -/
def walkDownRot23 (h : Node) : Node :=
  h

/-- Go `func walkUpRot23(h *Node) *Node` -/
def walkUpRot23 (h : Node) : Option Node :=
  match h with
  | .nil => none
  | .node _ _ _ _ =>
    match (if isRed h.Right && !isRed h.Left then rotateLeft h else some h) with
    | none => none
    | some h1 =>
      match (if isRed h1.Left && isRed h1.Left.Left then rotateRight h1 else some h1) with
      | none => none
      | some h2 => if isRed h2.Left && isRed h2.Right then flip h2 else some h2

/-- Go `func (t *LLRB) insertNoReplace(h *Node, item Item) *Node`; the call of
`walkDownRot23`, which returns its argument, is left out. -/
def insertNoReplace : Node → TimedEntry → Option Node
  | .nil, item => some (newNode item)
  | .node l x r c, item =>
    if less item x then
      match insertNoReplace l item with
      | some l1 => walkUpRot23 (.node l1 x r c)
      | none => none
    else
      match insertNoReplace r item with
      | some r1 => walkUpRot23 (.node l x r1 c)
      | none => none

/-- Go `func deleteMin(h *Node) (*Node, Item)`. The recursion of the Go function
follows the left spine of a tree that it rebuilds on the way; `fuel` bounds
its depth, and running out of it is `none`. -/
def deleteMin : Nat → Node → Option (Node × Option TimedEntry)
  | 0, _ => none
  | _ + 1, .nil => some (.nil, none)
  | _ + 1, .node .nil x _ _ => some (.nil, some x)
  | fuel + 1, .node l x r c =>
    match (if !isRed l && !isRed l.Left then moveRedLeft (.node l x r c)
           else some (.node l x r c)) with
    | some (.node l1 x1 r1 c1) =>
      match deleteMin fuel l1 with
      | some (l2, deleted) =>
        match fixUp (.node l2 x1 r1 c1) with
        | some h2 => some (h2, deleted)
        | none => none
      | none => none
    | _ => none

/-- Go `func (t *LLRB) delete(h *Node, item Item) (*Node, Item)`, with `fuel` as
in `deleteMin`. -/
def delete : Nat → Node → TimedEntry → Option (Node × Option TimedEntry)
  | 0, _, _ => none
  | _ + 1, .nil, _ => some (.nil, none)
  | fuel + 1, .node l x r c, item =>
    if less item x then
      if l = .nil then some (.node l x r c, none)
      else
        match (if !isRed l && !isRed l.Left then moveRedLeft (.node l x r c)
               else some (.node l x r c)) with
        | some (.node l1 x1 r1 c1) =>
          match delete fuel l1 item with
          | some (l2, deleted) =>
            match fixUp (.node l2 x1 r1 c1) with
            | some h2 => some (h2, deleted)
            | none => none
          | none => none
        | _ => none
    else
      match (if isRed l then rotateRight (.node l x r c) else some (.node l x r c)) with
      | some (.node l1 x1 r1 c1) =>
        if !less x1 item && r1 = .nil then some (.nil, some x1)
        else
          match (if r1 ≠ .nil && !isRed r1 && !isRed r1.Left
                 then moveRedRight (.node l1 x1 r1 c1) else some (.node l1 x1 r1 c1)) with
          | some (.node l2 x2 r2 c2) =>
            if !less x2 item then
              match deleteMin fuel r2 with
              | some (r3, some subDeleted) =>
                match fixUp (.node l2 subDeleted r3 c2) with
                | some h3 => some (h3, some x2)
                | none => none
              | _ => none
            else
              match delete fuel r2 item with
              | some (r3, deleted) =>
                match fixUp (.node l2 x2 r3 c2) with
                | some h3 => some (h3, deleted)
                | none => none
              | none => none
          | _ => none
      | _ => none

/-- The assignment `t.root.Black = true` that ends `InsertNoReplace`, `DeleteMin`
and `Delete` (the last two make it on a root that is not nil only). -/
def setBlack : Node → Node
  | .nil => .nil
  | .node l x r _ => .node l x r true

/-- The struct `LLRB`. -/
structure LLRB where
  count : Int
  root : Node
deriving DecidableEq, Repr

/-- Go `func New() *LLRB` -/
def New : LLRB :=
  { count := 0, root := .nil }

/-- Go `func (t *LLRB) Len() int` -/
def LLRB.Len (t : LLRB) : Int :=
  t.count

/-- The loop of `Min`: the item at the end of the left spine. -/
def minItem : Node → Option TimedEntry
  | .nil => none
  | .node .nil x _ _ => some x
  | .node l _ _ _ => minItem l

/-- Go `func (t *LLRB) Min() Item` (`none` is the nil item). -/
def LLRB.Min (t : LLRB) : Option TimedEntry :=
  minItem t.root

/-- Go `func (t *LLRB) InsertNoReplace(item Item)` -/
def LLRB.InsertNoReplace (t : LLRB) (item : TimedEntry) : Option LLRB :=
  match insertNoReplace t.root item with
  | some r => some { count := t.count + 1, root := setBlack r }
  | none => none

/-- Go `func (t *LLRB) DeleteMin() Item`: the new tree and the deleted item. -/
def LLRB.DeleteMin (t : LLRB) : Option (LLRB × Option TimedEntry) :=
  match deleteMin (t.root.size + 1) t.root with
  | some (r, deleted) =>
    some ({ count := if deleted.isSome then t.count - 1 else t.count, root := setBlack r },
      deleted)
  | none => none

/-- Go `func (t *LLRB) Delete(key Item) Item`: the new tree and the deleted item. -/
def LLRB.Delete (t : LLRB) (key : TimedEntry) : Option (LLRB × Option TimedEntry) :=
  match delete (t.root.size + 1) t.root key with
  | some (r, deleted) =>
    some ({ count := if deleted.isSome then t.count - 1 else t.count, root := setBlack r },
      deleted)
  | none => none

/-- Number of black links on the left spine of a tree. -/
def blackHeight : Node → Nat
  | .nil => 0
  | .node l _ _ c => blackHeight l + (if c then 1 else 0)

/-- The shape invariant of a left-leaning red-black 2-3 tree: both subtrees
have the same black height, no right link is red, and a red node has no red
child. -/
def isLLRB : Node → Bool
  | .nil => true
  | .node l _ r c =>
    isLLRB l && isLLRB r && (blackHeight l == blackHeight r) && !isRed r && (c || !isRed l)

/-- The node with the colour of its incoming link switched. -/
def toggle : Node → Node
  | .nil => .nil
  | .node l x r c => .node l x r (!c)

/-- Items in non-decreasing order of deadline. -/
def Ordered (l : List TimedEntry) : Prop :=
  l.Pairwise (fun a b => a.d ≤ b.d)

/-- Where `insertNoReplace` puts an item in a sequence of items: before the
first item that it is less than. -/
def insertAfter (x : TimedEntry) : List TimedEntry → List TimedEntry
  | [] => [x]
  | y :: ys => if less x y then x :: y :: ys else y :: insertAfter x ys

/-- The representation invariant of the tree: a left-leaning red-black tree
with a black root, items in order of deadline, and `count` the number of
items. -/
def LLRB.WF (t : LLRB) : Prop :=
  isLLRB t.root = true ∧ isRed t.root = false ∧ Ordered t.root.toList ∧
    t.count = t.root.toList.length

instance (l : List TimedEntry) : Decidable (Ordered l) := by
  unfold Ordered; infer_instance

instance (t : LLRB) : Decidable t.WF := by
  unfold LLRB.WF; infer_instance

/-- Number of items of a sequence that have the deadline of `item`. -/
def cnt (item : TimedEntry) (L : List TimedEntry) : Nat :=
  L.countP (fun z => decide (z.d = item.d))

/-- The call `delete fuel h item` returns an item `e` with the deadline of
`item`, has deleted `e` from `h` and nothing else, and the tree it returns has
the shape invariant, the black height of `h`, and a black root when the root
of `h` is black. -/
def DeletesOne (fuel : Nat) (item : TimedEntry) (h : Node) : Prop :=
  ∃ h' e l1 l2, delete fuel h item = some (h', some e) ∧ e.d = item.d ∧
    h.toList = l1 ++ e :: l2 ∧ h'.toList = l1 ++ l2 ∧ isLLRB h' = true ∧
    blackHeight h' = blackHeight h ∧ (isRed h = false → isRed h' = false)

/-- The call `delete fuel h item` is as in `DeletesOne` on every tree `h` that
the fuel suffices for, with the shape invariant, items in order, a root that
is red or has a red left child, and exactly one item with the deadline of
`item`. -/
def DeletesOneAll (fuel : Nat) (item : TimedEntry) : Prop :=
  ∀ h : Node, h.size < fuel → isLLRB h = true → Ordered h.toList →
    (isRed h = true ∨ isRed h.Left = true) → cnt item h.toList = 1 → DeletesOne fuel item h

end llrb

namespace timedlist

open llrb

/-- A `*time.Timer` that is not nil: the clock reading at which it was last
armed (by `time.NewTimer` or `Reset`), the duration it was armed with, and
whether it is armed (`Stop` disarms it). -/
structure Timer where
  setAt : Time
  dur : Duration
  armed : Bool
deriving DecidableEq, Repr

/-- Go `time.NewTimer(d)`, called when the clock reads `now`. -/
def NewTimer (d : Duration) (now : Time) : Timer :=
  { setAt := now, dur := d, armed := true }

/-- Go `func (t *Timer) Stop() bool`, the timer after the call. -/
def Timer.Stop (t : Timer) : Timer :=
  { t with armed := false }

/-- Go `func (t *Timer) Reset(d Duration) bool`, called when the clock reads `now`. -/
def Timer.Reset (_t : Timer) (d : Duration) (now : Time) : Timer :=
  { setAt := now, dur := d, armed := true }

/-- Go `time.Until(t)` when the clock reads `now`. -/
def Until (t : Time) (now : Time) : Duration :=
  t - now

/-- The instant a timer is armed for: the instant of arming plus the duration. -/
def Timer.target (t : Timer) : Time :=
  t.setAt + t.dur

/-- The struct `TimedList`.

* `C`: the values handed to a sending goroutine `t.C <- v`, oldest first;
* `entries`: the tree;
* `t`: the timer, `none` for nil;
* `ctx`: `none` for nil, otherwise whether the context has been cancelled
  (`cancel` is the function that sets it);
* `loops`: the number of goroutines that execute `run` and have not returned.

The field `l` is never used and the mutex `mu` is what makes the operations
atomic. -/
structure TimedList where
  C : List Value
  entries : LLRB
  t : Option Timer
  ctx : Option Bool
  loops : Nat
deriving DecidableEq, Repr

/-- Go `func NewTimedList() *TimedList` -/
def NewTimedList : TimedList :=
  { C := [], entries := New, t := none, ctx := none, loops := 0 }

/-- Go `func (t *TimedList) stop()`. Between two steps the signal of a timer
that has expired is still in its channel, so the receive of line 96, when it
is reached, does not wait (`Conc.stop` is the function without this
assumption). A nil `cancel` panics; after `cancel` the goroutines of `run`
leave their `select` and return. -/
def TimedList.stop (t : TimedList) : Option TimedList :=
  match t.t with
  | some _ =>
    match t.ctx with
    | some _ => some { t with ctx := some true, t := none, loops := 0 }
    | none => none
  | none => some t

/-- One turn of the loop of `func (t *TimedList) run()` in which the signal of
the timer is received (`case <-t.t.C`), at clock reading `now`, taken as one
step (the lines after `t.mu.Unlock()` included). A nil item from `DeleteMin`
or `Min` makes the type assertion panic. There is no such turn, and the result
is `none`, when the timer is nil or the context is cancelled. -/
def TimedList.run (t : TimedList) (now : Time) : Option TimedList :=
  match t.t, t.ctx with
  | some tm, some false =>
    match t.entries.DeleteMin with
    | some (entries, some min) =>
      let t1 := { t with entries := entries, C := t.C ++ [min.v] }
      if entries.Len = 0 then
        some { t1 with t := none, loops := t1.loops - 1 }
      else
        match entries.Min with
        | some m => some { t1 with t := some (tm.Reset (Until m.d now) now) }
        | none => none
    | _ => none
  | _, _ => none

/-- Go `func (t *TimedList) Add(v interface{}, d time.Duration) (item *TimedEntry)`.
`addr` is the address of the new entry, `now0` the clock reading of the first
line (before the lock is taken), `now` the clock reading inside the critical
section. The result is the new list and the handle. -/
def TimedList.Add (t : TimedList) (addr : Nat) (v : Value) (d : Duration)
    (now0 now : Time) : Option (TimedList × TimedEntry) :=
  let item : TimedEntry := { addr := addr, v := v, d := now0 + d }
  if t.t = none ∨ t.entries.Len = 0 then
    match t.entries.InsertNoReplace item with
    | some entries =>
      some ({ t with t := some (NewTimer d now), entries := entries, ctx := some false,
                     loops := t.loops + 1 }, item)
    | none => none
  else
    match t.entries.Min, t.t with
    | some m, some tm =>
      let tm1 := if m.d > now + d then tm.Stop.Reset d now else tm
      match t.entries.InsertNoReplace item with
      | some entries => some ({ t with t := some tm1, entries := entries }, item)
      | none => none
    | _, _ => none

/-- Go `func (t *TimedList) Remove(te *TimedEntry) (v interface{})` at clock
reading `now`: the new list and the value returned. -/
def TimedList.Remove (t : TimedList) (te : TimedEntry) (now : Time) :
    Option (TimedList × Value) :=
  match t.entries.Delete te with
  | some (entries, some entry) =>
    let t1 := { t with entries := entries }
    if entries.Len = 0 then
      match t1.stop with
      | some t2 => some (t2, entry.v)
      | none => none
    else
      match entries.Min with
      | some minEntry =>
        if minEntry.d > entry.d then
          match t1.t with
          | some tm =>
            some ({ t1 with t := some (tm.Stop.Reset (Until minEntry.d now) now) }, entry.v)
          | none => none
        else some (t1, entry.v)
      | none => none
  | _ => none

/-- The loop `for t.entries.Len() > 0` of `Drain`; `fuel` bounds the number of
turns. A nil item from `DeleteMin` makes the type assertion of the sending
goroutine panic. -/
def drainLoop : Nat → TimedList → Option TimedList
  | 0, _ => none
  | fuel + 1, t =>
    if t.entries.Len > 0 then
      match t.entries.DeleteMin with
      | some (entries, some min) =>
        drainLoop fuel { t with entries := entries, C := t.C ++ [min.v] }
      | _ => none
    else some t

/-- Go `func (t *TimedList) Drain()` -/
def TimedList.Drain (t : TimedList) : Option TimedList :=
  match t.stop with
  | some t1 => drainLoop (t1.entries.Len.toNat + 1) t1
  | none => none

/-- The loop `for t.entries.Len() > 0` of `Purge`; `fuel` bounds the number of
turns. The loop of the Go function does not end when `DeleteMin` deletes
nothing while `Len` is positive; here the fuel runs out. -/
def purgeLoop : Nat → TimedList → Option TimedList
  | 0, _ => none
  | fuel + 1, t =>
    if t.entries.Len > 0 then
      match t.entries.DeleteMin with
      | some (entries, _) => purgeLoop fuel { t with entries := entries }
      | none => none
    else some t

/-- Go `func (t *TimedList) Purge()` -/
def TimedList.Purge (t : TimedList) : Option TimedList :=
  match t.stop with
  | some t1 => purgeLoop (t1.entries.Len.toNat + 1) t1
  | none => none

/-- Go `func (t *TimedList) Len() int` -/
def TimedList.Len (t : TimedList) : Int :=
  t.entries.Len

/-- The entries that are pending, in the order of the tree. -/
def TimedList.pending (t : TimedList) : List TimedEntry :=
  t.entries.root.toList

/-- Consistency of a list between two operations: the tree satisfies its
representation invariant, there is no loop without a timer, and a timer
comes with a context. -/
def TimedList.WF (t : TimedList) : Prop :=
  t.entries.WF ∧ (t.t = none → t.loops = 0) ∧ (t.t ≠ none → t.ctx ≠ none)

instance (t : TimedList) : Decidable t.WF := by
  unfold TimedList.WF; infer_instance

/-- A list with two pending entries `a` (deadline 5) and `b` (deadline 7), as
two calls of `Add` at clock reading 0 leave it. -/
def twoPending : TimedList :=
  { C := [],
    entries := { count := 2,
                 root := .node (.node .nil ⟨1, "a", 5⟩ .nil false) ⟨2, "b", 7⟩ .nil true },
    t := some { setAt := 0, dur := 5, armed := true },
    ctx := some false,
    loops := 1 }

/-- The list `twoPending` after `Remove` of `a` at clock reading 1: `b` is
pending and the timer is armed at 1 for 6. -/
def onePending : TimedList :=
  { C := [],
    entries := { count := 1, root := .node .nil ⟨2, "b", 7⟩ .nil true },
    t := some { setAt := 1, dur := 6, armed := true },
    ctx := some false,
    loops := 1 }

/-- The list with what the atomic view of the operations leaves out: the
channel of the timer and the mutex.

* `expired`: the timer has expired, the runtime has sent on `t.t.C`; from then
  on `t.t.Stop()` returns false;
* `signal`: a value sits in `t.t.C`;
* `loopReceived`: the goroutine of `run` has received from `t.t.C` (line 78)
  and has not yet taken the lock (line 79);
* `locked`: `t.mu` is held;
* `callerWaits`: the caller of a public operation waits in the receive
  `<-t.t.C` of `stop` (line 96). -/
structure Conc where
  tl : TimedList
  expired : Bool
  signal : Bool
  loopReceived : Bool
  locked : Bool
  callerWaits : Bool
deriving DecidableEq, Repr

/-- The timer expires: the runtime sends on `t.t.C`. -/
def Conc.expire (c : Conc) : Option Conc :=
  match c.tl.t with
  | some tm =>
    if tm.armed ∧ c.expired = false then some { c with expired := true, signal := true }
    else none
  | none => none

/-- The `select` of `run` receives from `t.t.C` (line 78); the lock is not
needed for it. -/
def Conc.loopReceive (c : Conc) : Option Conc :=
  if 0 < c.tl.loops ∧ c.tl.t ≠ none ∧ c.tl.ctx = some false ∧ c.signal = true ∧
      c.loopReceived = false then
    some { c with signal := false, loopReceived := true }
  else none

/-- The goroutine of `run` goes on after the receive: it takes the lock and
pops the minimum (lines 79 to 87); it has to wait while the lock is held. -/
def Conc.loopLock (c : Conc) (now : Time) : Option Conc :=
  if c.loopReceived = true ∧ c.locked = false then
    match c.tl.run now with
    | some tl1 => some { c with tl := tl1, loopReceived := false, expired := false }
    | none => none
  else none

/-- Go `func (t *TimedList) stop()` with the receive of line 96: when `Stop`
returns false the caller receives from `t.t.C`, and waits there when the
channel is empty. -/
def Conc.stop (c : Conc) : Option Conc :=
  match c.tl.t with
  | some _ =>
    if c.expired = true ∧ c.signal = false then some { c with callerWaits := true }
    else
      match c.tl.ctx with
      | some _ =>
        some { c with tl := { c.tl with ctx := some true, t := none, loops := 0 },
                      signal := false, expired := false }
      | none => none
  | none => some c

/-- Go `Remove` on the finer state: the lock is taken at the first line and given
back by the deferred `Unlock` when the function returns; a caller that waits in
`stop` has not returned and holds the lock. There is no step while the lock is
held by someone else. -/
def Conc.Remove (c : Conc) (te : TimedEntry) (now : Time) : Option Conc :=
  if c.locked = true then none
  else
    match c.tl.entries.Delete te with
    | some (entries, some entry) =>
      let c1 := { c with tl := { c.tl with entries := entries }, locked := true }
      if entries.Len = 0 then
        match c1.stop with
        | some c2 => if c2.callerWaits = true then some c2 else some { c2 with locked := false }
        | none => none
      else
        match entries.Min with
        | some minEntry =>
          if minEntry.d > entry.d then
            match c1.tl.t with
            | some tm =>
              some { c1 with tl := { c1.tl with
                                      t := some (tm.Stop.Reset (Until minEntry.d now) now) },
                             expired := false, locked := false }
            | none => none
          else some { c1 with locked := false }
        | none => none
    | _ => none

/-- A list that has been drained after two values `"x"` were popped. -/
def drained : TimedList :=
  { C := ["x", "x"],
    entries := { count := 0, root := .nil },
    t := none,
    ctx := some true,
    loops := 0 }

/-- A list in the state that `Add` and the loop of `run` keep it in: the tree
satisfies its representation invariant, an empty list has no timer and no
loop, and a list that is not empty has a timer, a context that is not
cancelled and one loop. -/
def TimedList.Live (t : TimedList) : Prop :=
  t.entries.WF ∧ (t.pending = [] → t.t = none ∧ t.loops = 0) ∧
    (t.pending ≠ [] → t.t ≠ none ∧ t.ctx = some false ∧ t.loops = 1)

/-- One call of `Add`: the address of the new entry, the value, the duration,
and the two clock readings. -/
structure AddCall where
  addr : Nat
  v : Value
  d : Duration
  now0 : Time
  now : Time
deriving DecidableEq, Repr

/-- The entry that a call of `Add` creates. -/
def AddCall.entry (c : AddCall) : TimedEntry :=
  { addr := c.addr, v := c.v, d := c.now0 + c.d }

/-- A sequence of calls of `Add`, one after the other. -/
def addAll : TimedList → List AddCall → Option TimedList
  | t, [] => some t
  | t, c :: cs =>
    match t.Add c.addr c.v c.d c.now0 c.now with
    | some (t1, _) => addAll t1 cs
    | none => none

/-- Successive turns of the loop of `run`, one per clock reading. -/
def fireAll : TimedList → List Time → Option TimedList
  | t, [] => some t
  | t, now :: nows =>
    match t.run now with
    | some t1 => fireAll t1 nows
    | none => none

/-- The steps that change a list: the four public operations that do, and a
turn of the loop of `run`. -/
inductive Op where
  | add (addr : Nat) (v : Value) (d : Duration) (now0 now : Time) : Op
  | remove (te : TimedEntry) (now : Time) : Op
  | fire (now : Time) : Op
  | drain : Op
  | purge : Op
deriving DecidableEq, Repr

/-- A step taken at one instant: an `Add` whose two clock readings agree. -/
def Op.atomic : Op → Bool
  | .add _ _ _ now0 now => decide (now0 = now)
  | _ => true

/-- The list after a step, `none` when the step panics, does not return or
cannot be taken. -/
def step (t : TimedList) : Op → Option TimedList
  | .add addr v d now0 now => (t.Add addr v d now0 now).map Prod.fst
  | .remove te now => (t.Remove te now).map Prod.fst
  | .fire now => t.run now
  | .drain => t.Drain
  | .purge => t.Purge

/-- A sequence of steps. -/
def exec : TimedList → List Op → Option TimedList
  | t, [] => some t
  | t, op :: ops =>
    match step t op with
    | some t1 => exec t1 ops
    | none => none

/-- What the steps do to the length: an `Add` adds one, a `Remove` and a turn
of the loop take one away, `Drain` and `Purge` make it zero. -/
def net : Int → List Op → Int
  | n, [] => n
  | n, .add _ _ _ _ _ :: ops => net (n + 1) ops
  | n, .remove _ _ :: ops => net (n - 1) ops
  | n, .fire _ :: ops => net (n - 1) ops
  | _, .drain :: ops => net 0 ops
  | _, .purge :: ops => net 0 ops

/-- What holds of the tree after any sequence of steps: the items are in order
of deadline and `count` is at least their number. -/
def TimedList.StoreInv (t : TimedList) : Prop :=
  Ordered t.entries.root.toList ∧ (t.entries.root.toList.length : Int) ≤ t.entries.count

/-- What holds of the timer after any sequence of steps taken at one instant
each: with a length of zero there is no timer and no loop, otherwise the timer
is armed for the deadline of the minimum and one loop runs. -/
def TimedList.AlarmInv (t : TimedList) : Prop :=
  (t.entries.count = 0 → t.t = none ∧ t.loops = 0) ∧
  (t.entries.count ≠ 0 → ∃ tm m, t.t = some tm ∧ tm.armed = true ∧ t.ctx = some false ∧
    t.loops = 1 ∧ t.entries.Min = some m ∧ tm.target = m.d)

/-- No `Remove` of a sequence of steps is called with a handle whose deadline
two or more pending entries share at the time of the call. -/
def tieFree : TimedList → List Op → Prop
  | _, [] => True
  | t, op :: ops =>
    (∀ te now, op = .remove te now → cnt te t.pending ≤ 1) ∧
      ∀ t1, step t op = some t1 → tieFree t1 ops

/-- The sender goroutines `go func() { t.C <- min.(*TimedEntry).v }()` of lines
82 and 156 and the receiver of the channel `C`, which has no buffer.

* `started`: the values of the goroutines that have been started and have not
  reached their send, in the order in which they were started;
* `sendq`: the values of the goroutines that wait in their send, in the order
  in which they reached it, which is the order in which a receive serves them;
* `received`: the values taken from `C` by the receiver, oldest first. -/
structure Out where
  started : List Value
  sendq : List Value
  received : List Value
deriving DecidableEq, Repr

/-- The goroutine that was started as number `i` of those that have not reached
their send executes `t.C <- v`; nothing happens when there is no such
goroutine. -/
def Out.arrive (o : Out) (i : Nat) : Out :=
  match o.started.drop i with
  | v :: rest => { o with started := o.started.take i ++ rest, sendq := o.sendq ++ [v] }
  | [] => o

/-- The receiver executes `<-t.C`: it is served by the sender that has waited
longest; with no sender waiting the receiver waits and nothing happens. -/
def Out.recv (o : Out) : Out :=
  match o.sendq with
  | v :: q => { o with sendq := q, received := o.received ++ [v] }
  | [] => o

/-- The list together with its sender goroutines and the receiver of `C`. -/
structure Sys where
  tl : TimedList
  out : Out
deriving DecidableEq, Repr

/-- The steps of the dispatcher loop, of the sender goroutines and of the
receiver. -/
inductive SysOp where
  | fire (now : Time) : SysOp
  | arrive (i : Nat) : SysOp
  | recv : SysOp
deriving DecidableEq, Repr

/-- One step: a turn of the loop of `run` starts a goroutine for the value it
has popped (the value it has added to the log `C` of the list); the steps of
the goroutines and of the receiver leave the list as it is. -/
def Sys.step (s : Sys) : SysOp → Option Sys
  | .fire now =>
    match s.tl.run now with
    | some t1 =>
      some { tl := t1,
             out := { s.out with started := s.out.started ++ t1.C.drop s.tl.C.length } }
    | none => none
  | .arrive i => some { s with out := s.out.arrive i }
  | .recv => some { s with out := s.out.recv }

/-- A sequence of steps, in the order in which they are scheduled. -/
def Sys.exec : Sys → List SysOp → Option Sys
  | s, [] => some s
  | s, op :: ops =>
    match s.step op with
    | some s1 => Sys.exec s1 ops
    | none => none

end timedlist

/-! ## The tree: what the operations do to the sequence of items -/

namespace llrb

open timedlist

theorem toList_rotateLeft {h h' : Node} (e : rotateLeft h = some h') :
    h'.toList = h.toList := by
  unfold rotateLeft at e
  split at e <;> simp_all [Node.toList]
  subst e; simp [Node.toList]

theorem toList_rotateRight {h h' : Node} (e : rotateRight h = some h') :
    h'.toList = h.toList := by
  unfold rotateRight at e
  split at e <;> simp_all [Node.toList]
  subst e; simp [Node.toList]

theorem toList_flip {h h' : Node} (e : flip h = some h') :
    h'.toList = h.toList := by
  unfold flip at e
  split at e <;> simp_all [Node.toList]
  subst e; simp [Node.toList]

theorem toList_moveRedLeft {h h' : Node} (e : moveRedLeft h = some h') :
    h'.toList = h.toList := by
  unfold moveRedLeft at e
  split at e
  · rename_i l x r c hf
    have h1 := toList_flip hf
    split at e
    · split at e
      · rename_i r1 hr
        have h2 := toList_rotateRight hr
        split at e
        · rename_i h3 hl
          have h4 := toList_rotateLeft hl
          have h5 := toList_flip e
          simp_all [Node.toList]
        · simp at e
      · simp at e
    · simp at e; subst e; exact h1
  · simp at e

theorem toList_moveRedRight {h h' : Node} (e : moveRedRight h = some h') :
    h'.toList = h.toList := by
  unfold moveRedRight at e
  split at e
  · rename_i l x r c hf
    have h1 := toList_flip hf
    split at e
    · split at e
      · rename_i h3 hl
        have h4 := toList_rotateRight hl
        have h5 := toList_flip e
        simp_all [Node.toList]
      · simp at e
    · simp at e; subst e; exact h1
  · simp at e

theorem toList_fixUp {h h' : Node} (e : fixUp h = some h') :
    h'.toList = h.toList := by
  cases h with
  | nil => simp [fixUp] at e
  | node l x r c =>
    simp only [fixUp] at e
    split at e
    · simp at e
    · rename_i h1 e1
      have k1 : h1.toList = (Node.node l x r c).toList := by
        split at e1
        · exact toList_rotateLeft e1
        · simp at e1; subst e1; rfl
      split at e
      · simp at e
      · rename_i h2 e2
        have k2 : h2.toList = h1.toList := by
          split at e2
          · exact toList_rotateRight e2
          · simp at e2; subst e2; rfl
        split at e
        · rw [toList_flip e, k2, k1]
        · simp at e; subst e; rw [k2, k1]

theorem toList_walkUpRot23 {h h' : Node} (e : walkUpRot23 h = some h') :
    h'.toList = h.toList := by
  cases h with
  | nil => simp [walkUpRot23] at e
  | node l x r c =>
    simp only [walkUpRot23] at e
    split at e
    · simp at e
    · rename_i h1 e1
      have k1 : h1.toList = (Node.node l x r c).toList := by
        split at e1
        · exact toList_rotateLeft e1
        · simp at e1; subst e1; rfl
      split at e
      · simp at e
      · rename_i h2 e2
        have k2 : h2.toList = h1.toList := by
          split at e2
          · exact toList_rotateRight e2
          · simp at e2; subst e2; rfl
        split at e
        · rw [toList_flip e, k2, k1]
        · simp at e; subst e; rw [k2, k1]

end llrb

namespace llrb

open timedlist

theorem walkUpRot23_isSome (l : Node) (x : TimedEntry) (r : Node) (c : Bool) :
    ∃ h', walkUpRot23 (.node l x r c) = some h' := by
  rcases l with _ | ⟨ll, lx, lr, cl⟩ <;> rcases r with _ | ⟨rl, rx, rr, cr⟩ <;>
    try rcases ll with _ | ⟨lll, llx, llr, cll⟩
  all_goals try rcases rr with _ | ⟨rrl, rrx, rrr, crr⟩
  all_goals try cases cl
  all_goals try cases cr
  all_goals try cases cll
  all_goals try cases crr
  all_goals simp [walkUpRot23, isRed, rotateLeft, rotateRight, flip, Node.Left, Node.Right]

theorem insertAfter_append_lt (x y : TimedEntry) (hxy : less x y = true)
    (L R : List TimedEntry) :
    insertAfter x (L ++ y :: R) = insertAfter x L ++ y :: R := by
  induction L with
  | nil => simp [insertAfter, hxy]
  | cons z L ih =>
    simp only [List.cons_append, insertAfter]
    split
    · rfl
    · simp only [List.cons_append, List.cons.injEq, true_and]
      exact ih

theorem insertAfter_append_ge (x y : TimedEntry) (hxy : less x y = false)
    (L R : List TimedEntry) (hL : ∀ z ∈ L, less x z = false) :
    insertAfter x (L ++ y :: R) = L ++ y :: insertAfter x R := by
  induction L with
  | nil => simp [insertAfter, hxy]
  | cons z L ih =>
    simp only [List.cons_append, insertAfter]
    rw [hL z (List.mem_cons_self _ _)]
    simp only [Bool.false_eq_true, if_false, List.cons.injEq, true_and]
    exact ih (fun w hw => hL w (List.mem_cons_of_mem _ hw))

theorem less_eq_true_iff (x y : TimedEntry) : less x y = true ↔ x.d < y.d := by
  simp [less, TimedEntry.Less]

theorem less_eq_false_iff (x y : TimedEntry) : less x y = false ↔ y.d ≤ x.d := by
  simp [less, TimedEntry.Less]

theorem insertNoReplace_toList (h : Node) (x : TimedEntry) (ho : Ordered h.toList) :
    ∃ h', insertNoReplace h x = some h' ∧ h'.toList = insertAfter x h.toList := by
  induction h with
  | nil => exact ⟨_, rfl, rfl⟩
  | node l y r c ihl ihr =>
    have hol : Ordered l.toList := by
      unfold Ordered at *
      simp only [Node.toList] at ho
      exact (List.pairwise_append.1 ho).1
    have hor : Ordered r.toList := by
      unfold Ordered at *
      simp only [Node.toList] at ho
      exact ((List.pairwise_append.1 ho).2.1).of_cons
    simp only [insertNoReplace]
    split
    · rename_i hlt
      obtain ⟨l1, e1, k1⟩ := ihl hol
      obtain ⟨h1, e2⟩ := walkUpRot23_isSome l1 y r c
      refine ⟨h1, by rw [e1]; exact e2, ?_⟩
      rw [toList_walkUpRot23 e2]
      simp only [Node.toList, k1]
      rw [insertAfter_append_lt x y hlt]
    · rename_i hlt
      have hlt' : less x y = false := by simpa using hlt
      obtain ⟨r1, e1, k1⟩ := ihr hor
      obtain ⟨h1, e2⟩ := walkUpRot23_isSome l y r1 c
      refine ⟨h1, by rw [e1]; exact e2, ?_⟩
      rw [toList_walkUpRot23 e2]
      simp only [Node.toList, k1]
      rw [insertAfter_append_ge x y hlt']
      intro z hz
      unfold Ordered at ho
      simp only [Node.toList] at ho
      have hzy : z.d ≤ y.d := (List.pairwise_append.1 ho).2.2 z hz y (List.mem_cons_self _ _)
      rw [less_eq_false_iff] at hlt' ⊢
      exact le_trans hzy hlt'

end llrb

namespace llrb

open timedlist

@[simp] theorem isRed_nil : isRed .nil = false := rfl

@[simp] theorem isRed_node (l : Node) (x : TimedEntry) (r : Node) (c : Bool) :
    isRed (.node l x r c) = !c := rfl

@[simp] theorem blackHeight_nil : blackHeight .nil = 0 := rfl

@[simp] theorem blackHeight_node (l : Node) (x : TimedEntry) (r : Node) (c : Bool) :
    blackHeight (.node l x r c) = blackHeight l + (if c then 1 else 0) := rfl

@[simp] theorem isLLRB_nil : isLLRB .nil = true := rfl

@[simp] theorem isLLRB_node (l : Node) (x : TimedEntry) (r : Node) (c : Bool) :
    isLLRB (.node l x r c) =
      (isLLRB l && isLLRB r && (blackHeight l == blackHeight r) && !isRed r && (c || !isRed l)) :=
  rfl

@[simp] theorem setBlack_nil : setBlack .nil = .nil := rfl

@[simp] theorem setBlack_node (l : Node) (x : TimedEntry) (r : Node) (c : Bool) :
    setBlack (.node l x r c) = .node l x r true := rfl

@[simp] theorem Left_node (l : Node) (x : TimedEntry) (r : Node) (c : Bool) :
    (Node.node l x r c).Left = l := rfl

@[simp] theorem Right_node (l : Node) (x : TimedEntry) (r : Node) (c : Bool) :
    (Node.node l x r c).Right = r := rfl

@[simp] theorem Left_nil : Node.nil.Left = .nil := rfl

@[simp] theorem Right_nil : Node.nil.Right = .nil := rfl

theorem walkUpRot23_left (l l1 : Node) (y : TimedEntry) (r : Node) (c : Bool) (h' : Node)
    (hv : isLLRB (.node l y r c) = true)
    (hb : blackHeight l1 = blackHeight l)
    (h1 : isLLRB (setBlack l1) = true)
    (h2 : isRed l = false → isLLRB l1 = true)
    (h3 : isRed l = true → isRed l1 = true)
    (hn : l1 ≠ .nil)
    (e : walkUpRot23 (.node l1 y r c) = some h') :
    blackHeight h' = blackHeight (.node l y r c) ∧ isLLRB (setBlack h') = true ∧
      (c = true → isLLRB h' = true) ∧ (c = false → isRed h' = true) ∧ h' ≠ .nil := by
  rcases l1 with _ | ⟨ll, lx, lr, cl⟩
  · exact absurd rfl hn
  rcases ll with _ | ⟨lll, llx, llr, cll⟩ <;> rcases r with _ | ⟨rl, rx, rr, cr⟩ <;>
    cases c <;> cases cl <;> cases hl : isRed l <;> (try cases cll) <;> (try cases cr) <;>
    simp [hl, walkUpRot23, rotateLeft, rotateRight, flip] at hv hb h1 h2 h3 e <;>
    (try subst e) <;> simp [hl] <;> (try omega) <;> (try (simp_all <;> omega))

theorem walkUpRot23_right (l r r1 : Node) (y : TimedEntry) (c : Bool) (h' : Node)
    (hv : isLLRB (.node l y r c) = true)
    (hb : blackHeight r1 = blackHeight r)
    (h2 : isLLRB r1 = true)
    (hn : r1 ≠ .nil)
    (e : walkUpRot23 (.node l y r1 c) = some h') :
    blackHeight h' = blackHeight (.node l y r c) ∧ isLLRB (setBlack h') = true ∧
      (c = true → isLLRB h' = true) ∧ (c = false → isRed h' = true) ∧ h' ≠ .nil := by
  rcases r1 with _ | ⟨rl, rx, rr, cr⟩
  · exact absurd rfl hn
  rcases l with _ | ⟨ll, lx, lr, cl⟩ <;>
    cases c <;> cases cr <;> (try cases cl) <;>
    simp at hv hb h2 <;>
    simp [walkUpRot23, rotateLeft, rotateRight, flip, hv, h2] at e <;>
    (try subst e) <;> simp <;> (try omega) <;> (try (simp_all <;> omega))

theorem insertNoReplace_isLLRB (h : Node) (x : TimedEntry) (hv : isLLRB h = true) (h' : Node)
    (e : insertNoReplace h x = some h') :
    blackHeight h' = blackHeight h ∧ isLLRB (setBlack h') = true ∧
      (isRed h = false → isLLRB h' = true) ∧ (isRed h = true → isRed h' = true) ∧
      h' ≠ .nil := by
  induction h generalizing h' with
  | nil =>
    simp [insertNoReplace, newNode] at e
    subst e
    simp
  | node l y r c ihl ihr =>
    have hvl : isLLRB l = true := by simp at hv; exact hv.1.1.1.1
    have hvr : isLLRB r = true := by simp at hv; exact hv.1.1.1.2
    have hrr : isRed r = false := by simp at hv; exact hv.1.2
    simp only [insertNoReplace] at e
    split at e
    · split at e
      · rename_i l1 e1
        obtain ⟨a1, a2, a3, a4, a5⟩ := ihl hvl l1 e1
        have := walkUpRot23_left l l1 y r c h' hv a1 a2 a3 a4 a5 e
        obtain ⟨b1, b2, b3, b4, b5⟩ := this
        refine ⟨b1, b2, ?_, ?_, b5⟩
        · intro hc; simp at hc; exact b3 hc
        · intro hc; simp at hc; exact b4 hc
      · simp at e
    · split at e
      · rename_i r1 e1
        obtain ⟨a1, a2, a3, a4, a5⟩ := ihr hvr r1 e1
        have := walkUpRot23_right l r r1 y c h' hv a1 (a3 hrr) a5 e
        obtain ⟨b1, b2, b3, b4, b5⟩ := this
        refine ⟨b1, b2, ?_, ?_, b5⟩
        · intro hc; simp at hc; exact b3 hc
        · intro hc; simp at hc; exact b4 hc
      · simp at e

theorem Ordered_insertAfter (x : TimedEntry) (l : List TimedEntry) (ho : Ordered l) :
    Ordered (insertAfter x l) := by
  induction l with
  | nil => simp [insertAfter, Ordered]
  | cons y ys ih =>
    unfold Ordered at ho ih ⊢
    simp only [insertAfter]
    split
    · rename_i hlt
      rw [less_eq_true_iff] at hlt
      refine List.Pairwise.cons ?_ ho
      intro z hz
      rcases List.mem_cons.1 hz with rfl | hz
      · exact le_of_lt hlt
      · exact le_trans (le_of_lt hlt) (List.rel_of_pairwise_cons ho hz)
    · rename_i hlt
      have hlt' : less x y = false := by simpa using hlt
      rw [less_eq_false_iff] at hlt'
      refine List.Pairwise.cons ?_ (ih ho.of_cons)
      intro z hz
      have hperm : ∀ (l : List TimedEntry), ∀ w ∈ insertAfter x l, w = x ∨ w ∈ l := by
        intro l
        induction l with
        | nil => intro w hw; simpa [insertAfter] using hw
        | cons a l ih2 =>
          intro w hw
          simp only [insertAfter] at hw
          split at hw
          · simpa using hw
          · rcases List.mem_cons.1 hw with rfl | hw
            · simp
            · rcases ih2 w hw with h | h
              · exact Or.inl h
              · exact Or.inr (List.mem_cons_of_mem _ h)
      rcases hperm ys z hz with rfl | hz
      · exact hlt'
      · exact List.rel_of_pairwise_cons ho hz

theorem insertAfter_perm (x : TimedEntry) (l : List TimedEntry) :
    (insertAfter x l).Perm (x :: l) := by
  induction l with
  | nil => simp [insertAfter]
  | cons y ys ih =>
    simp only [insertAfter]
    split
    · exact List.Perm.refl _
    · exact (List.Perm.cons y ih).trans (List.Perm.swap x y ys)

theorem length_insertAfter (x : TimedEntry) (l : List TimedEntry) :
    (insertAfter x l).length = l.length + 1 := by
  simpa using (insertAfter_perm x l).length_eq

theorem toList_setBlack (h : Node) : (setBlack h).toList = h.toList := by
  cases h <;> rfl

theorem isRed_setBlack (h : Node) : isRed (setBlack h) = false := by
  cases h <;> rfl

theorem minItem_eq_head (h : Node) : minItem h = h.toList.head? := by
  induction h with
  | nil => rfl
  | node l x r c ihl _ =>
    cases l with
    | nil => rfl
    | node ll lx lr lc =>
      rw [minItem, ihl]
      simp [Node.toList]
      cases hll : (ll.toList ++ lx :: lr.toList) with
      | nil => simp at hll
      | cons a as => simp

theorem deleteMin_toList (fuel : Nat) (h h' : Node) (r : Option TimedEntry)
    (e : deleteMin fuel h = some (h', r)) :
    ∃ pre, h.toList = pre ++ h'.toList ∧ r = pre.head? := by
  induction fuel generalizing h h' r with
  | zero => simp [deleteMin] at e
  | succ n ih =>
    rcases h with _ | ⟨l, x, rt, c⟩
    · simp [deleteMin] at e
      obtain ⟨rfl, rfl⟩ := e
      exact ⟨[], rfl, rfl⟩
    rcases l with _ | ⟨ll, lx, lr, lc⟩
    · simp [deleteMin] at e
      obtain ⟨rfl, rfl⟩ := e
      exact ⟨x :: rt.toList, by simp [Node.toList], rfl⟩
    · simp only [deleteMin] at e
      split at e
      · rename_i l1 x1 r1 c1 hm
        have k1 : (Node.node l1 x1 r1 c1).toList =
            (Node.node (.node ll lx lr lc) x rt c).toList := by
          split at hm
          · exact toList_moveRedLeft hm
          · simp at hm
            obtain ⟨rfl, rfl, rfl, rfl⟩ := hm
            rfl
        split at e
        · rename_i l2 deleted hd
          split at e
          · rename_i h2 hf
            simp at e
            obtain ⟨rfl, rfl⟩ := e
            obtain ⟨pre, p1, p2⟩ := ih l1 l2 deleted hd
            refine ⟨pre, ?_, p2⟩
            rw [toList_fixUp hf, ← k1]
            simp [Node.toList, p1]
          · simp at e
        · simp at e
      · simp at e

theorem eq_nil_of_blackHeight_zero (r : Node) (hb : blackHeight r = 0)
    (hr : isRed r = false) : r = .nil := by
  rcases r with _ | ⟨rl, rx, rr, rc⟩
  · rfl
  · cases rc <;> simp at hb hr

theorem fixUp_id (l2 : Node) (x : TimedEntry) (r : Node) (c : Bool)
    (hr : isRed r = false) (hl : isLLRB l2 = true) :
    fixUp (.node l2 x r c) = some (.node l2 x r c) := by
  rcases l2 with _ | ⟨ll, lx, lr, lc⟩
  · simp [fixUp, hr]
  · rcases ll with _ | ⟨lll, llx, llr, llc⟩
    · simp [fixUp, hr]
    · cases lc <;> cases llc <;> simp at hl <;> simp [fixUp, hr]

theorem fixUp_red_right (l2 : Node) (x : TimedEntry) (rl : Node) (rx : TimedEntry) (rr : Node)
    (hl : isLLRB l2 = true) (hrl : isLLRB rl = true) (hrr : isLLRB rr = true)
    (b1 : blackHeight l2 = blackHeight rl) (b2 : blackHeight rl = blackHeight rr)
    (c1 : isRed rl = false) (c2 : isRed rr = false) :
    ∃ h2, fixUp (.node l2 x (.node rl rx rr false) true) = some h2 ∧ isLLRB h2 = true ∧
      blackHeight h2 = blackHeight l2 + 1 := by
  rcases l2 with _ | ⟨ll, lx, lr, lc⟩
  · simp [fixUp, rotateLeft, c1, c2, hrl, hrr]
    simp at b1
    omega
  · rcases ll with _ | ⟨lll, llx, llr, llc⟩ <;> cases lc <;> (try cases llc) <;>
      simp at hl b1 <;>
      simp [fixUp, rotateLeft, rotateRight, flip, c1, c2, hrl, hrr, hl] <;>
      (try omega)

@[simp] theorem size_nil : Node.nil.size = 0 := rfl

@[simp] theorem size_node (l : Node) (x : TimedEntry) (r : Node) (c : Bool) :
    (Node.node l x r c).size = l.size + r.size + 1 := rfl

theorem isLLRB_node_iff (l : Node) (x : TimedEntry) (r : Node) (c : Bool) :
    isLLRB (.node l x r c) = true ↔
      isLLRB l = true ∧ isLLRB r = true ∧ blackHeight l = blackHeight r ∧ isRed r = false ∧
        (c = false → isRed l = false) := by
  cases c <;> simp <;> tauto

theorem deleteMin_isLLRB (fuel : Nat) (h : Node) (hs : h.size < fuel) (hn : h ≠ .nil)
    (hv : isLLRB h = true) (hp : isRed h = true ∨ isRed h.Left = true) :
    ∃ h' e, deleteMin fuel h = some (h', some e) ∧ h.toList = e :: h'.toList ∧
      isLLRB h' = true ∧ blackHeight h' = blackHeight h ∧
      (isRed h = false → isRed h' = false) := by
  induction fuel generalizing h with
  | zero => omega
  | succ n ih =>
    rcases h with _ | ⟨l, x, r, c⟩
    · exact absurd rfl hn
    obtain ⟨vl, vr, vb, vrr, vc⟩ := (isLLRB_node_iff _ _ _ _).1 hv
    rcases l with _ | ⟨ll, lx, lr, lc⟩
    · -- the leftmost node
      simp at hp vb
      have hr : r = .nil := eq_nil_of_blackHeight_zero r vb.symm vrr
      subst hr
      refine ⟨.nil, x, by simp [deleteMin], by simp [Node.toList], rfl, ?_, ?_⟩
      · simp [hp]
      · simp [hp]
    obtain ⟨v1, v2, v3, v4, v4b⟩ := (isLLRB_node_iff _ _ _ _).1 vl
    cases c
    · -- a red node: its children are black
      have hlc : lc = true := by simpa using vc rfl
      subst hlc
      rcases r with _ | ⟨rl, rx, rr, rc⟩
      · simp at vb
      obtain ⟨v5, v6, v7, v8, v9⟩ := (isLLRB_node_iff _ _ _ _).1 vr
      have hrc : rc = true := by simpa using vrr
      subst hrc
      simp at vb hs
      cases hll : isRed ll
      · -- moveRedLeft
        cases hrl : isRed rl
        · -- no rotation: recursion on the left child, now red
          obtain ⟨l2, e, he, hl, hv2, hb2, -⟩ :=
            ih (.node ll lx lr false) (by simp; omega) (by simp)
              (by simp [v1, v2, v3, v4, hll]) (by simp)
          obtain ⟨h2, hf, hv3, hb3⟩ := fixUp_red_right l2 x rl rx rr hv2 v5 v6
            (by simp at hb2; omega) v7 hrl v8
          refine ⟨h2, e, ?_, ?_, hv3, ?_, by simp⟩
          · simp [deleteMin, moveRedLeft, flip, hll, hrl, he, hf]
          · rw [toList_fixUp hf]
            simp only [Node.toList] at hl ⊢
            rw [hl]; simp
          · simp at hb2 ⊢
            omega
        · -- rotation: recursion on a black node with a red left child
          rcases rl with _ | ⟨rll, rlx, rlr, rlc⟩
          · simp at hrl
          have hrlc : rlc = false := by simpa using hrl
          subst hrlc
          obtain ⟨w1, w2, w3, w4, w5⟩ := (isLLRB_node_iff _ _ _ _).1 v5
          simp at v7 vb hs
          obtain ⟨l2, e, he, hl, hv2, hb2, hc2⟩ :=
            ih (.node (.node ll lx lr false) x rll true) (by simp; omega) (by simp)
              (by simp [v1, v2, v3, v4, hll, w1, w5 rfl]; omega) (by simp)
          have hf := fixUp_id l2 rlx (.node rlr rx rr true) false (by simp) hv2
          refine ⟨.node l2 rlx (.node rlr rx rr true) false, e, ?_, ?_, ?_, ?_, by simp⟩
          · simp [deleteMin, moveRedLeft, flip, rotateRight, rotateLeft, hll, he, hf]
          · have h3 := congrArg (fun t => t ++ (rlx :: (rlr.toList ++ rx :: rr.toList))) hl
            simpa [Node.toList] using h3
          · simp at hb2 hc2
            simp [hv2, w2, v6, v8, hc2]
            omega
          · simp at hb2 ⊢
            omega
      · -- recursion on the left child, black with a red left child
        obtain ⟨l2, e, he, hl, hv2, hb2, hc2⟩ :=
          ih (.node ll lx lr true) (by simp; omega) (by simp)
            (by simp [v1, v2, v3, v4]) (by simp [hll])
        have hf := fixUp_id l2 x (.node rl rx rr true) false (by simp) hv2
        refine ⟨.node l2 x (.node rl rx rr true) false, e, ?_, ?_, ?_, ?_, by simp⟩
        · simp [deleteMin, hll, he, hf]
        · simp only [Node.toList] at hl ⊢
          rw [hl]; simp
        · simp at hb2 hc2
          simp [hv2, v5, v6, v7, v8, hc2]
          omega
        · simp at hb2 ⊢
          omega
    · -- a black node with a red left child: recursion on that child
      simp at hp
      subst hp
      simp at vb hs
      obtain ⟨l2, e, he, hl, hv2, hb2, -⟩ :=
        ih (.node ll lx lr false) (by simp; omega) (by simp)
          (by simp [v1, v2, v3, v4, v4b]) (by simp)
      have hf := fixUp_id l2 x r true vrr hv2
      refine ⟨.node l2 x r true, e, ?_, ?_, ?_, ?_, by simp⟩
      · simp [deleteMin, he, hf]
      · simp only [Node.toList] at hl ⊢
        rw [hl]; simp
      · simp at hb2
        simp [hv2, vr, vrr]
        omega
      · simp at hb2 ⊢
        omega

@[simp] theorem toggle_nil : toggle .nil = .nil := rfl

@[simp] theorem toggle_node (l : Node) (x : TimedEntry) (r : Node) (c : Bool) :
    toggle (.node l x r c) = .node l x r (!c) := rfl

theorem toList_toggle (h : Node) : (toggle h).toList = h.toList := by
  cases h <;> rfl

theorem setBlack_toggle (h : Node) : setBlack (toggle h) = setBlack h := by
  cases h <;> rfl

theorem isLLRB_setBlack (h : Node) (hv : isLLRB h = true) : isLLRB (setBlack h) = true := by
  rcases h with _ | ⟨l, x, r, c⟩
  · rfl
  · obtain ⟨a, b, c1, d, -⟩ := (isLLRB_node_iff _ _ _ _).1 hv
    simp [a, b, c1, d]

theorem moveRedLeft_toggle (l : Node) (x : TimedEntry) (r : Node) (c : Bool) :
    moveRedLeft (.node l x r (!c)) = (moveRedLeft (.node l x r c)).map toggle := by
  rcases l with _ | ⟨ll, lx, lr, lc⟩ <;> rcases r with _ | ⟨rl, rx, rr, rc⟩ <;>
    try rcases rl with _ | ⟨rll, rlx, rlr, rlc⟩
  all_goals try cases rlc
  all_goals try cases rc
  all_goals simp [moveRedLeft, flip, rotateLeft, rotateRight]

theorem fixUp_toggle (l : Node) (x : TimedEntry) (r : Node) (c : Bool) :
    fixUp (.node l x r (!c)) = (fixUp (.node l x r c)).map toggle := by
  rcases l with _ | ⟨ll, lx, lr, lc⟩ <;> rcases r with _ | ⟨rl, rx, rr, rc⟩ <;>
    try rcases ll with _ | ⟨lll, llx, llr, llc⟩
  all_goals try rcases rr with _ | ⟨rrl, rrx, rrr, rrc⟩
  all_goals try cases lc
  all_goals try cases rc
  all_goals try cases llc
  all_goals try cases rrc
  all_goals simp [fixUp, flip, rotateLeft, rotateRight]

theorem deleteMin_toggle (fuel : Nat) (l : Node) (x : TimedEntry) (r : Node) (c : Bool) :
    deleteMin fuel (.node l x r (!c)) =
      (deleteMin fuel (.node l x r c)).map (fun p => (toggle p.1, p.2)) := by
  cases fuel with
  | zero => simp [deleteMin]
  | succ n =>
    rcases l with _ | ⟨ll, lx, lr, lc⟩
    · simp [deleteMin]
    · simp only [deleteMin]
      have key : (if (!isRed (Node.node ll lx lr lc) && !isRed (Node.node ll lx lr lc).Left) = true
            then moveRedLeft (.node (.node ll lx lr lc) x r (!c))
            else some (.node (.node ll lx lr lc) x r (!c))) =
          (if (!isRed (Node.node ll lx lr lc) && !isRed (Node.node ll lx lr lc).Left) = true
            then moveRedLeft (.node (.node ll lx lr lc) x r c)
            else some (.node (.node ll lx lr lc) x r c)).map toggle := by
        split
        · exact moveRedLeft_toggle _ _ _ _
        · rfl
      rw [key]
      rcases (if (!isRed (Node.node ll lx lr lc) && !isRed (Node.node ll lx lr lc).Left) = true
            then moveRedLeft (.node (.node ll lx lr lc) x r c)
            else some (.node (.node ll lx lr lc) x r c)) with _ | h1
      · rfl
      · rcases h1 with _ | ⟨l1, x1, r1, c1⟩
        · rfl
        · simp only [Option.map_some', toggle_node]
          rcases deleteMin n l1 with _ | ⟨l2, deleted⟩
          · rfl
          · simp only [fixUp_toggle]
            rcases fixUp (.node l2 x1 r1 c1) with _ | h2
            · rfl
            · rfl

theorem deleteMin_root (h : Node) (hn : h ≠ .nil) (hv : isLLRB h = true)
    (hb : isRed h = false) :
    ∃ h' e, deleteMin (h.size + 1) h = some (h', some e) ∧ h.toList = e :: h'.toList ∧
      isLLRB (setBlack h') = true := by
  rcases h with _ | ⟨l, x, r, c⟩
  · exact absurd rfl hn
  have hc : c = true := by simpa using hb
  subst hc
  obtain ⟨vl, vr, vb, vrr, -⟩ := (isLLRB_node_iff _ _ _ _).1 hv
  rcases l with _ | ⟨ll, lx, lr, lc⟩
  · have hr : r = .nil := eq_nil_of_blackHeight_zero r (by simpa using vb.symm) vrr
    subst hr
    exact ⟨.nil, x, by simp [deleteMin], by simp [Node.toList], rfl⟩
  cases lc
  · obtain ⟨h', e, he, hl, hv', -, -⟩ :=
      deleteMin_isLLRB ((Node.node (.node ll lx lr false) x r true).size + 1) _
        (Nat.lt_succ_self _) (by simp) hv (by simp)
    exact ⟨h', e, he, hl, isLLRB_setBlack _ hv'⟩
  · obtain ⟨h', e, he, hl, hv', -, -⟩ :=
      deleteMin_isLLRB ((Node.node (.node ll lx lr true) x r true).size + 1)
        (.node (.node ll lx lr true) x r false)
        (by simp) (by simp)
        (by rw [isLLRB_node_iff]; exact ⟨vl, vr, vb, vrr, by simp⟩) (by simp)
    have ht := deleteMin_toggle ((Node.node (.node ll lx lr true) x r true).size + 1)
      (.node ll lx lr true) x r false
    rw [he] at ht
    simp only [Bool.not_false, Option.map_some'] at ht
    refine ⟨toggle h', e, ht, ?_, ?_⟩
    · rw [toList_toggle]
      simpa [Node.toList] using hl
    · rw [setBlack_toggle]
      exact isLLRB_setBlack _ hv'

theorem Ordered_of_cons {e : TimedEntry} {l : List TimedEntry} (h : Ordered (e :: l)) :
    Ordered l :=
  List.Pairwise.of_cons h

theorem Ordered_sublist {l1 l2 : List TimedEntry} (hs : l1.Sublist l2) (h : Ordered l2) :
    Ordered l1 :=
  List.Pairwise.sublist hs h

theorem LLRB.Min_eq_head (t : LLRB) : t.Min = t.root.toList.head? :=
  minItem_eq_head t.root

theorem LLRB.InsertNoReplace_spec (t : LLRB) (x : TimedEntry) (ho : Ordered t.root.toList) :
    ∃ t', t.InsertNoReplace x = some t' ∧ t'.root.toList = insertAfter x t.root.toList ∧
      t'.count = t.count + 1 ∧ (t.WF → t'.WF) := by
  obtain ⟨h', e, hl⟩ := insertNoReplace_toList t.root x ho
  refine ⟨{ count := t.count + 1, root := setBlack h' }, ?_, ?_, rfl, ?_⟩
  · simp [LLRB.InsertNoReplace, e]
  · simp [toList_setBlack, hl]
  · intro hw
    obtain ⟨w1, w2, w3, w4⟩ := hw
    obtain ⟨-, a2, -, -, -⟩ := insertNoReplace_isLLRB t.root x w1 h' e
    refine ⟨a2, isRed_setBlack _, ?_, ?_⟩
    · simp only [toList_setBlack, hl]
      exact Ordered_insertAfter x _ w3
    · simp only [toList_setBlack, hl, length_insertAfter, w4]
      push_cast
      ring

theorem LLRB.DeleteMin_spec (t : LLRB) (hw : t.WF) (hn : t.root ≠ .nil) :
    ∃ t' e, t.DeleteMin = some (t', some e) ∧ t.root.toList = e :: t'.root.toList ∧
      t'.WF ∧ t'.count = t.count - 1 := by
  obtain ⟨w1, w2, w3, w4⟩ := hw
  obtain ⟨h', e, he, hl, hv⟩ := deleteMin_root t.root hn w1 w2
  refine ⟨{ count := t.count - 1, root := setBlack h' }, e, ?_, ?_, ?_, rfl⟩
  · simp [LLRB.DeleteMin, he]
  · simp [toList_setBlack, hl]
  · refine ⟨hv, isRed_setBlack _, ?_, ?_⟩
    · simp only [toList_setBlack]
      rw [hl] at w3
      exact Ordered_of_cons w3
    · simp only [toList_setBlack]
      rw [w4, hl]
      simp

theorem LLRB.DeleteMin_toList (t t' : LLRB) (r : Option TimedEntry)
    (e : t.DeleteMin = some (t', r)) :
    ∃ pre, t.root.toList = pre ++ t'.root.toList ∧ r = pre.head? ∧
      t'.count = if r.isSome then t.count - 1 else t.count := by
  unfold LLRB.DeleteMin at e
  split at e
  · rename_i h' deleted hd
    simp at e
    obtain ⟨rfl, rfl⟩ := e
    obtain ⟨pre, p1, p2⟩ := deleteMin_toList _ _ _ _ hd
    exact ⟨pre, by simp [toList_setBlack, p1], p2, rfl⟩
  · simp at e

theorem Ordered_left {L R : List TimedEntry} {y : TimedEntry} (ho : Ordered (L ++ y :: R)) :
    Ordered L :=
  (List.pairwise_append.1 ho).1

theorem Ordered_right {L R : List TimedEntry} {y : TimedEntry} (ho : Ordered (L ++ y :: R)) :
    Ordered R :=
  ((List.pairwise_append.1 ho).2.1).of_cons

theorem Ordered_le_mid {L R : List TimedEntry} {y z : TimedEntry} (ho : Ordered (L ++ y :: R))
    (hz : z ∈ L) : z.d ≤ y.d :=
  (List.pairwise_append.1 ho).2.2 z hz y (List.mem_cons_self _ _)

theorem Ordered_mid_le {L R : List TimedEntry} {y z : TimedEntry} (ho : Ordered (L ++ y :: R))
    (hz : z ∈ R) : y.d ≤ z.d :=
  List.rel_of_pairwise_cons (List.pairwise_append.1 ho).2.1 hz

theorem moveRedLeft_item {l r l1 r1 : Node} {x x1 : TimedEntry} {c c1 : Bool}
    (e : moveRedLeft (.node l x r c) = some (.node l1 x1 r1 c1)) :
    x1 = x ∨ x ∈ l1.toList := by
  rcases l with _ | ⟨ll, lx, lr, lc⟩ <;> rcases r with _ | ⟨rl, rx, rr, rc⟩ <;>
    try rcases rl with _ | ⟨rll, rlx, rlr, rlc⟩
  all_goals try cases rlc
  all_goals try cases rc
  all_goals simp [moveRedLeft, flip, rotateLeft, rotateRight] at e
  all_goals first
    | (left; exact e.2.1.symm)
    | (right; rw [← e.1]; simp [Node.toList])

theorem rotateRight_item {l r l1 r1 : Node} {x x1 : TimedEntry} {c c1 : Bool}
    (e : rotateRight (.node l x r c) = some (.node l1 x1 r1 c1)) :
    x ∈ r1.toList := by
  rcases l with _ | ⟨ll, lx, lr, lc⟩
  · simp [rotateRight] at e
  · cases lc <;> simp [rotateRight] at e
    rw [← e.2.2.1]; simp [Node.toList]

theorem moveRedRight_item {l r l1 r1 : Node} {x x1 : TimedEntry} {c c1 : Bool}
    (e : moveRedRight (.node l x r c) = some (.node l1 x1 r1 c1)) :
    x1 = x ∨ x ∈ r1.toList := by
  rcases l with _ | ⟨ll, lx, lr, lc⟩ <;> rcases r with _ | ⟨rl, rx, rr, rc⟩ <;>
    try rcases ll with _ | ⟨lll, llx, llr, llc⟩
  all_goals try cases llc
  all_goals try cases lc
  all_goals simp [moveRedRight, flip, rotateRight] at e
  all_goals first
    | (left; exact e.2.1.symm)
    | (right; rw [← e.2.2.1]; simp [Node.toList])

theorem delete_toList (fuel : Nat) (h : Node) (item : TimedEntry) (h' : Node)
    (r : Option TimedEntry) (ho : Ordered h.toList)
    (e : delete fuel h item = some (h', r)) :
    (r = none → h'.toList = h.toList) ∧
    (∀ d, r = some d → d.d = item.d ∧
      (∃ l1 l2, h.toList = l1 ++ d :: l2 ∧ h'.toList.Sublist (l1 ++ l2)) ∧
      (∀ mn, h'.toList.head? = some mn →
        ∃ m, h.toList.head? = some m ∧ (d.d < mn.d ∨ mn.d = m.d))) := by
  induction fuel generalizing h h' r with
  | zero => simp [delete] at e
  | succ n ih =>
    rcases h with _ | ⟨l, x, rt, c⟩
    · simp [delete] at e
      obtain ⟨rfl, rfl⟩ := e
      simp
    simp only [delete] at e
    split at e
    · -- the item is less than the item of the node
      rename_i hlt
      rw [less_eq_true_iff] at hlt
      split at e
      · simp at e
        obtain ⟨rfl, rfl⟩ := e
        simp
      · split at e
        · rename_i l1 x1 r1 c1 hm
          have k1 : (Node.node l1 x1 r1 c1).toList = (Node.node l x rt c).toList := by
            split at hm
            · exact toList_moveRedLeft hm
            · simp at hm
              obtain ⟨rfl, rfl, rfl, rfl⟩ := hm
              rfl
          have kx : x1 = x ∨ x ∈ l1.toList := by
            split at hm
            · exact moveRedLeft_item hm
            · simp at hm
              exact Or.inl hm.2.1.symm
          have ho1 : Ordered (l1.toList ++ x1 :: r1.toList) := by
            rw [← k1] at ho; exact ho
          have hx1 : x.d ≤ x1.d := by
            rcases kx with rfl | hx
            · exact le_refl _
            · exact Ordered_le_mid ho1 hx
          split at e
          · rename_i l2 deleted hd
            split at e
            · rename_i h2 hf
              simp at e
              obtain ⟨rfl, rfl⟩ := e
              obtain ⟨i1, i2⟩ := ih l1 l2 deleted (Ordered_left ho1) hd
              have k2 : h2.toList = l2.toList ++ x1 :: r1.toList := by
                rw [toList_fixUp hf]; rfl
              rw [k2, ← k1]
              simp only [Node.toList]
              refine ⟨fun hnone => by rw [i1 hnone], ?_⟩
              intro d hd'
              obtain ⟨j1, ⟨a, b, j2, j3⟩, j4⟩ := i2 d hd'
              refine ⟨j1, ⟨a, b ++ x1 :: r1.toList, by simp [j2], ?_⟩, ?_⟩
              · rw [← List.append_assoc]
                exact List.Sublist.append j3 (List.Sublist.refl _)
              · intro mn hmn
                cases hl2 : l2.toList with
                | nil =>
                  rw [hl2] at hmn
                  simp at hmn
                  subst hmn
                  refine ⟨(a ++ d :: b ++ x1 :: r1.toList).head (by simp), ?_, ?_⟩
                  · rw [j2]
                    exact List.head?_eq_head _
                  · left
                    rw [j1]
                    exact lt_of_lt_of_le hlt hx1
                | cons y ys =>
                  rw [hl2] at hmn
                  simp at hmn
                  subst hmn
                  obtain ⟨m, m1, m2⟩ := j4 y (by rw [hl2]; rfl)
                  refine ⟨m, ?_, m2⟩
                  cases hl1 : l1.toList with
                  | nil => rw [hl1] at m1; simp at m1
                  | cons z zs => rw [hl1] at m1; simpa using m1
            · simp at e
          · simp at e
        · simp at e
    · -- the item is not less than the item of the node
      rename_i hge
      have hge' : x.d ≤ item.d := by
        have : less item x = false := by simpa using hge
        exact (less_eq_false_iff _ _).1 this
      split at e
      · rename_i l1 x1 r1 c1 hr
        have k1 : (Node.node l1 x1 r1 c1).toList = (Node.node l x rt c).toList := by
          split at hr
          · exact toList_rotateRight hr
          · simp at hr
            obtain ⟨rfl, rfl, rfl, rfl⟩ := hr
            rfl
        have kx : x1 = x ∨ x ∈ r1.toList := by
          split at hr
          · exact Or.inr (rotateRight_item hr)
          · simp at hr
            exact Or.inl hr.2.1.symm
        have ho1 : Ordered (l1.toList ++ x1 :: r1.toList) := by
          rw [← k1] at ho; exact ho
        have hx1 : x1.d ≤ x.d := by
          rcases kx with rfl | hx
          · exact le_refl _
          · exact Ordered_mid_le ho1 hx
        split at e
        · -- the node has no right child and its item is the one looked for
          rename_i hc
          simp at e
          obtain ⟨rfl, rfl⟩ := e
          simp only [Bool.and_eq_true, Bool.not_eq_true', decide_eq_true_eq] at hc
          obtain ⟨hc1, hc2⟩ := hc
          rw [less_eq_false_iff] at hc1
          subst hc2
          refine ⟨by simp, ?_⟩
          intro d hd'
          simp at hd'
          subst hd'
          refine ⟨le_antisymm (le_trans hx1 hge') hc1, ⟨l1.toList, [], ?_, by simp [Node.toList]⟩,
            by simp [Node.toList]⟩
          rw [← k1]; rfl
        · split at e
          · rename_i l2 x2 r2 c2 hm
            have k2 : (Node.node l2 x2 r2 c2).toList = (Node.node l1 x1 r1 c1).toList := by
              split at hm
              · exact toList_moveRedRight hm
              · simp at hm
                obtain ⟨rfl, rfl, rfl, rfl⟩ := hm
                rfl
            have kx2 : x2 = x1 ∨ x1 ∈ r2.toList := by
              split at hm
              · exact moveRedRight_item hm
              · simp at hm
                exact Or.inl hm.2.1.symm
            have ho2 : Ordered (l2.toList ++ x2 :: r2.toList) := by
              have : (Node.node l2 x2 r2 c2).toList = (Node.node l x rt c).toList := by
                rw [k2, k1]
              rw [← this] at ho; exact ho
            have hx2 : x2.d ≤ x1.d := by
              rcases kx2 with rfl | hx
              · exact le_refl _
              · exact Ordered_mid_le ho2 hx
            have kk : (Node.node l x rt c).toList = l2.toList ++ x2 :: r2.toList := by
              rw [← k1, ← k2]; rfl
            rw [kk]
            split at e
            · -- the item of the node is the one looked for
              rename_i heq
              have heq' : item.d ≤ x2.d := by
                have : less x2 item = false := by simpa using heq
                exact (less_eq_false_iff _ _).1 this
              split at e
              · rename_i r3 sub hd
                split at e
                · rename_i h3 hf
                  simp at e
                  obtain ⟨rfl, rfl⟩ := e
                  obtain ⟨pre, p1, p2⟩ := deleteMin_toList _ _ _ _ hd
                  have k3 : h3.toList = l2.toList ++ sub :: r3.toList := by
                    rw [toList_fixUp hf]; rfl
                  rw [k3]
                  refine ⟨by simp, ?_⟩
                  intro d hd'
                  simp at hd'
                  subst hd'
                  cases pre with
                  | nil => simp at p2
                  | cons s dropped =>
                    simp at p2
                    subst p2
                    refine ⟨le_antisymm (le_trans hx2 (le_trans hx1 hge')) heq',
                      ⟨l2.toList, r2.toList, rfl, ?_⟩, ?_⟩
                    · rw [p1]
                      refine List.Sublist.append (List.Sublist.refl _) ?_
                      simp only [List.cons_append]
                      exact List.Sublist.cons₂ _ (List.sublist_append_right _ _)
                    · intro mn hmn
                      cases hl2 : l2.toList with
                      | nil =>
                        rw [hl2] at hmn
                        simp at hmn
                        subst hmn
                        refine ⟨x2, by simp, ?_⟩
                        have : x2.d ≤ sub.d := Ordered_mid_le ho2 (by rw [p1]; simp)
                        rcases lt_or_eq_of_le this with h1 | h1
                        · exact Or.inl h1
                        · exact Or.inr h1.symm
                      | cons y ys =>
                        rw [hl2] at hmn
                        simp at hmn
                        subst hmn
                        exact ⟨y, by simp, Or.inr rfl⟩
                · simp at e
              · simp at e
            · -- the item looked for is greater
              split at e
              · rename_i r3 deleted hd
                split at e
                · rename_i h3 hf
                  simp at e
                  obtain ⟨rfl, rfl⟩ := e
                  obtain ⟨i1, i2⟩ := ih r2 r3 deleted (Ordered_right ho2) hd
                  have k3 : h3.toList = l2.toList ++ x2 :: r3.toList := by
                    rw [toList_fixUp hf]; rfl
                  rw [k3]
                  refine ⟨fun hnone => by rw [i1 hnone], ?_⟩
                  intro d hd'
                  obtain ⟨j1, ⟨a, b, j2, j3⟩, -⟩ := i2 d hd'
                  refine ⟨j1, ⟨l2.toList ++ x2 :: a, b, by simp [j2], ?_⟩, ?_⟩
                  · simp only [List.append_assoc, List.cons_append]
                    exact List.Sublist.append (List.Sublist.refl _) (List.Sublist.cons₂ _ j3)
                  · intro mn hmn
                    refine ⟨mn, ?_, Or.inr rfl⟩
                    cases hl2 : l2.toList with
                    | nil => rw [hl2] at hmn; simpa using hmn
                    | cons y ys => rw [hl2] at hmn; simpa using hmn
                · simp at e
              · simp at e
          · simp at e
      · simp at e

end llrb

namespace llrb

open timedlist

theorem LLRB.Delete_toList (t t' : LLRB) (key : TimedEntry) (r : Option TimedEntry)
    (ho : Ordered t.root.toList) (e : t.Delete key = some (t', r)) :
    (r = none → t'.root.toList = t.root.toList ∧ t'.count = t.count) ∧
    (∀ d, r = some d → d.d = key.d ∧ t'.count = t.count - 1 ∧
      (∃ l1 l2, t.root.toList = l1 ++ d :: l2 ∧ t'.root.toList.Sublist (l1 ++ l2)) ∧
      (∀ mn, t'.root.toList.head? = some mn →
        ∃ m, t.root.toList.head? = some m ∧ (d.d < mn.d ∨ mn.d = m.d))) := by
  unfold LLRB.Delete at e
  split at e
  · rename_i h' deleted hd
    simp at e
    obtain ⟨rfl, rfl⟩ := e
    obtain ⟨i1, i2⟩ := delete_toList _ _ _ _ _ ho hd
    simp only [toList_setBlack]
    refine ⟨fun hn => ⟨i1 hn, by simp [hn]⟩, ?_⟩
    intro d hd'
    obtain ⟨j1, j2, j3⟩ := i2 d hd'
    exact ⟨j1, by simp [hd'], j2, j3⟩
  · simp at e

theorem LLRB.WF_New : New.WF := by
  refine ⟨rfl, rfl, ?_, rfl⟩
  simp [Ordered, New, Node.toList]

theorem toList_eq_nil_iff (h : Node) : h.toList = [] ↔ h = .nil := by
  cases h <;> simp [Node.toList]

end llrb

/-! ## The tree: the fuel of `deleteMin` and `delete` never runs out -/

namespace llrb

open timedlist

theorem size_eq_length (h : Node) : h.size = h.toList.length := by
  induction h with
  | nil => rfl
  | node l x r c ihl ihr => simp [Node.toList, ihl, ihr]; omega

theorem size_eq_of_toList {h1 h2 : Node} (e : h1.toList = h2.toList) : h1.size = h2.size := by
  rw [size_eq_length, size_eq_length, e]

theorem deleteMin_fuel (f1 f2 : Nat) (h : Node) (h1 : h.size < f1) (h2 : h.size < f2) :
    deleteMin f1 h = deleteMin f2 h := by
  induction f1 generalizing f2 h with
  | zero => omega
  | succ n ih =>
    cases f2 with
    | zero => omega
    | succ m =>
      rcases h with _ | ⟨l, x, r, c⟩
      · rfl
      rcases l with _ | ⟨ll, lx, lr, lc⟩
      · rfl
      simp only [deleteMin]
      rcases hm : (if (!isRed (Node.node ll lx lr lc) && !isRed (Node.node ll lx lr lc).Left) = true
            then moveRedLeft (.node (.node ll lx lr lc) x r c)
            else some (.node (.node ll lx lr lc) x r c)) with _ | hh
      · rfl
      · rcases hh with _ | ⟨l1, x1, r1, c1⟩
        · rfl
        · have k1 : (Node.node l1 x1 r1 c1).toList =
              (Node.node (.node ll lx lr lc) x r c).toList := by
            split at hm
            · exact toList_moveRedLeft hm
            · simp at hm
              obtain ⟨rfl, rfl, rfl, rfl⟩ := hm
              rfl
          have k2 := size_eq_of_toList k1
          simp only [size_node] at k2 h1 h2
          dsimp only
          rw [ih m l1 (by omega) (by omega)]

theorem delete_fuel (f1 f2 : Nat) (h : Node) (item : TimedEntry) (h1 : h.size < f1)
    (h2 : h.size < f2) : delete f1 h item = delete f2 h item := by
  induction f1 generalizing f2 h with
  | zero => omega
  | succ n ih =>
    cases f2 with
    | zero => omega
    | succ m =>
      rcases h with _ | ⟨l, x, r, c⟩
      · rfl
      simp only [delete]
      split
      · split
        · rfl
        · rcases hm : (if (!isRed l && !isRed l.Left) = true
              then moveRedLeft (.node l x r c) else some (.node l x r c)) with _ | hh
          · rfl
          · rcases hh with _ | ⟨l1, x1, r1, c1⟩
            · rfl
            · have k1 : (Node.node l1 x1 r1 c1).toList = (Node.node l x r c).toList := by
                split at hm
                · exact toList_moveRedLeft hm
                · simp at hm
                  obtain ⟨rfl, rfl, rfl, rfl⟩ := hm
                  rfl
              have k2 := size_eq_of_toList k1
              simp only [size_node] at k2 h1 h2
              dsimp only
              rw [ih m l1 (by omega) (by omega)]
      · rcases hr : (if isRed l = true then rotateRight (.node l x r c)
            else some (.node l x r c)) with _ | hh
        · rfl
        · rcases hh with _ | ⟨l1, x1, r1, c1⟩
          · rfl
          · have k1 : (Node.node l1 x1 r1 c1).toList = (Node.node l x r c).toList := by
              split at hr
              · exact toList_rotateRight hr
              · simp at hr
                obtain ⟨rfl, rfl, rfl, rfl⟩ := hr
                rfl
            dsimp only
            split
            · rfl
            · rcases hm : (if (decide (r1 ≠ Node.nil) && !isRed r1 && !isRed r1.Left) = true
                  then moveRedRight (.node l1 x1 r1 c1) else some (.node l1 x1 r1 c1))
                with _ | hh2
              · rfl
              · rcases hh2 with _ | ⟨l2, x2, r2, c2⟩
                · rfl
                · have k3 : (Node.node l2 x2 r2 c2).toList = (Node.node l1 x1 r1 c1).toList := by
                    split at hm
                    · exact toList_moveRedRight hm
                    · simp at hm
                      obtain ⟨rfl, rfl, rfl, rfl⟩ := hm
                      rfl
                  have k2 := size_eq_of_toList (k3.trans k1)
                  simp only [size_node] at k2 h1 h2
                  dsimp only
                  rw [ih m r2 (by omega) (by omega),
                    deleteMin_fuel n m r2 (by omega) (by omega)]

/-- The fuel that `DeleteMin` passes is enough: more fuel gives the same
result, so `none` is always a panic of the Go function. -/
theorem DeleteMin_fuel_enough (t : LLRB) (fuel : Nat) (hf : t.root.size < fuel) :
    deleteMin fuel t.root = deleteMin (t.root.size + 1) t.root :=
  deleteMin_fuel _ _ _ hf (Nat.lt_succ_self _)

/-- The fuel that `Delete` passes is enough: more fuel gives the same result,
so `none` is always a panic of the Go function. -/
theorem Delete_fuel_enough (t : LLRB) (key : TimedEntry) (fuel : Nat)
    (hf : t.root.size < fuel) :
    delete fuel t.root key = delete (t.root.size + 1) t.root key :=
  delete_fuel _ _ _ _ hf (Nat.lt_succ_self _)

end llrb

/-! ## The list: what the operations do to a consistent list -/

namespace timedlist

open llrb

theorem insertAfter_ne_nil (x : TimedEntry) (l : List TimedEntry) : insertAfter x l ≠ [] := by
  cases l with
  | nil => simp [insertAfter]
  | cons y ys =>
    simp only [insertAfter]
    split <;> simp

theorem WF_length_zero {t : LLRB} (hw : t.WF) : t.Len = 0 ↔ t.root.toList = [] := by
  obtain ⟨-, -, -, w4⟩ := hw
  unfold LLRB.Len
  rw [w4]
  constructor
  · intro h
    have : t.root.toList.length = 0 := by exact_mod_cast h
    exact List.length_eq_zero.1 this
  · intro h
    rw [h]; rfl

theorem Live_New : NewTimedList.Live := by
  refine ⟨LLRB.WF_New, fun _ => ⟨rfl, rfl⟩, fun h => absurd rfl h⟩

theorem Live_WF {t : TimedList} (h : t.Live) : t.WF := by
  obtain ⟨h1, h2, h3⟩ := h
  refine ⟨h1, ?_, ?_⟩
  · intro ht
    by_cases hp : t.pending = []
    · exact (h2 hp).2
    · exact absurd ht (h3 hp).1
  · intro ht
    by_cases hp : t.pending = []
    · exact absurd (h2 hp).1 ht
    · rw [(h3 hp).2.1]; simp

theorem Add_Live (t : TimedList) (hl : t.Live) (addr : Nat) (v : Value) (d : Duration)
    (now0 now : Time) :
    ∃ t', t.Add addr v d now0 now = some (t', { addr := addr, v := v, d := now0 + d }) ∧
      t'.Live ∧ t'.pending = insertAfter { addr := addr, v := v, d := now0 + d } t.pending ∧
      t'.C = t.C := by
  obtain ⟨hw, h2, h3⟩ := hl
  obtain ⟨ents, hi, hli, -, hwf⟩ :=
    LLRB.InsertNoReplace_spec t.entries { addr := addr, v := v, d := now0 + d } hw.2.2.1
  have hpe : insertAfter { addr := addr, v := v, d := now0 + d } t.entries.root.toList ≠ [] :=
    insertAfter_ne_nil _ _
  by_cases hb : t.t = none ∨ t.entries.Len = 0
  · have hp : t.pending = [] := by
      rcases hb with hb | hb
      · by_contra hp
        exact (h3 hp).1 hb
      · exact (WF_length_zero hw).1 hb
    refine ⟨{ t with t := some (NewTimer d now), entries := ents, ctx := some false,
                     loops := t.loops + 1 }, ?_, ?_, ?_, rfl⟩
    · simp [TimedList.Add, hb, hi]
    · refine ⟨hwf hw, ?_, ?_⟩
      · intro h; simp only [TimedList.pending] at h; rw [hli] at h; exact absurd h hpe
      · intro _
        refine ⟨by simp, rfl, ?_⟩
        simp [(h2 hp).2]
    · simp [TimedList.pending, hli]
  · have hb' : t.t ≠ none ∧ t.entries.Len ≠ 0 := by
      constructor
      · intro h; exact hb (Or.inl h)
      · intro h; exact hb (Or.inr h)
    have hp : t.pending ≠ [] := fun h => hb'.2 ((WF_length_zero hw).2 h)
    obtain ⟨k1, k2, k3⟩ := h3 hp
    obtain ⟨tm, htm⟩ := Option.ne_none_iff_exists'.1 k1
    obtain ⟨m, hm⟩ : ∃ m, t.entries.Min = some m := by
      rw [LLRB.Min_eq_head]
      cases hh : t.entries.root.toList with
      | nil => exact absurd hh hp
      | cons a as => exact ⟨a, rfl⟩
    refine ⟨{ t with t := some (if m.d > now + d then tm.Stop.Reset d now else tm),
                     entries := ents }, ?_, ?_, ?_, rfl⟩
    · simp [TimedList.Add, hi, hm, htm]
      exact hb'.2
    · refine ⟨hwf hw, ?_, ?_⟩
      · intro h; simp only [TimedList.pending] at h; rw [hli] at h; exact absurd h hpe
      · intro _
        exact ⟨by simp, k2, k3⟩
    · simp [TimedList.pending, hli]

theorem run_Live (t : TimedList) (hl : t.Live) (e : TimedEntry) (rest : List TimedEntry)
    (hp : t.pending = e :: rest) (now : Time) :
    ∃ t', t.run now = some t' ∧ t'.Live ∧ t'.pending = rest ∧ t'.C = t.C ++ [e.v] := by
  obtain ⟨hw, h2, h3⟩ := hl
  have hne : t.pending ≠ [] := by rw [hp]; simp
  obtain ⟨k1, k2, k3⟩ := h3 hne
  obtain ⟨tm, htm⟩ := Option.ne_none_iff_exists'.1 k1
  have hroot : t.entries.root ≠ .nil := by
    intro h
    apply hne
    simp [TimedList.pending, h, Node.toList]
  obtain ⟨ents, e', hd, hl', hwf, hc⟩ := LLRB.DeleteMin_spec t.entries hw hroot
  have he : e' = e ∧ ents.root.toList = rest := by
    simp only [TimedList.pending] at hp
    rw [hp] at hl'
    simp at hl'
    exact ⟨hl'.1.symm, hl'.2.symm⟩
  obtain ⟨rfl, hrest⟩ := he
  by_cases hz : ents.Len = 0
  · have hr : rest = [] := by rw [← hrest]; exact (WF_length_zero hwf).1 hz
    refine ⟨{ t with entries := ents, C := t.C ++ [e'.v], t := none, loops := t.loops - 1 },
      ?_, ?_, ?_, rfl⟩
    · simp [TimedList.run, htm, k2, hd, hz]
    · refine ⟨hwf, fun _ => ⟨rfl, by simp [k3]⟩, ?_⟩
      intro h
      simp only [TimedList.pending] at h
      rw [hrest, hr] at h
      exact absurd rfl h
    · simp [TimedList.pending, hrest]
  · have hr : rest ≠ [] := by
      intro h
      apply hz
      rw [WF_length_zero hwf, hrest, h]
    obtain ⟨m, hm⟩ : ∃ m, ents.Min = some m := by
      rw [LLRB.Min_eq_head, hrest]
      cases rest with
      | nil => exact absurd rfl hr
      | cons a as => exact ⟨a, rfl⟩
    refine ⟨{ t with entries := ents, C := t.C ++ [e'.v],
                     t := some (tm.Reset (Until m.d now) now) }, ?_, ?_, ?_, rfl⟩
    · simp [TimedList.run, htm, k2, hd, hz, hm]
    · refine ⟨hwf, ?_, fun _ => ⟨by simp, k2, k3⟩⟩
      intro h
      simp only [TimedList.pending] at h
      rw [hrest] at h
      exact absurd h hr
    · simp [TimedList.pending, hrest]

theorem addAll_Live (calls : List AddCall) (t : TimedList) (hl : t.Live) :
    ∃ t', addAll t calls = some t' ∧ t'.Live ∧
      t'.pending.Perm (calls.map AddCall.entry ++ t.pending) ∧ t'.C = t.C := by
  induction calls generalizing t with
  | nil => exact ⟨t, rfl, hl, by simp, rfl⟩
  | cons c cs ih =>
    obtain ⟨t1, h1, hl1, hp1, hc1⟩ := Add_Live t hl c.addr c.v c.d c.now0 c.now
    obtain ⟨t2, h2, hl2, hp2, hc2⟩ := ih t1 hl1
    refine ⟨t2, ?_, hl2, ?_, by rw [hc2, hc1]⟩
    · simp [addAll, h1, h2]
    · refine hp2.trans ?_
      rw [hp1]
      simp only [List.map_cons, List.cons_append]
      refine (List.Perm.append_left _ (insertAfter_perm _ _)).trans ?_
      exact List.perm_middle

theorem fireAll_Live (nows : List Time) (t : TimedList) (hl : t.Live)
    (hn : nows.length = t.pending.length) :
    ∃ t', fireAll t nows = some t' ∧ t'.Live ∧ t'.pending = [] ∧
      t'.C = t.C ++ t.pending.map TimedEntry.v := by
  induction nows generalizing t with
  | nil =>
    have hp : t.pending = [] := List.length_eq_zero.1 (by simpa using hn.symm)
    exact ⟨t, rfl, hl, hp, by simp [hp]⟩
  | cons now nows ih =>
    cases hp : t.pending with
    | nil => rw [hp] at hn; simp at hn
    | cons e rest =>
      obtain ⟨t1, h1, hl1, hp1, hc1⟩ := run_Live t hl e rest hp now
      have hn1 : nows.length = t1.pending.length := by
        rw [hp1]; rw [hp] at hn; simpa using hn
      obtain ⟨t2, h2, hl2, hp2, hc2⟩ := ih t1 hl1 hn1
      refine ⟨t2, ?_, hl2, hp2, ?_⟩
      · simp [fireAll, h1, h2]
      · rw [hc2, hc1, hp1]; simp

/-- Any finite sequence of `Add` calls on a new list succeeds, and as many
turns of the dispatcher loop as there were calls (at any clock readings) all
succeed and empty the store; the values handed to the output, in order, are the
values of the added entries, each exactly once, in non-decreasing order of
deadline. The list ends with length zero, no timer and no loop. (Distinct
deadlines are not needed: entries with equal deadlines come out in the order
of their insertion.) -/
theorem addAll_fireAll_pops_in_order (calls : List AddCall)
    (nows : List Time) (hn : nows.length = calls.length) :
    ∃ t t', addAll NewTimedList calls = some t ∧ fireAll t nows = some t' ∧
      t'.Len = 0 ∧ t'.t = none ∧ t'.loops = 0 ∧ t'.pending = [] ∧
      ∃ es, es.Perm (calls.map AddCall.entry) ∧ Ordered es ∧ t.pending = es ∧
        t'.C = es.map TimedEntry.v := by
  obtain ⟨t, h1, hl1, hp1, hc1⟩ := addAll_Live calls NewTimedList Live_New
  have hp1' : t.pending.Perm (calls.map AddCall.entry) := by
    simpa [TimedList.pending, NewTimedList, New, Node.toList] using hp1
  have hlen : nows.length = t.pending.length := by
    rw [hn, hp1'.length_eq]; simp
  obtain ⟨t', h2, hl2, hp2, hc2⟩ := fireAll_Live nows t hl1 hlen
  refine ⟨t, t', h1, h2, ?_, (hl2.2.1 hp2).1, (hl2.2.1 hp2).2, hp2,
    t.pending, hp1', hl1.1.2.2.1, rfl, ?_⟩
  · exact (WF_length_zero hl2.1).2 hp2
  · rw [hc2, hc1]; simp [NewTimedList]

/-- An instance: three calls whose deadlines are 4, 1 and 2, then three
turns of the loop. -/
theorem addAll_fireAll_example :
    ∃ t t', addAll NewTimedList
        [⟨1, "first", 4, 0, 0⟩, ⟨2, "second", 1, 0, 0⟩, ⟨3, "third", 2, 0, 0⟩] = some t ∧
      fireAll t [1, 2, 4] = some t' ∧
      t'.Len = 0 ∧ t'.t = none ∧ t'.loops = 0 ∧ t'.pending = [] ∧
      ∃ es, es.Perm (([⟨1, "first", 4, 0, 0⟩, ⟨2, "second", 1, 0, 0⟩,
          ⟨3, "third", 2, 0, 0⟩] : List AddCall).map AddCall.entry) ∧ Ordered es ∧
        t.pending = es ∧ t'.C = es.map TimedEntry.v :=
  addAll_fireAll_pops_in_order
    [⟨1, "first", 4, 0, 0⟩, ⟨2, "second", 1, 0, 0⟩, ⟨3, "third", 2, 0, 0⟩] [1, 2, 4] rfl

/-- C2, at a failing input: `a` and `b` are added with the same deadline 5, so
both are pending. `Remove` called with the handle `b` returns the value of `a`
and deletes `a`, while `b` stays in the store; it does exactly what `Remove`
called with the handle `a` does. -/
theorem C2_Remove_deletes_another_entry :
    ∃ t1 a t2 b t3, NewTimedList.Add 1 "a" 5 0 0 = some (t1, a) ∧
      t1.Add 2 "b" 5 0 0 = some (t2, b) ∧ t2.pending = [a, b] ∧ a ≠ b ∧
      t2.Remove b 1 = some (t3, "a") ∧ t3.pending = [b] ∧
      t2.Remove a 1 = t2.Remove b 1 :=
  ⟨_, _, _, _, _, rfl, rfl, rfl, by decide, rfl, rfl, rfl⟩

/-- C3, at a failing input: `a` and `b` are added with the same deadline 5.
`Remove` with the handle `a` succeeds; a second `Remove` with the same handle
does not fail: it deletes `b` and returns the value of `b`. -/
theorem C3_second_Remove_succeeds :
    ∃ t1 a t2 b t3 t4, NewTimedList.Add 1 "a" 5 0 0 = some (t1, a) ∧
      t1.Add 2 "b" 5 0 0 = some (t2, b) ∧
      t2.Remove a 1 = some (t3, "a") ∧ t3.pending = [b] ∧
      t3.Remove a 2 = some (t4, "b") ∧ t4.pending = [] :=
  ⟨_, _, _, _, _, _, rfl, rfl, rfl, rfl, rfl, rfl⟩

theorem stop_WF (t : TimedList) (hw : t.WF) :
    ∃ t1, t.stop = some t1 ∧ t1.entries = t.entries ∧ t1.C = t.C ∧ t1.t = none ∧
      t1.loops = 0 ∧ (t.t ≠ none → t1.ctx = some true) ∧ (t.t = none → t1.ctx = t.ctx) := by
  obtain ⟨-, h2, h3⟩ := hw
  cases ht : t.t with
  | none =>
    refine ⟨t, by simp [TimedList.stop, ht], rfl, rfl, ht, h2 ht, by simp, fun _ => rfl⟩
  | some tm =>
    cases hc : t.ctx with
    | none => exact absurd hc (h3 (by simp [ht]))
    | some b =>
      exact ⟨{ t with ctx := some true, t := none, loops := 0 }, by simp [TimedList.stop, ht, hc],
        rfl, rfl, rfl, rfl, fun _ => rfl, by simp⟩

theorem WF_cons {t : LLRB} (hw : t.WF) (hlen : 0 < t.Len) :
    ∃ e rest, t.root.toList = e :: rest := by
  cases h : t.root.toList with
  | nil =>
    have := (WF_length_zero hw).2 h
    omega
  | cons e rest => exact ⟨e, rest, rfl⟩

theorem drainLoop_WF (fuel : Nat) (t : TimedList) (hw : t.entries.WF)
    (hf : t.pending.length < fuel) :
    ∃ t', drainLoop fuel t = some t' ∧ t'.C = t.C ++ t.pending.map TimedEntry.v ∧
      t'.pending = [] ∧ t'.entries.WF ∧ t'.t = t.t ∧ t'.ctx = t.ctx ∧ t'.loops = t.loops := by
  induction fuel generalizing t with
  | zero => omega
  | succ n ih =>
    by_cases hlen : t.entries.Len > 0
    · obtain ⟨e, rest, hp⟩ := WF_cons hw hlen
      have hroot : t.entries.root ≠ .nil := by
        intro h; rw [h] at hp; simp [Node.toList] at hp
      obtain ⟨ents, e', hd, hl', hwf, -⟩ := LLRB.DeleteMin_spec t.entries hw hroot
      rw [hp] at hl'
      simp at hl'
      obtain ⟨rfl, hrest⟩ := hl'
      obtain ⟨t', h1, h2, h3, h4, h5, h6, h7⟩ :=
        ih { t with entries := ents, C := t.C ++ [e.v] } hwf
          (by simp only [TimedList.pending] at hf ⊢; rw [hp] at hf; rw [← hrest]; simpa using hf)
      refine ⟨t', ?_, ?_, h3, h4, h5, h6, h7⟩
      · simp [drainLoop, hlen, hd, h1]
      · rw [h2]
        simp [TimedList.pending, hp, hrest]
    · have hz : t.entries.Len = 0 := by
        have : (0 : Int) ≤ t.entries.Len := by
          unfold LLRB.Len; rw [hw.2.2.2]; exact Int.natCast_nonneg _
        omega
      have hp : t.pending = [] := (WF_length_zero hw).1 hz
      exact ⟨t, by simp [drainLoop, hlen], by simp [hp], hp, hw, rfl, rfl, rfl⟩

theorem purgeLoop_WF (fuel : Nat) (t : TimedList) (hw : t.entries.WF)
    (hf : t.pending.length < fuel) :
    ∃ t', purgeLoop fuel t = some t' ∧ t'.C = t.C ∧
      t'.pending = [] ∧ t'.entries.WF ∧ t'.t = t.t ∧ t'.ctx = t.ctx ∧ t'.loops = t.loops := by
  induction fuel generalizing t with
  | zero => omega
  | succ n ih =>
    by_cases hlen : t.entries.Len > 0
    · obtain ⟨e, rest, hp⟩ := WF_cons hw hlen
      have hroot : t.entries.root ≠ .nil := by
        intro h; rw [h] at hp; simp [Node.toList] at hp
      obtain ⟨ents, e', hd, hl', hwf, -⟩ := LLRB.DeleteMin_spec t.entries hw hroot
      rw [hp] at hl'
      simp at hl'
      obtain ⟨rfl, hrest⟩ := hl'
      obtain ⟨t', h1, h2, h3, h4, h5, h6, h7⟩ :=
        ih { t with entries := ents } hwf
          (by simp only [TimedList.pending] at hf ⊢; rw [hp] at hf; rw [← hrest]; simpa using hf)
      exact ⟨t', by simp [purgeLoop, hlen, hd, h1], h2, h3, h4, h5, h6, h7⟩
    · have hz : t.entries.Len = 0 := by
        have : (0 : Int) ≤ t.entries.Len := by
          unfold LLRB.Len; rw [hw.2.2.2]; exact Int.natCast_nonneg _
        omega
      have hp : t.pending = [] := (WF_length_zero hw).1 hz
      exact ⟨t, by simp [purgeLoop, hlen], rfl, hp, hw, rfl, rfl, rfl⟩

theorem fuel_enough {t : LLRB} (hw : t.WF) : t.root.toList.length < t.Len.toNat + 1 := by
  unfold LLRB.Len
  rw [hw.2.2.2]
  simp

/-- On every consistent list `Drain` returns; it has popped the pending
entries in the order of the store, which is non-decreasing in the deadline,
each exactly once, and has handed the value of each to the output; afterwards
the store is empty, `Len` is zero, there is no timer and no loop, and the
context of a timer that was there is cancelled. -/
theorem Drain_WF (t : TimedList) (hw : t.WF) :
    ∃ t', t.Drain = some t' ∧ t'.C = t.C ++ t.pending.map TimedEntry.v ∧
      Ordered t.pending ∧ t'.pending = [] ∧ t'.Len = 0 ∧ t'.t = none ∧ t'.loops = 0 ∧
      (t.t ≠ none → t'.ctx = some true) := by
  obtain ⟨t1, s1, s2, s3, s4, s5, s6, -⟩ := stop_WF t hw
  have hw1 : t1.entries.WF := by rw [s2]; exact hw.1
  obtain ⟨t', d1, d2, d3, d4, d5, d6, d7⟩ :=
    drainLoop_WF (t1.entries.Len.toNat + 1) t1 hw1 (fuel_enough hw1)
  refine ⟨t', by simp [TimedList.Drain, s1, d1], ?_, hw.1.2.2.1, d3, ?_, by rw [d5, s4],
    by rw [d7, s5], fun h => by rw [d6]; exact s6 h⟩
  · rw [d2, s3]; simp [TimedList.pending, s2]
  · exact (WF_length_zero d4).2 d3

/-- An instance: the list with the two pending entries `a` and `b`. -/
theorem Drain_WF_twoPending :
    ∃ t', twoPending.Drain = some t' ∧
      t'.C = twoPending.C ++ twoPending.pending.map TimedEntry.v ∧
      Ordered twoPending.pending ∧ t'.pending = [] ∧ t'.Len = 0 ∧ t'.t = none ∧
      t'.loops = 0 ∧ (twoPending.t ≠ none → t'.ctx = some true) :=
  Drain_WF twoPending (by decide)

/-- On every consistent list `Purge` returns without handing any value to
the output; afterwards the store is empty, `Len` is zero, there is no timer
and no loop, the context of a timer that was there is cancelled, and no turn
of the dispatcher loop can be taken. -/
theorem Purge_WF (t : TimedList) (hw : t.WF) :
    ∃ t', t.Purge = some t' ∧ t'.C = t.C ∧ t'.pending = [] ∧ t'.Len = 0 ∧ t'.t = none ∧
      t'.loops = 0 ∧ (t.t ≠ none → t'.ctx = some true) ∧ ∀ now, t'.run now = none := by
  obtain ⟨t1, s1, s2, s3, s4, s5, s6, -⟩ := stop_WF t hw
  have hw1 : t1.entries.WF := by rw [s2]; exact hw.1
  obtain ⟨t', d1, d2, d3, d4, d5, d6, d7⟩ :=
    purgeLoop_WF (t1.entries.Len.toNat + 1) t1 hw1 (fuel_enough hw1)
  have ht : t'.t = none := by rw [d5, s4]
  refine ⟨t', by simp [TimedList.Purge, s1, d1], by rw [d2, s3], d3, ?_, ht,
    by rw [d7, s5], fun h => by rw [d6]; exact s6 h, ?_⟩
  · exact (WF_length_zero d4).2 d3
  · intro now
    simp [TimedList.run, ht]

/-- An instance: the list with the two pending entries `a` and `b`. -/
theorem Purge_WF_twoPending :
    ∃ t', twoPending.Purge = some t' ∧ t'.C = twoPending.C ∧ t'.pending = [] ∧ t'.Len = 0 ∧
      t'.t = none ∧ t'.loops = 0 ∧ (twoPending.t ≠ none → t'.ctx = some true) ∧
      ∀ now, t'.run now = none :=
  Purge_WF twoPending (by decide)

/-- C6: on a list that has a timer and a store that is not empty, with items
in order, `Add` returns and inserts the new entry (no entry is replaced, `Len`
grows by one). If `now + d` is earlier than the deadline of the minimum `m`,
the timer is stopped and re-armed for `d` (at the clock reading `now` of the
critical section) and the new entry is the minimum of the store, the next one
to be popped; if not, the timer is left as it was. Here `now0` is the clock
reading from which the deadline of the entry is computed; in a call taken at
one instant `now0 = now` and `now + d` is that deadline. -/
theorem C6_Add_rearms_when_earlier (t : TimedList) (tm : Timer) (m : TimedEntry)
    (ho : Ordered t.pending) (ht : t.t = some tm) (hlen : t.Len ≠ 0)
    (hm : t.entries.Min = some m) (addr : Nat) (v : Value) (d : Duration) (now0 now : Time)
    (h0 : now0 ≤ now) :
    ∃ t', t.Add addr v d now0 now = some (t', { addr := addr, v := v, d := now0 + d }) ∧
      t'.pending = insertAfter { addr := addr, v := v, d := now0 + d } t.pending ∧
      t'.Len = t.Len + 1 ∧
      (now + d < m.d →
        t'.t = some { setAt := now, dur := d, armed := true } ∧
        t'.entries.Min = some { addr := addr, v := v, d := now0 + d }) ∧
      (¬ now + d < m.d → t'.t = some tm) ∧
      t'.C = t.C ∧ t'.ctx = t.ctx ∧ t'.loops = t.loops := by
  obtain ⟨ents, hi, hli, hc, -⟩ :=
    LLRB.InsertNoReplace_spec t.entries { addr := addr, v := v, d := now0 + d } ho
  have hlen' : ¬ t.entries.Len = 0 := hlen
  refine ⟨{ t with t := some (if m.d > now + d then tm.Stop.Reset d now else tm),
                   entries := ents }, ?_, ?_, ?_, ?_, ?_, rfl, rfl, rfl⟩
  · simp [TimedList.Add, ht, hlen', hm, hi]
  · simp [TimedList.pending, hli]
  · simp [TimedList.Len, LLRB.Len, hc]
  · intro hlt
    refine ⟨by simp [hlt, Timer.Reset], ?_⟩
    rw [LLRB.Min_eq_head] at hm ⊢
    simp only [hli]
    cases hp : t.entries.root.toList with
    | nil => rw [hp] at hm; simp at hm
    | cons a rest =>
      rw [hp] at hm
      have hma : a = m := by simpa using hm
      have hlt' : now0 + d < a.d := by
        rw [hma]; exact lt_of_le_of_lt (add_le_add_right h0 d) hlt
      have : less { addr := addr, v := v, d := now0 + d } a = true := by
        rw [less_eq_true_iff]
        exact hlt'
      simp [insertAfter, this]
  · intro hlt
    have : ¬ m.d > now + d := hlt
    simp [this]

/-- Witness of C6: on the list with `a` (deadline 5) and `b` (deadline 7),
armed at 0 for 5, `Add("c", 2)` at clock reading 1. -/
theorem C6_witness :
    ∃ t', twoPending.Add 3 "c" 2 1 1 = some (t', { addr := 3, v := "c", d := 1 + 2 }) ∧
      t'.pending = insertAfter { addr := 3, v := "c", d := 1 + 2 } twoPending.pending ∧
      t'.Len = twoPending.Len + 1 ∧
      ((1 : Time) + 2 < (⟨1, "a", 5⟩ : TimedEntry).d →
        t'.t = some { setAt := 1, dur := 2, armed := true } ∧
        t'.entries.Min = some { addr := 3, v := "c", d := 1 + 2 }) ∧
      (¬ (1 : Time) + 2 < (⟨1, "a", 5⟩ : TimedEntry).d →
        t'.t = some { setAt := 0, dur := 5, armed := true }) ∧
      t'.C = twoPending.C ∧ t'.ctx = twoPending.ctx ∧ t'.loops = twoPending.loops :=
  C6_Add_rearms_when_earlier twoPending { setAt := 0, dur := 5, armed := true } ⟨1, "a", 5⟩
    (by decide) rfl (by decide) rfl 3 "c" 2 1 1 (by decide)

/-! ## The list: what a step that returns does -/

theorem stop_cases (t t1 : TimedList) (h : t.stop = some t1) :
    t1.entries = t.entries ∧ t1.C = t.C ∧ t1.t = none ∧
      (t.t ≠ none → t1.loops = 0 ∧ t1.ctx = some true) ∧ (t.t = none → t1 = t) := by
  unfold TimedList.stop at h
  split at h
  · rename_i tm htm
    split at h
    · simp at h
      subst h
      exact ⟨rfl, rfl, rfl, fun _ => ⟨rfl, rfl⟩, fun h0 => by rw [htm] at h0; simp at h0⟩
    · simp at h
  · rename_i htm
    simp at h
    subst h
    exact ⟨rfl, rfl, htm, fun h0 => absurd htm h0, fun _ => rfl⟩

theorem Remove_cases (t : TimedList) (te : TimedEntry) (now : Time) (t' : TimedList)
    (v : Value) (h : t.Remove te now = some (t', v)) :
    ∃ ents e, t.entries.Delete te = some (ents, some e) ∧ v = e.v ∧ t'.entries = ents ∧
      t'.C = t.C ∧
      ((ents.Len = 0 ∧ t'.t = none ∧ (t.t ≠ none → t'.loops = 0 ∧ t'.ctx = some true) ∧
          (t.t = none → t'.loops = t.loops ∧ t'.ctx = t.ctx)) ∨
       (ents.Len ≠ 0 ∧ ∃ mn, ents.Min = some mn ∧ t'.ctx = t.ctx ∧ t'.loops = t.loops ∧
          ((e.d < mn.d ∧ ∃ tm, t.t = some tm ∧
              t'.t = some { setAt := now, dur := mn.d - now, armed := true }) ∨
           (mn.d ≤ e.d ∧ t'.t = t.t)))) := by
  unfold TimedList.Remove at h
  split at h
  · rename_i ents e hd
    refine ⟨ents, e, hd, ?_⟩
    simp only at h
    split at h
    · rename_i hz
      split at h
      · rename_i t2 hs
        simp at h
        obtain ⟨rfl, rfl⟩ := h
        obtain ⟨s1, s2, s3, s4, s5⟩ := stop_cases _ _ hs
        refine ⟨rfl, s1, s2, Or.inl ⟨hz, s3, s4, ?_⟩⟩
        intro h0
        rw [s5 h0]
        exact ⟨rfl, rfl⟩
      · simp at h
    · rename_i hz
      split at h
      · rename_i mn hmn
        split at h
        · rename_i hgt
          split at h
          · rename_i tm htm
            simp at h
            obtain ⟨rfl, rfl⟩ := h
            refine ⟨rfl, rfl, rfl, Or.inr ⟨hz, mn, hmn, rfl, rfl, Or.inl ⟨hgt, tm, htm, ?_⟩⟩⟩
            simp [Timer.Reset, Until]
          · simp at h
        · rename_i hgt
          simp at h
          obtain ⟨rfl, rfl⟩ := h
          exact ⟨rfl, rfl, rfl, Or.inr ⟨hz, mn, hmn, rfl, rfl, Or.inr ⟨not_lt.1 hgt, rfl⟩⟩⟩
      · simp at h
  · simp at h

theorem run_cases (t : TimedList) (now : Time) (t' : TimedList) (h : t.run now = some t') :
    ∃ tm ents min, t.t = some tm ∧ t.ctx = some false ∧
      t.entries.DeleteMin = some (ents, some min) ∧ t'.entries = ents ∧
      t'.C = t.C ++ [min.v] ∧ t'.ctx = t.ctx ∧
      ((ents.Len = 0 ∧ t'.t = none ∧ t'.loops = t.loops - 1) ∨
       (ents.Len ≠ 0 ∧ t'.loops = t.loops ∧ ∃ m, ents.Min = some m ∧
          t'.t = some { setAt := now, dur := m.d - now, armed := true })) := by
  unfold TimedList.run at h
  split at h
  · rename_i tm htm hctx
    split at h
    · rename_i ents min hd
      refine ⟨tm, ents, min, htm, hctx, hd, ?_⟩
      simp only at h
      split at h
      · rename_i hz
        simp at h
        subst h
        exact ⟨rfl, rfl, rfl, Or.inl ⟨hz, rfl, rfl⟩⟩
      · rename_i hz
        split at h
        · rename_i m hm
          simp at h
          subst h
          refine ⟨rfl, rfl, rfl, Or.inr ⟨hz, rfl, m, hm, ?_⟩⟩
          simp [Timer.Reset, Until]
        · simp at h
    · simp at h
  · simp at h

theorem Add_cases (t : TimedList) (addr : Nat) (v : Value) (d : Duration) (now0 now : Time)
    (t' : TimedList) (item : TimedEntry) (h : t.Add addr v d now0 now = some (t', item)) :
    item = { addr := addr, v := v, d := now0 + d } ∧
    t.entries.InsertNoReplace item = some t'.entries ∧ t'.C = t.C ∧
      (((t.t = none ∨ t.entries.Len = 0) ∧
          t'.t = some { setAt := now, dur := d, armed := true } ∧ t'.ctx = some false ∧
          t'.loops = t.loops + 1) ∨
       (¬ (t.t = none ∨ t.entries.Len = 0) ∧ t'.ctx = t.ctx ∧ t'.loops = t.loops ∧
          ∃ m tm, t.entries.Min = some m ∧ t.t = some tm ∧
            ((now + d < m.d ∧ t'.t = some { setAt := now, dur := d, armed := true }) ∨
             (¬ now + d < m.d ∧ t'.t = some tm)))) := by
  unfold TimedList.Add at h
  simp only at h
  split at h
  · rename_i hb
    split at h
    · rename_i ents hi
      simp at h
      obtain ⟨rfl, rfl⟩ := h
      exact ⟨rfl, hi, rfl, Or.inl ⟨hb, rfl, rfl, rfl⟩⟩
    · simp at h
  · rename_i hb
    split at h
    · rename_i m tm hm htm
      split at h
      · rename_i ents hi
        simp at h
        obtain ⟨rfl, rfl⟩ := h
        refine ⟨rfl, hi, rfl, Or.inr ⟨hb, rfl, rfl, m, tm, hm, htm, ?_⟩⟩
        by_cases hlt : now + d < m.d
        · left
          refine ⟨hlt, ?_⟩
          have : m.d > now + d := hlt
          simp [this, Timer.Reset]
        · right
          refine ⟨hlt, ?_⟩
          have : ¬ m.d > now + d := hlt
          simp [this]
      · simp at h
    · simp at h

/-- C8 fails as stated: `a` and `b` are added with the same deadline 5 at clock
reading 0. `a` is the minimum of the store; `Remove` of `a` at clock reading 1
leaves `b` pending, and the timer is left as it was (armed at 0 for 5), not
re-armed for the remaining time 4 of the new minimum. -/
theorem C8_counterexample :
    ∃ t1 a t2 b t3, NewTimedList.Add 1 "a" 5 0 0 = some (t1, a) ∧
      t1.Add 2 "b" 5 0 0 = some (t2, b) ∧ t2.entries.Min = some a ∧
      t2.Remove a 1 = some (t3, "a") ∧ t3.pending = [b] ∧ t3.entries.Min = some b ∧
      t3.t = t2.t ∧ t3.t = some { setAt := 0, dur := 5, armed := true } ∧
      t3.t ≠ some { setAt := 1, dur := b.d - 1, armed := true } :=
  ⟨_, _, _, _, _, rfl, rfl, rfl, rfl, rfl, rfl, rfl, rfl, by decide⟩

/-- C8, amended: let `Remove` return on a list whose items are in order. It has
deleted a pending entry `e` with the deadline of the handle and returns its
value. If the store is now empty, the timer is nil (and loop and context of a
timer that was there are stopped and cancelled). Otherwise the store has a
minimum `mn`, loop and context are untouched, and: if the deadline of `mn` is
later than that of `e`, the timer is re-armed at `now` for the remaining time
`mn.d - now`; if it is not later, the timer is left unchanged. The first case
is the one of an `e` that was the minimum and shared its deadline with no
other pending entry. -/
theorem C8_Remove_rearms_when_minimum_later (t : TimedList) (te : TimedEntry) (now : Time)
    (t' : TimedList) (v : Value) (ho : Ordered t.pending)
    (h : t.Remove te now = some (t', v)) :
    ∃ e, e ∈ t.pending ∧ e.d = te.d ∧ v = e.v ∧
      (t'.Len = 0 → t'.t = none ∧ (t.t ≠ none → t'.loops = 0 ∧ t'.ctx = some true)) ∧
      (t'.Len ≠ 0 → ∃ mn, t'.entries.Min = some mn ∧ t'.ctx = t.ctx ∧ t'.loops = t.loops ∧
        (e.d < mn.d → ∃ tm, t.t = some tm ∧
          t'.t = some { setAt := now, dur := mn.d - now, armed := true }) ∧
        (mn.d ≤ e.d → t'.t = t.t) ∧
        (∀ rest, t.pending = e :: rest → (∀ z ∈ rest, z.d ≠ e.d) → e.d < mn.d)) := by
  obtain ⟨ents, e, hd, hv, he, -, hcase⟩ := Remove_cases t te now t' v h
  obtain ⟨-, hsome⟩ := LLRB.Delete_toList t.entries ents te (some e) ho hd
  obtain ⟨k1, -, ⟨l1, l2, k3, k4⟩, -⟩ := hsome e rfl
  have hmem : e ∈ t.pending := by
    simp only [TimedList.pending]; rw [k3]; simp
  refine ⟨e, hmem, k1, hv, ?_, ?_⟩
  · intro hz
    rcases hcase with ⟨-, c2, c3, -⟩ | ⟨c1, -⟩
    · exact ⟨c2, c3⟩
    · exact absurd (by simpa [TimedList.Len, he] using hz) c1
  · intro hz
    rcases hcase with ⟨c1, -⟩ | ⟨-, mn, c2, c3, c4, c5⟩
    · exact absurd (by simpa [TimedList.Len, he] using c1) hz
    · refine ⟨mn, by rw [he]; exact c2, c3, c4, ?_, ?_, ?_⟩
      · intro hlt
        rcases c5 with ⟨-, c6⟩ | ⟨c6, -⟩
        · exact c6
        · exact absurd hlt (not_lt.2 c6)
      · intro hle
        rcases c5 with ⟨c6, -⟩ | ⟨-, c6⟩
        · exact absurd c6 (not_lt.2 hle)
        · exact c6
      · intro rest hp hne
        simp only [TimedList.pending] at hp
        have hmn : mn ∈ ents.root.toList := by
          rw [LLRB.Min_eq_head] at c2
          exact List.mem_of_mem_head? c2
        have hmn' : mn ∈ l1 ++ l2 := k4.subset hmn
        have hl1 : l1 = [] := by
          cases l1 with
          | nil => rfl
          | cons a as =>
            rw [k3] at hp
            simp at hp
            obtain ⟨rfl, hp2⟩ := hp
            exact absurd rfl (hne _ (by rw [← hp2]; simp))
        subst hl1
        rw [k3] at hp
        simp at hp hmn'
        subst hp
        have h1 : e.d ≤ mn.d := by
          have ho' : Ordered ([] ++ e :: l2) := by rw [← k3]; exact ho
          exact List.rel_of_pairwise_cons ho' hmn'
        exact lt_of_le_of_ne h1 (fun heq => hne mn hmn' heq.symm)

/-- Witness of C8: `Remove` of `a` at clock reading 1 on the list with `a`
(deadline 5) and `b` (deadline 7). -/
theorem C8_witness :
    ∃ e, e ∈ twoPending.pending ∧ e.d = (⟨1, "a", 5⟩ : TimedEntry).d ∧ "a" = e.v ∧
      (onePending.Len = 0 →
        onePending.t = none ∧ (twoPending.t ≠ none →
          onePending.loops = 0 ∧ onePending.ctx = some true)) ∧
      (onePending.Len ≠ 0 → ∃ mn, onePending.entries.Min = some mn ∧
        onePending.ctx = twoPending.ctx ∧ onePending.loops = twoPending.loops ∧
        (e.d < mn.d → ∃ tm, twoPending.t = some tm ∧
          onePending.t = some { setAt := 1, dur := mn.d - 1, armed := true }) ∧
        (mn.d ≤ e.d → onePending.t = twoPending.t) ∧
        (∀ rest, twoPending.pending = e :: rest → (∀ z ∈ rest, z.d ≠ e.d) → e.d < mn.d)) :=
  C8_Remove_rearms_when_minimum_later twoPending ⟨1, "a", 5⟩ 1 onePending "a" (by decide) rfl

/-! ## The list: what holds after any sequence of steps -/

theorem StoreInv_New : NewTimedList.StoreInv := by
  simp [TimedList.StoreInv, NewTimedList, New, Node.toList, Ordered]

theorem Add_StoreInv (t : TimedList) (hs : t.StoreInv) (addr : Nat) (v : Value)
    (d : Duration) (now0 now : Time) (t' : TimedList) (item : TimedEntry)
    (h : t.Add addr v d now0 now = some (t', item)) :
    t'.StoreInv ∧ t'.Len = t.Len + 1 ∧ t'.pending = insertAfter item t.pending := by
  obtain ⟨-, hi, -, -⟩ := Add_cases t addr v d now0 now t' item h
  obtain ⟨ents, hi', hl, hc, -⟩ := LLRB.InsertNoReplace_spec t.entries item hs.1
  rw [hi] at hi'
  simp at hi'
  subst hi'
  refine ⟨⟨?_, ?_⟩, ?_, hl⟩
  · rw [hl]; exact Ordered_insertAfter _ _ hs.1
  · rw [hl, length_insertAfter, hc]
    have := hs.2
    push_cast
    omega
  · simp [TimedList.Len, LLRB.Len, hc]

theorem Remove_StoreInv (t : TimedList) (hs : t.StoreInv) (te : TimedEntry) (now : Time)
    (t' : TimedList) (v : Value) (h : t.Remove te now = some (t', v)) :
    t'.StoreInv ∧ t'.Len = t.Len - 1 ∧ 0 < t.Len := by
  obtain ⟨ents, e, hd, -, he, -, -⟩ := Remove_cases t te now t' v h
  obtain ⟨-, hsome⟩ := LLRB.Delete_toList t.entries ents te (some e) hs.1 hd
  obtain ⟨-, k2, ⟨l1, l2, k3, k4⟩, -⟩ := hsome e rfl
  have hlen : ents.root.toList.length + 1 ≤ t.entries.root.toList.length := by
    have := k4.length_le
    rw [k3]
    simp at this ⊢
    omega
  have hs2 := hs.2
  refine ⟨⟨?_, ?_⟩, ?_, ?_⟩
  · rw [he]
    refine Ordered_sublist (k4.trans ?_) hs.1
    rw [k3]
    exact List.Sublist.append (List.Sublist.refl _) (List.sublist_cons_self _ _)
  · rw [he, k2]
    omega
  · simp [TimedList.Len, LLRB.Len, he, k2]
  · simp only [TimedList.Len, LLRB.Len]
    omega

theorem DeleteMin_StoreInv (t : LLRB) (ho : Ordered t.root.toList)
    (hc : (t.root.toList.length : Int) ≤ t.count) (ents : LLRB) (r : Option TimedEntry)
    (h : t.DeleteMin = some (ents, r)) :
    Ordered ents.root.toList ∧ (ents.root.toList.length : Int) ≤ ents.count ∧
      (r.isSome = true → ents.count = t.count - 1 ∧ 0 < t.count) ∧
      (r = none → ents.count = t.count) := by
  obtain ⟨pre, p1, p2, p3⟩ := LLRB.DeleteMin_toList t ents r h
  have ho' : Ordered ents.root.toList := by
    unfold Ordered at ho ⊢
    rw [p1] at ho
    exact (List.pairwise_append.1 ho).2.1
  have hlen : t.root.toList.length = pre.length + ents.root.toList.length := by
    rw [p1]; simp
  cases r with
  | none =>
    simp at p3
    refine ⟨ho', by rw [p3]; omega, by simp, fun _ => p3⟩
  | some x =>
    simp at p3
    have hpre : 0 < pre.length := by
      cases pre with
      | nil => simp at p2
      | cons a as => simp
    refine ⟨ho', by rw [p3]; omega, fun _ => ⟨p3, by omega⟩, by simp⟩

theorem run_StoreInv (t : TimedList) (hs : t.StoreInv) (now : Time) (t' : TimedList)
    (h : t.run now = some t') :
    t'.StoreInv ∧ t'.Len = t.Len - 1 ∧ 0 < t.Len := by
  obtain ⟨tm, ents, min, -, -, hd, he, -, -, -⟩ := run_cases t now t' h
  obtain ⟨d1, d2, d3, -⟩ := DeleteMin_StoreInv t.entries hs.1 hs.2 ents (some min) hd
  obtain ⟨d4, d5⟩ := d3 rfl
  refine ⟨⟨by rw [he]; exact d1, by rw [he]; exact d2⟩, ?_, ?_⟩
  · simp [TimedList.Len, LLRB.Len, he, d4]
  · exact d5

theorem drainLoop_StoreInv (fuel : Nat) (t : TimedList) (hs : t.StoreInv) (t' : TimedList)
    (h : drainLoop fuel t = some t') :
    t'.StoreInv ∧ t'.Len = 0 ∧ t'.t = t.t ∧ t'.loops = t.loops ∧ t'.ctx = t.ctx := by
  induction fuel generalizing t with
  | zero => simp [drainLoop] at h
  | succ n ih =>
    simp only [drainLoop] at h
    split at h
    · split at h
      · rename_i ents min hd
        obtain ⟨d1, d2, -, -⟩ := DeleteMin_StoreInv t.entries hs.1 hs.2 ents (some min) hd
        obtain ⟨i1, i2, i3, i4, i5⟩ := ih _ ⟨d1, d2⟩ h
        exact ⟨i1, i2, i3, i4, i5⟩
      · simp at h
    · rename_i hlen
      simp at h
      subst h
      have := hs.2
      refine ⟨hs, ?_, rfl, rfl, rfl⟩
      simp only [TimedList.Len, LLRB.Len] at hlen ⊢
      omega

theorem purgeLoop_StoreInv (fuel : Nat) (t : TimedList) (hs : t.StoreInv) (t' : TimedList)
    (h : purgeLoop fuel t = some t') :
    t'.StoreInv ∧ t'.Len = 0 ∧ t'.t = t.t ∧ t'.loops = t.loops ∧ t'.ctx = t.ctx := by
  induction fuel generalizing t with
  | zero => simp [purgeLoop] at h
  | succ n ih =>
    simp only [purgeLoop] at h
    split at h
    · split at h
      · rename_i ents r hd
        obtain ⟨d1, d2, -, -⟩ := DeleteMin_StoreInv t.entries hs.1 hs.2 ents r hd
        obtain ⟨i1, i2, i3, i4, i5⟩ := ih _ ⟨d1, d2⟩ h
        exact ⟨i1, i2, i3, i4, i5⟩
      · simp at h
    · rename_i hlen
      simp at h
      subst h
      have := hs.2
      refine ⟨hs, ?_, rfl, rfl, rfl⟩
      simp only [TimedList.Len, LLRB.Len] at hlen ⊢
      omega

theorem Drain_StoreInv (t : TimedList) (hs : t.StoreInv) (t' : TimedList)
    (h : t.Drain = some t') :
    t'.StoreInv ∧ t'.Len = 0 ∧ t'.t = none ∧ (t.t ≠ none → t'.loops = 0) ∧
      (t.t = none → t'.loops = t.loops) := by
  unfold TimedList.Drain at h
  split at h
  · rename_i t1 hst
    obtain ⟨s1, -, s3, s4, s5⟩ := stop_cases t t1 hst
    obtain ⟨i1, i2, i3, i4, -⟩ := drainLoop_StoreInv _ t1 (by unfold TimedList.StoreInv; rw [s1]; exact hs) t' h
    refine ⟨i1, i2, by rw [i3, s3], fun h0 => by rw [i4]; exact (s4 h0).1, fun h0 => ?_⟩
    rw [i4, s5 h0]
  · simp at h

theorem Purge_StoreInv (t : TimedList) (hs : t.StoreInv) (t' : TimedList)
    (h : t.Purge = some t') :
    t'.StoreInv ∧ t'.Len = 0 ∧ t'.t = none ∧ (t.t ≠ none → t'.loops = 0) ∧
      (t.t = none → t'.loops = t.loops) := by
  unfold TimedList.Purge at h
  split at h
  · rename_i t1 hst
    obtain ⟨s1, -, s3, s4, s5⟩ := stop_cases t t1 hst
    obtain ⟨i1, i2, i3, i4, -⟩ := purgeLoop_StoreInv _ t1 (by unfold TimedList.StoreInv; rw [s1]; exact hs) t' h
    refine ⟨i1, i2, by rw [i3, s3], fun h0 => by rw [i4]; exact (s4 h0).1, fun h0 => ?_⟩
    rw [i4, s5 h0]
  · simp at h

theorem step_StoreInv (t : TimedList) (hs : t.StoreInv) (op : Op) (t' : TimedList)
    (h : step t op = some t') (ops : List Op) :
    t'.StoreInv ∧ net t.Len (op :: ops) = net t'.Len ops := by
  cases op with
  | add addr v d now0 now =>
    simp only [step, Option.map_eq_some'] at h
    obtain ⟨⟨t1, item⟩, h1, rfl⟩ := h
    obtain ⟨a1, a2, -⟩ := Add_StoreInv t hs addr v d now0 now t1 item h1
    exact ⟨a1, by simp [net, a2]⟩
  | remove te now =>
    simp only [step, Option.map_eq_some'] at h
    obtain ⟨⟨t1, v⟩, h1, rfl⟩ := h
    obtain ⟨a1, a2, -⟩ := Remove_StoreInv t hs te now t1 v h1
    exact ⟨a1, by simp [net, a2]⟩
  | fire now =>
    obtain ⟨a1, a2, -⟩ := run_StoreInv t hs now t' h
    exact ⟨a1, by simp [net, a2]⟩
  | drain =>
    obtain ⟨a1, a2, -⟩ := Drain_StoreInv t hs t' h
    exact ⟨a1, by simp [net, a2]⟩
  | purge =>
    obtain ⟨a1, a2, -⟩ := Purge_StoreInv t hs t' h
    exact ⟨a1, by simp [net, a2]⟩

theorem exec_StoreInv (ops : List Op) (t : TimedList) (hs : t.StoreInv) (t' : TimedList)
    (h : exec t ops = some t') :
    t'.StoreInv ∧ t'.Len = net t.Len ops := by
  induction ops generalizing t with
  | nil =>
    simp [exec] at h
    subst h
    exact ⟨hs, rfl⟩
  | cons op ops ih =>
    simp only [exec] at h
    split at h
    · rename_i t1 h1
      obtain ⟨a1, a2⟩ := step_StoreInv t hs op t1 h1 ops
      obtain ⟨b1, b2⟩ := ih t1 a1 h
      exact ⟨b1, by rw [b2, a2]⟩
    · simp at h

/-- After any sequence of steps from a new list that all return, `Len` is
what the steps add up to: one more for every `Add`, one less for every `Remove`
and every turn of the loop, zero after `Drain` and `Purge`; it is never less
than the number of items in the store. The same holds of one more step: any
`Add` that returns has raised `Len` by exactly one whatever is pending (no
entry is merged with or replaced by another), any `Remove` or turn of the loop
that returns has lowered it by one, `Drain` and `Purge` have set it to zero. -/
theorem Len_counts_steps (ops : List Op) (t : TimedList)
    (h : exec NewTimedList ops = some t) :
    t.Len = net 0 ops ∧ (t.pending.length : Int) ≤ t.Len ∧
      (∀ op t', step t op = some t' → t'.Len = net t.Len [op]) ∧
      (∀ addr v d now0 now t' item,
        t.Add addr v d now0 now = some (t', item) → t'.Len = t.Len + 1) := by
  obtain ⟨h1, h2⟩ := exec_StoreInv ops NewTimedList StoreInv_New t h
  refine ⟨by simpa [TimedList.Len, NewTimedList, New, LLRB.Len] using h2, h1.2, ?_, ?_⟩
  · intro op t' hst
    have := (step_StoreInv t h1 op t' hst []).2
    simpa [net] using this.symm
  · intro addr v d now0 now t' item ha
    exact (Add_StoreInv t h1 addr v d now0 now t' item ha).2.1

/-- An instance: two entries with the same value and deadline and a third
one are added, the third is removed, the loop takes one turn, the list is
drained. -/
theorem Len_counts_steps_drained :
    drained.Len = net 0 [.add 1 "x" 5 0 0, .add 2 "x" 5 0 0, .add 3 "y" 9 0 0,
        .remove ⟨3, "y", 9⟩ 1, .fire 5, .drain] ∧
      (drained.pending.length : Int) ≤ drained.Len ∧
      (∀ op t', step drained op = some t' → t'.Len = net drained.Len [op]) ∧
      (∀ addr v d now0 now t' item,
        drained.Add addr v d now0 now = some (t', item) → t'.Len = drained.Len + 1) :=
  Len_counts_steps [.add 1 "x" 5 0 0, .add 2 "x" 5 0 0, .add 3 "y" 9 0 0,
    .remove ⟨3, "y", 9⟩ 1, .fire 5, .drain] drained rfl

theorem AlarmInv_New : NewTimedList.AlarmInv := by
  refine ⟨fun _ => ⟨rfl, rfl⟩, fun h => absurd rfl h⟩

theorem target_mk (now : Time) (d : Duration) :
    ({ setAt := now, dur := d - now, armed := true } : Timer).target = d := by
  simp [Timer.target]

theorem Add_AlarmInv (t : TimedList) (hs : t.StoreInv) (ha : t.AlarmInv) (addr : Nat)
    (v : Value) (d : Duration) (now : Time) (t' : TimedList) (item : TimedEntry)
    (h : t.Add addr v d now now = some (t', item)) : t'.AlarmInv := by
  obtain ⟨hitem, -, -, hcase⟩ := Add_cases t addr v d now now t' item h
  obtain ⟨-, hlen, hpend⟩ := Add_StoreInv t hs addr v d now now t' item h
  have hid : item.d = now + d := by rw [hitem]
  have hc0 : (0 : Int) ≤ t.entries.count := le_trans (Int.natCast_nonneg _) hs.2
  have hc' : t'.entries.count ≠ 0 := by
    simp only [TimedList.Len, LLRB.Len] at hlen
    omega
  refine ⟨fun h0 => absurd h0 hc', fun _ => ?_⟩
  have hmin : t'.entries.Min = t'.pending.head? := LLRB.Min_eq_head _
  rcases hcase with ⟨hb, c1, c2, c3⟩ | ⟨hb, c1, c2, m, tm, c3, c4, c5⟩
  · have hcz : t.entries.count = 0 := by
      by_contra hne
      obtain ⟨tm, m, k1, -⟩ := ha.2 hne
      rcases hb with hb | hb
      · rw [k1] at hb; simp at hb
      · exact hne hb
    have hp : t.pending = [] := by
      have := hs.2
      rw [hcz] at this
      exact List.length_eq_zero.1 (by exact_mod_cast le_antisymm this (Int.natCast_nonneg _))
    refine ⟨_, item, c1, rfl, c2, ?_, ?_, ?_⟩
    · rw [c3, (ha.1 hcz).2]
    · rw [hmin, hpend, hp]; rfl
    · rw [hid]; rfl
  · have hne : t.entries.count ≠ 0 := fun h0 => hb (Or.inr h0)
    obtain ⟨tm0, m0, k1, k2, k3, k4, k5, k6⟩ := ha.2 hne
    rw [c4] at k1
    rw [c3] at k5
    simp at k1 k5
    subst k1 k5
    have hp : ∃ rest, t.pending = m :: rest := by
      rw [LLRB.Min_eq_head] at c3
      cases hh : t.entries.root.toList with
      | nil => rw [hh] at c3; simp at c3
      | cons a as =>
        rw [hh] at c3
        simp at c3
        exact ⟨as, by simp [TimedList.pending, hh, c3]⟩
    obtain ⟨rest, hp⟩ := hp
    rcases c5 with ⟨hlt, c6⟩ | ⟨hlt, c6⟩
    · refine ⟨_, item, c6, rfl, by rw [c1, k3], by rw [c2, k4], ?_, ?_⟩
      · have : less item m = true := by
          rw [less_eq_true_iff, hid]; exact hlt
        rw [hmin, hpend, hp]
        simp [insertAfter, this]
      · rw [hid]; rfl
    · refine ⟨tm, m, c6, k2, by rw [c1, k3], by rw [c2, k4], ?_, k6⟩
      have : less item m = false := by
        rw [less_eq_false_iff, hid]; exact not_lt.1 hlt
      rw [hmin, hpend, hp]
      simp [insertAfter, this]

theorem Remove_AlarmInv (t : TimedList) (hs : t.StoreInv) (ha : t.AlarmInv) (te : TimedEntry)
    (now : Time) (t' : TimedList) (v : Value) (h : t.Remove te now = some (t', v)) :
    t'.AlarmInv := by
  obtain ⟨ents, e, hd, -, he, -, hcase⟩ := Remove_cases t te now t' v h
  obtain ⟨-, -, hpos⟩ := Remove_StoreInv t hs te now t' v h
  obtain ⟨-, hsome⟩ := LLRB.Delete_toList t.entries ents te (some e) hs.1 hd
  obtain ⟨-, -, -, khead⟩ := hsome e rfl
  have hne : t.entries.count ≠ 0 := by
    simp only [TimedList.Len, LLRB.Len] at hpos
    omega
  obtain ⟨tm, m, k1, k2, k3, k4, k5, k6⟩ := ha.2 hne
  rcases hcase with ⟨c1, c2, c3, -⟩ | ⟨c1, mn, c2, c3, c4, c5⟩
  · refine ⟨fun _ => ⟨c2, (c3 (by rw [k1]; simp)).1⟩, fun h0 => ?_⟩
    rw [he] at h0
    exact absurd c1 h0
  · refine ⟨fun h0 => ?_, fun _ => ?_⟩
    · rw [he] at h0
      exact absurd h0 c1
    · rcases c5 with ⟨-, tm1, -, c7⟩ | ⟨c6, c7⟩
      · exact ⟨_, mn, c7, rfl, by rw [c3, k3], by rw [c4, k4], by rw [he]; exact c2,
          target_mk now mn.d⟩
      · refine ⟨tm, mn, by rw [c7, k1], k2, by rw [c3, k3], by rw [c4, k4],
          by rw [he]; exact c2, ?_⟩
        rw [LLRB.Min_eq_head] at c2 k5
        obtain ⟨m', m1, m2⟩ := khead mn c2
        rw [k5] at m1
        simp at m1
        subst m1
        rcases m2 with m2 | m2
        · exact absurd m2 (not_lt.2 c6)
        · rw [k6, m2]

theorem run_AlarmInv (t : TimedList) (hs : t.StoreInv) (ha : t.AlarmInv) (now : Time)
    (t' : TimedList) (h : t.run now = some t') : t'.AlarmInv := by
  obtain ⟨tm, ents, min, r1, r2, -, he, -, r3, hcase⟩ := run_cases t now t' h
  obtain ⟨-, -, hpos⟩ := run_StoreInv t hs now t' h
  have hne : t.entries.count ≠ 0 := by
    simp only [TimedList.Len, LLRB.Len] at hpos
    omega
  obtain ⟨tm0, m, k1, k2, k3, k4, k5, k6⟩ := ha.2 hne
  rcases hcase with ⟨c1, c2, c3⟩ | ⟨c1, c2, mn, c3, c4⟩
  · refine ⟨fun _ => ⟨c2, by rw [c3, k4]⟩, fun h0 => ?_⟩
    rw [he] at h0
    exact absurd c1 h0
  · refine ⟨fun h0 => ?_, fun _ => ?_⟩
    · rw [he] at h0
      exact absurd h0 c1
    · exact ⟨_, mn, c4, rfl, by rw [r3, k3], by rw [c2, k4], by rw [he]; exact c3,
        target_mk now mn.d⟩

theorem Drain_AlarmInv (t : TimedList) (hs : t.StoreInv) (ha : t.AlarmInv) (t' : TimedList)
    (h : t.Drain = some t') : t'.AlarmInv := by
  obtain ⟨-, d2, d3, d4, d5⟩ := Drain_StoreInv t hs t' h
  refine ⟨fun _ => ⟨d3, ?_⟩, fun h0 => absurd d2 h0⟩
  cases ht : t.t with
  | some tm => exact d4 (by rw [ht]; simp)
  | none =>
    rw [d5 ht]
    by_cases hc : t.entries.count = 0
    · exact (ha.1 hc).2
    · obtain ⟨tm, m, k1, -⟩ := ha.2 hc
      rw [ht] at k1; simp at k1

theorem Purge_AlarmInv (t : TimedList) (hs : t.StoreInv) (ha : t.AlarmInv) (t' : TimedList)
    (h : t.Purge = some t') : t'.AlarmInv := by
  obtain ⟨-, d2, d3, d4, d5⟩ := Purge_StoreInv t hs t' h
  refine ⟨fun _ => ⟨d3, ?_⟩, fun h0 => absurd d2 h0⟩
  cases ht : t.t with
  | some tm => exact d4 (by rw [ht]; simp)
  | none =>
    rw [d5 ht]
    by_cases hc : t.entries.count = 0
    · exact (ha.1 hc).2
    · obtain ⟨tm, m, k1, -⟩ := ha.2 hc
      rw [ht] at k1; simp at k1

theorem step_AlarmInv (t : TimedList) (hs : t.StoreInv) (ha : t.AlarmInv) (op : Op)
    (hat : op.atomic = true) (t' : TimedList) (h : step t op = some t') : t'.AlarmInv := by
  cases op with
  | add addr v d now0 now =>
    simp only [Op.atomic, decide_eq_true_eq] at hat
    subst hat
    simp only [step, Option.map_eq_some'] at h
    obtain ⟨⟨t1, item⟩, h1, rfl⟩ := h
    exact Add_AlarmInv t hs ha addr v d now0 t1 item h1
  | remove te now =>
    simp only [step, Option.map_eq_some'] at h
    obtain ⟨⟨t1, v⟩, h1, rfl⟩ := h
    exact Remove_AlarmInv t hs ha te now t1 v h1
  | fire now => exact run_AlarmInv t hs ha now t' h
  | drain => exact Drain_AlarmInv t hs ha t' h
  | purge => exact Purge_AlarmInv t hs ha t' h

theorem exec_AlarmInv (ops : List Op) (t : TimedList) (hs : t.StoreInv) (ha : t.AlarmInv)
    (hat : ∀ op ∈ ops, op.atomic = true) (t' : TimedList) (h : exec t ops = some t') :
    t'.StoreInv ∧ t'.AlarmInv := by
  induction ops generalizing t with
  | nil =>
    simp [exec] at h
    subst h
    exact ⟨hs, ha⟩
  | cons op ops ih =>
    simp only [exec] at h
    split at h
    · rename_i t1 h1
      have a1 := (step_StoreInv t hs op t1 h1 []).1
      have a2 := step_AlarmInv t hs ha op (hat op (List.mem_cons_self _ _)) t1 h1
      exact ih t1 a1 a2 (fun o ho => hat o (List.mem_cons_of_mem _ ho)) h
    · simp at h

/-- C10: in every state reached from a new list by steps that return, each taken
at one instant, there is no timer and no loop exactly when `Len` is zero, which
is exactly when the store holds no entry; and when `Len` is not zero the timer
is there and armed, its target (the instant of arming plus the duration) is the
deadline of the minimum of the store, one loop runs and its context is not
cancelled. -/
theorem C10_alarm_follows_minimum (ops : List Op) (hat : ∀ op ∈ ops, op.atomic = true)
    (t : TimedList) (h : exec NewTimedList ops = some t) :
    ((t.t = none ∧ t.loops = 0) ↔ t.Len = 0) ∧ (t.Len = 0 ↔ t.pending = []) ∧
      (t.Len ≠ 0 → ∃ tm m, t.t = some tm ∧ tm.armed = true ∧ t.loops = 1 ∧
        t.ctx = some false ∧ t.entries.Min = some m ∧ tm.target = m.d) := by
  obtain ⟨hs, ha⟩ := exec_AlarmInv ops NewTimedList StoreInv_New AlarmInv_New hat t h
  have key : t.Len ≠ 0 → ∃ tm m, t.t = some tm ∧ tm.armed = true ∧ t.loops = 1 ∧
      t.ctx = some false ∧ t.entries.Min = some m ∧ tm.target = m.d := by
    intro hne
    obtain ⟨tm, m, k1, k2, k3, k4, k5, k6⟩ := ha.2 hne
    exact ⟨tm, m, k1, k2, k4, k3, k5, k6⟩
  refine ⟨⟨?_, ?_⟩, ⟨?_, ?_⟩, key⟩
  · rintro ⟨h1, -⟩
    by_contra hne
    obtain ⟨tm, m, k1, -⟩ := key hne
    rw [h1] at k1; simp at k1
  · intro hz
    exact ha.1 hz
  · intro hz
    have h2 := hs.2
    have hz' : t.entries.count = 0 := hz
    rw [hz'] at h2
    exact List.length_eq_zero.1 (by exact_mod_cast le_antisymm h2 (Int.natCast_nonneg _))
  · intro hp
    by_contra hne
    obtain ⟨tm, m, -, -, -, -, k5, -⟩ := key hne
    rw [LLRB.Min_eq_head] at k5
    simp only [TimedList.pending] at hp
    rw [hp] at k5
    simp at k5

/-- Witness of C10: `a` (deadline 5) and `b` (deadline 7) are added at clock
reading 0 and `a` is removed at clock reading 1. -/
theorem C10_witness :
    ((onePending.t = none ∧ onePending.loops = 0) ↔ onePending.Len = 0) ∧
      (onePending.Len = 0 ↔ onePending.pending = []) ∧
      (onePending.Len ≠ 0 → ∃ tm m, onePending.t = some tm ∧ tm.armed = true ∧
        onePending.loops = 1 ∧ onePending.ctx = some false ∧
        onePending.entries.Min = some m ∧ tm.target = m.d) :=
  C10_alarm_follows_minimum [.add 1 "a" 5 0 0, .add 2 "b" 7 0 0, .remove ⟨1, "a", 5⟩ 1]
    (by decide) onePending rfl

/-- C9, at a failing interleaving: `a` is added; its timer expires; the loop of
`run` receives the signal (line 78) and has not yet taken the lock; `Remove`
of `a` takes the lock, empties the store and calls `stop`, where `Stop` returns
false and the receive `<-t.t.C` finds the channel empty: the caller waits on
the channel while it holds the lock. From there no step is possible: the timer
does not expire again, nothing is in the channel, and neither the loop nor
another caller can take the lock. -/
theorem C9_Remove_waits_on_timer_channel_with_lock_held :
    ∃ t1 a c1 c2 c3, NewTimedList.Add 1 "a" 5 0 0 = some (t1, a) ∧
      Conc.expire { tl := t1, expired := false, signal := false, loopReceived := false,
                    locked := false, callerWaits := false } = some c1 ∧
      c1.loopReceive = some c2 ∧ c2.Remove a 6 = some c3 ∧
      c3.callerWaits = true ∧ c3.locked = true ∧
      c3.expire = none ∧ c3.loopReceive = none ∧ (∀ now, c3.loopLock now = none) ∧
      (∀ te now, c3.Remove te now = none) :=
  ⟨_, _, _, _, _, rfl, rfl, rfl, rfl, rfl, rfl, rfl, rfl, fun _ => rfl, fun _ _ => rfl⟩

/-- After a `Remove` that shares its deadline with three pending entries one
of the others is gone as well: `x`, `y`, `z` (deadline 2) and `w` (deadline 1)
are pending; `Remove` of `x` returns the value of `x` and leaves only `w` and
`y` in the store while `Len` is 3; after that a turn of the loop, `Drain` and
`Purge` all panic. -/
theorem Remove_loses_an_entry :
    ∃ t1 x t2 y t3 z t4 w t5, NewTimedList.Add 1 "x" 2 0 0 = some (t1, x) ∧
      t1.Add 2 "y" 2 0 0 = some (t2, y) ∧ t2.Add 3 "z" 2 0 0 = some (t3, z) ∧
      t3.Add 4 "w" 1 0 0 = some (t4, w) ∧ t4.pending = [w, x, y, z] ∧
      t4.Remove x 0 = some (t5, "x") ∧ t5.pending = [w, y] ∧ t5.Len = 3 ∧
      t5.run 1 = none ∧ t5.Drain = none ∧ t5.Purge = none :=
  ⟨_, _, _, _, _, _, _, _, _, rfl, rfl, rfl, rfl, rfl, rfl, rfl, rfl, rfl, rfl, rfl⟩

/-- A `Remove` whose handle has a deadline that no pending entry has panics
(the tree finds nothing and the type assertion fails): so it is after `Drain`
or `Purge`, and after the removal or delivery of an entry that shared its
deadline with no other. -/
theorem Remove_fails_without_deadline (t : TimedList) (te : TimedEntry) (now : Time)
    (ho : Ordered t.pending) (hne : ∀ z ∈ t.pending, z.d ≠ te.d) :
    t.Remove te now = none := by
  cases h : t.Remove te now with
  | none => rfl
  | some r =>
    obtain ⟨t', v⟩ := r
    obtain ⟨ents, e, hd, -, -, -, -⟩ := Remove_cases t te now t' v h
    obtain ⟨-, hsome⟩ := LLRB.Delete_toList t.entries ents te (some e) ho hd
    obtain ⟨k1, -, ⟨l1, l2, k3, -⟩, -⟩ := hsome e rfl
    exact absurd k1 (hne e (by simp only [TimedList.pending]; rw [k3]; simp))

/-- A `Remove` that returns, called with a pending handle whose deadline no
other pending entry has, has deleted the entry of the handle and returns its
value. -/
theorem Remove_of_unique_deadline (t : TimedList) (te : TimedEntry) (now : Time)
    (t' : TimedList) (v : Value) (ho : Ordered t.pending)
    (hu : t.pending.filter (fun z => decide (z.d = te.d)) = [te])
    (h : t.Remove te now = some (t', v)) :
    v = te.v ∧ te ∉ t'.pending ∧ t'.pending.Sublist t.pending := by
  obtain ⟨ents, e, hd, hv, he, -, -⟩ := Remove_cases t te now t' v h
  obtain ⟨-, hsome⟩ := LLRB.Delete_toList t.entries ents te (some e) ho hd
  obtain ⟨k1, -, ⟨l1, l2, k3, k4⟩, -⟩ := hsome e rfl
  have hmem : e ∈ t.pending.filter (fun z => decide (z.d = te.d)) := by
    rw [List.mem_filter]
    exact ⟨by simp only [TimedList.pending]; rw [k3]; simp, by simpa using k1⟩
  rw [hu] at hmem
  have hee : e = te := by simpa using hmem
  subst hee
  have hf : (l1 ++ l2).filter (fun z => decide (z.d = e.d)) = [] := by
    simp only [TimedList.pending] at hu
    rw [k3] at hu
    simp only [List.filter_append, List.filter_cons, decide_True, if_true] at hu ⊢
    have hlen := congrArg List.length hu
    simp only [List.length_append, List.length_cons, List.length_nil] at hlen
    have h1 : (List.filter (fun z => decide (z.d = e.d)) l1).length = 0 := by omega
    have h2 : (List.filter (fun z => decide (z.d = e.d)) l2).length = 0 := by omega
    rw [List.length_eq_zero.1 h1, List.length_eq_zero.1 h2]
    rfl
  refine ⟨hv, ?_, ?_⟩
  · intro hin
    simp only [TimedList.pending] at hin
    rw [he] at hin
    have hin' : e ∈ l1 ++ l2 := k4.subset hin
    have : e ∈ (l1 ++ l2).filter (fun z => decide (z.d = e.d)) := by
      rw [List.mem_filter]; exact ⟨hin', by simp⟩
    rw [hf] at this
    simp at this
  · simp only [TimedList.pending]
    rw [he, k3]
    exact k4.trans (List.Sublist.append (List.Sublist.refl _) (List.sublist_cons_self _ _))

/-! ## The list: one turn of the dispatcher loop -/

/-- C11 fails as stated, in two ways. First: `a` (deadline 5) and `b` (deadline
7) are added at clock reading 0 and the timer fires at clock reading 10. The
turn of the loop pops `a`, hands its value to the output and re-arms the
timer for the new minimum `b`, whose deadline is already past, with the
duration -3, which is `b.d - 10` and not `max 0 (b.d - 10) = 0`. Second: `x`,
`y`, `z` (deadline 2) and `w` (deadline 1) are added and `Remove` of `x`
returns; the store of the list it leaves is not empty (`w` and `y` are
pending) and does not satisfy the invariant of the tree, and a turn of the
loop on it, at any clock reading, pops nothing: it panics. -/
theorem C11_counterexample :
    (∃ t1 a t2 b t3 tm, NewTimedList.Add 1 "a" 5 0 0 = some (t1, a) ∧
      t1.Add 2 "b" 7 0 0 = some (t2, b) ∧ t2.run 10 = some t3 ∧ t3.C = ["a"] ∧
      t3.pending = [b] ∧ b.d < 10 ∧ t3.t = some tm ∧ tm.dur = -3 ∧
      tm.dur ≠ max 0 (b.d - 10) ∧ tm.dur ≠ 0) ∧
    (∃ t1 x t2 y t3 z t4 w t5, NewTimedList.Add 1 "x" 2 0 0 = some (t1, x) ∧
      t1.Add 2 "y" 2 0 0 = some (t2, y) ∧ t2.Add 3 "z" 2 0 0 = some (t3, z) ∧
      t3.Add 4 "w" 1 0 0 = some (t4, w) ∧ t4.Remove x 0 = some (t5, "x") ∧
      t5.pending = [w, y] ∧ t5.t ≠ none ∧ t5.ctx = some false ∧ ¬ t5.entries.WF ∧
      ∀ now, t5.run now = none) :=
  ⟨⟨_, _, _, _, _, _, rfl, rfl, rfl, rfl, rfl, by decide, rfl, rfl, by decide, by decide⟩,
    ⟨_, _, _, _, _, _, _, _, _, rfl, rfl, rfl, rfl, rfl, rfl, by decide, rfl, by decide,
      fun _ => rfl⟩⟩

/-- C11, amended: let the timer fire at clock reading `now` on a list whose
tree satisfies its representation invariant, with a timer, a context that is
not cancelled and a store that is not empty, `e` being its first entry. Then
`e` is the minimum of the store and the turn of the loop returns: it has
popped `e` (the rest of the store is untouched, `Len` is one less) and handed
the value of `e` to the output. If the store is now empty (`Len` is zero) the
timer is nil and the loop has ended. Otherwise the loop goes on and the timer
is re-armed at `now` for `m.d - now`, the time that remains to the deadline of
the new minimum `m`, with no lower bound: for a deadline that is already past
the duration is negative, not zero. -/
theorem C11_run_pops_minimum_and_rearms (t : TimedList) (hw : t.entries.WF) (tm : Timer)
    (ht : t.t = some tm) (hc : t.ctx = some false) (e : TimedEntry)
    (rest : List TimedEntry) (hp : t.pending = e :: rest) (now : Time) :
    t.entries.Min = some e ∧ (∀ z ∈ rest, e.d ≤ z.d) ∧
      ∃ t', t.run now = some t' ∧ t'.pending = rest ∧ t'.C = t.C ++ [e.v] ∧
        t'.Len = t.Len - 1 ∧ t'.entries.WF ∧ (t'.Len = 0 ↔ rest = []) ∧
        (rest = [] → t'.t = none ∧ t'.loops = t.loops - 1) ∧
        (∀ m rest', rest = m :: rest' →
          t'.entries.Min = some m ∧ t'.loops = t.loops ∧ t'.ctx = some false ∧
          ∃ tm', t'.t = some tm' ∧ tm'.armed = true ∧ tm'.setAt = now ∧
            tm'.dur = m.d - now ∧ tm'.target = m.d ∧ (m.d < now → tm'.dur < 0)) := by
  have hmin : t.entries.Min = some e := by
    rw [LLRB.Min_eq_head]
    simp only [TimedList.pending] at hp
    rw [hp]; rfl
  have hord : ∀ z ∈ rest, e.d ≤ z.d := by
    have ho : Ordered (e :: rest) := by
      simp only [TimedList.pending] at hp
      rw [← hp]; exact hw.2.2.1
    exact fun z hz => List.rel_of_pairwise_cons ho hz
  refine ⟨hmin, hord, ?_⟩
  have hroot : t.entries.root ≠ .nil := by
    intro h
    simp [TimedList.pending, h, Node.toList] at hp
  obtain ⟨ents, e', hd, hl', hwf, hcnt⟩ := LLRB.DeleteMin_spec t.entries hw hroot
  have he : e' = e ∧ ents.root.toList = rest := by
    simp only [TimedList.pending] at hp
    rw [hp] at hl'
    simp at hl'
    exact ⟨hl'.1.symm, hl'.2.symm⟩
  obtain ⟨rfl, hrest⟩ := he
  by_cases hz : ents.Len = 0
  · have hr : rest = [] := by rw [← hrest]; exact (WF_length_zero hwf).1 hz
    refine ⟨{ t with entries := ents, C := t.C ++ [e'.v], t := none, loops := t.loops - 1 },
      ?_, ?_, rfl, ?_, hwf, ?_, fun _ => ⟨rfl, rfl⟩, ?_⟩
    · simp [TimedList.run, ht, hc, hd, hz]
    · simp [TimedList.pending, hrest]
    · simp only [TimedList.Len, LLRB.Len]; exact hcnt
    · simp only [TimedList.Len]; exact ⟨fun _ => hr, fun _ => hz⟩
    · intro m rest' h
      rw [hr] at h
      simp at h
  · have hr : rest ≠ [] := by
      intro h
      apply hz
      rw [WF_length_zero hwf, hrest, h]
    refine ⟨{ t with entries := ents, C := t.C ++ [e'.v],
                     t := some (tm.Reset (Until (rest.head hr).d now) now) },
      ?_, ?_, rfl, ?_, hwf, ?_, fun h => absurd h hr, ?_⟩
    · have hm : ents.Min = some (rest.head hr) := by
        rw [LLRB.Min_eq_head, hrest]
        exact List.head?_eq_head hr
      simp [TimedList.run, ht, hc, hd, hz, hm]
    · simp [TimedList.pending, hrest]
    · simp only [TimedList.Len, LLRB.Len]; exact hcnt
    · simp only [TimedList.Len]; exact ⟨fun h => absurd h hz, fun h => absurd h hr⟩
    · intro m rest' h
      subst h
      refine ⟨?_, rfl, hc, _, rfl, rfl, rfl, ?_, ?_, ?_⟩
      · simp only [LLRB.Min_eq_head, hrest]; rfl
      · simp [Timer.Reset, Until]
      · simp [Timer.Reset, Until, Timer.target]
      · intro hlt
        simp only [Timer.Reset, Until, List.head_cons]
        exact sub_neg.2 hlt

/-- Witness of C11: the timer fires at clock reading 10 on the list with `a`
(deadline 5) and `b` (deadline 7). -/
theorem C11_witness :
    twoPending.entries.Min = some ⟨1, "a", 5⟩ ∧
      (∀ z ∈ [(⟨2, "b", 7⟩ : TimedEntry)], (⟨1, "a", 5⟩ : TimedEntry).d ≤ z.d) ∧
      ∃ t', twoPending.run 10 = some t' ∧ t'.pending = [⟨2, "b", 7⟩] ∧
        t'.C = twoPending.C ++ [(⟨1, "a", 5⟩ : TimedEntry).v] ∧
        t'.Len = twoPending.Len - 1 ∧ t'.entries.WF ∧
        (t'.Len = 0 ↔ [(⟨2, "b", 7⟩ : TimedEntry)] = []) ∧
        ([(⟨2, "b", 7⟩ : TimedEntry)] = [] → t'.t = none ∧ t'.loops = twoPending.loops - 1) ∧
        (∀ m rest', [(⟨2, "b", 7⟩ : TimedEntry)] = m :: rest' →
          t'.entries.Min = some m ∧ t'.loops = twoPending.loops ∧ t'.ctx = some false ∧
          ∃ tm', t'.t = some tm' ∧ tm'.armed = true ∧ tm'.setAt = 10 ∧
            tm'.dur = m.d - 10 ∧ tm'.target = m.d ∧ (m.d < 10 → tm'.dur < 0)) :=
  C11_run_pops_minimum_and_rearms twoPending (by decide) ⟨0, 5, true⟩ rfl rfl
    ⟨1, "a", 5⟩ [⟨2, "b", 7⟩] rfl 10

/-! ## The list: what `Remove` deletes -/

/-- What a `Remove` that returns has done, on a list whose items are in order:
it has deleted from the store an entry `e` with the deadline of the handle,
found by that deadline alone, and returns the value of `e`; what is left of the
store is part of the other entries, in their order, and `Len` is one less. -/
theorem Remove_deletes_matching_entry (t : TimedList) (te : TimedEntry) (now : Time)
    (t' : TimedList) (v : Value) (ho : Ordered t.pending)
    (h : t.Remove te now = some (t', v)) :
    ∃ e l1 l2, t.pending = l1 ++ e :: l2 ∧ e.d = te.d ∧ v = e.v ∧
      t'.pending.Sublist (l1 ++ l2) ∧ t'.Len = t.Len - 1 := by
  obtain ⟨ents, e, hd, hv, he, -, -⟩ := Remove_cases t te now t' v h
  obtain ⟨-, hsome⟩ := LLRB.Delete_toList t.entries ents te (some e) ho hd
  obtain ⟨k1, k2, ⟨l1, l2, k3, k4⟩, -⟩ := hsome e rfl
  refine ⟨e, l1, l2, k3, k1, hv, ?_, ?_⟩
  · simp only [TimedList.pending]; rw [he]; exact k4
  · simp only [TimedList.Len, LLRB.Len]; rw [he]; exact k2

/-- C12, at a failing input: `x`, `y`, `z` (deadline 2) and `w` (deadline 1)
are added at clock reading 0, which leaves a list that satisfies its
representation invariant. `Remove` of `x` completes and returns the value of
`x`, but two entries with the deadline of `x` are gone from the store, `x` and
`z`, while `Len` is one less. In the list that is left `w` and `y` are
pending, and `Remove` of `w` fails, as `Remove` of `y` does, although the
store holds an entry with the deadline of the handle. -/
theorem C12_Remove_deletes_two_entries :
    ∃ t1 x t2 y t3 z t4 w t5, NewTimedList.Add 1 "x" 2 0 0 = some (t1, x) ∧
      t1.Add 2 "y" 2 0 0 = some (t2, y) ∧ t2.Add 3 "z" 2 0 0 = some (t3, z) ∧
      t3.Add 4 "w" 1 0 0 = some (t4, w) ∧ t4.WF ∧ t4.pending = [w, x, y, z] ∧
      t4.Remove x 0 = some (t5, "x") ∧ t5.pending = [w, y] ∧
      x ∉ t5.pending ∧ z ∉ t5.pending ∧ z ≠ x ∧ z.d = x.d ∧
      t5.Len = t4.Len - 1 ∧ t5.pending.length + 2 = t4.pending.length ∧
      w ∈ t5.pending ∧ t5.Remove w 0 = none ∧ y ∈ t5.pending ∧ t5.Remove y 0 = none :=
  ⟨_, _, _, _, _, _, _, _, _, rfl, rfl, rfl, rfl, by decide, rfl, rfl, rfl,
    by decide, by decide, by decide, rfl, rfl, rfl, by decide, rfl, by decide, rfl⟩

end timedlist

/-! ## The tree: `delete` of a deadline that one item has -/

namespace llrb

open timedlist

@[simp] theorem cnt_nil (item : TimedEntry) : cnt item [] = 0 := rfl

@[simp] theorem cnt_append (item : TimedEntry) (l1 l2 : List TimedEntry) :
    cnt item (l1 ++ l2) = cnt item l1 + cnt item l2 := by
  simp [cnt]

theorem cnt_cons (item x : TimedEntry) (l : List TimedEntry) :
    cnt item (x :: l) = cnt item l + (if x.d = item.d then 1 else 0) := by
  simp [cnt, List.countP_cons]

theorem cnt_eq_zero_of_gt {item : TimedEntry} {L : List TimedEntry} {b : Time}
    (h : ∀ z ∈ L, z.d ≤ b) (hb : b < item.d) : cnt item L = 0 := by
  simp only [cnt, List.countP_eq_zero, decide_eq_true_eq]
  intro z hz he
  have := h z hz
  rw [he] at this
  exact absurd hb (not_lt.2 this)

theorem cnt_eq_zero_of_lt {item : TimedEntry} {L : List TimedEntry} {b : Time}
    (h : ∀ z ∈ L, b ≤ z.d) (hb : item.d < b) : cnt item L = 0 := by
  simp only [cnt, List.countP_eq_zero, decide_eq_true_eq]
  intro z hz he
  have := h z hz
  rw [he] at this
  exact absurd hb (not_lt.2 this)

theorem fixUp_any_right (a : Node) (y : TimedEntry) (r3 : Node)
    (ha : isLLRB a = true) (hna : isRed a = false) (hr : isLLRB r3 = true)
    (hb : blackHeight a = blackHeight r3) :
    ∃ h2, fixUp (.node a y r3 true) = some h2 ∧ isLLRB h2 = true ∧ isRed h2 = false ∧
      blackHeight h2 = blackHeight a + 1 := by
  rcases r3 with _ | ⟨rl, rx, rr, rc⟩
  · exact ⟨_, fixUp_id a y .nil true rfl ha, by simp [ha, hb], rfl, by simp⟩
  · cases rc
    · obtain ⟨w1, w2, w3, w4, w5⟩ := (isLLRB_node_iff _ _ _ _).1 hr
      have w5' := w5 rfl
      simp at hb
      refine ⟨.node (.node a y rl false) rx rr true, ?_, ?_, rfl, ?_⟩
      · simp [fixUp, rotateLeft, hna, w4]
      · simp [ha, w1, w2, w4, w5', hna]; omega
      · simp
    · refine ⟨_, fixUp_id a y _ true rfl ha, ?_, rfl, by simp⟩
      simp at hb
      simp [ha, hr, hb]

theorem fixUp_red_left (al : Node) (ax : TimedEntry) (ar : Node) (y : TimedEntry) (r3 : Node)
    (ha : isLLRB (.node al ax ar false) = true) (hr : isLLRB r3 = true)
    (hb : blackHeight al = blackHeight r3) :
    ∃ h2, fixUp (.node (.node al ax ar false) y r3 true) = some h2 ∧ isLLRB h2 = true ∧
      blackHeight h2 = blackHeight al + 1 := by
  obtain ⟨v1, v2, v3, v4, v5⟩ := (isLLRB_node_iff _ _ _ _).1 ha
  have v5' := v5 rfl
  rcases r3 with _ | ⟨rl, rx, rr, rc⟩
  · refine ⟨_, fixUp_id _ y .nil true rfl ha, ?_, by simp⟩
    simp at hb
    simp [v1, v2, v4, v5', hb]
    omega
  · cases rc
    · obtain ⟨w1, w2, w3, w4, w5⟩ := (isLLRB_node_iff _ _ _ _).1 hr
      have w5' := w5 rfl
      simp at hb
      refine ⟨.node (.node al ax ar true) y (.node rl rx rr true) false, ?_, ?_, ?_⟩
      · simp [fixUp, rotateLeft, rotateRight, flip]
      · simp [v1, v2, v3, v4, w1, w2, w3, w4]; omega
      · simp
    · refine ⟨_, fixUp_id _ y _ true rfl ha, ?_, by simp⟩
      simp at hb
      simp [v1, v2, v4, v5', hr, hb]
      omega

theorem less_false_antisymm {x y : TimedEntry} (h1 : less x y = false) (h2 : less y x = false) :
    x.d = y.d :=
  le_antisymm ((less_eq_false_iff _ _).1 h2) ((less_eq_false_iff _ _).1 h1)

theorem delete_black_red_right (n : Nat) (item : TimedEntry) (ih : DeletesOneAll n item)
    (a : Node) (y : TimedEntry) (rl : Node) (rx : TimedEntry) (rr : Node)
    (hs : (Node.node a y (.node rl rx rr false) true).size < n + 1)
    (ha : isLLRB a = true) (hna : isRed a = false)
    (hr : isLLRB (.node rl rx rr false) = true)
    (hb : blackHeight a = blackHeight rl)
    (ho : Ordered (Node.node a y (.node rl rx rr false) true).toList)
    (hle : less item y = false)
    (hu : cnt item (Node.node a y (.node rl rx rr false) true).toList = 1) :
    ∃ h' e l1 l2,
      delete (n + 1) (.node a y (.node rl rx rr false) true) item = some (h', some e) ∧
      e.d = item.d ∧
      (Node.node a y (.node rl rx rr false) true).toList = l1 ++ e :: l2 ∧
      h'.toList = l1 ++ l2 ∧ isLLRB h' = true ∧ isRed h' = false ∧
      blackHeight h' = blackHeight a + 1 := by
  simp only [size_node] at hs
  cases hyi : less y item
  · -- the item of the node is the one to delete
    obtain ⟨r3, e', he, hl, hv, hb3, -⟩ :=
      deleteMin_isLLRB n (.node rl rx rr false) (by simp; omega) (by simp) hr (by simp)
    obtain ⟨h2, hf, hv2, hc2, hb2⟩ := fixUp_any_right a e' r3 ha hna hv
      (by rw [hb3]; simpa using hb)
    refine ⟨h2, y, a.toList, (Node.node rl rx rr false).toList, ?_,
      less_false_antisymm hyi hle, rfl, ?_, hv2, hc2, hb2⟩
    · simp [delete, hle, hna, hyi, he, hf]
    · rw [toList_fixUp hf, hl]; rfl
  · -- the item to delete is in the right subtree
    have hlt : y.d < item.d := (less_eq_true_iff _ _).1 hyi
    have hca : cnt item a.toList = 0 :=
      cnt_eq_zero_of_gt (fun z hz => Ordered_le_mid ho hz) hlt
    have hcr : cnt item (Node.node rl rx rr false).toList = 1 := by
      simp only [Node.toList, cnt_append, cnt_cons] at hu hca ⊢
      have : ¬ y.d = item.d := ne_of_lt hlt
      simp only [this, if_false] at hu
      omega
    obtain ⟨r3, e, l1, l2, he, hed, hl1, hl2, hv, hb3, -⟩ :=
      ih (.node rl rx rr false) (by simp; omega) hr (Ordered_right ho) (by simp) hcr
    obtain ⟨h2, hf, hv2, hc2, hb2⟩ := fixUp_any_right a y r3 ha hna hv
      (by rw [hb3]; simpa using hb)
    refine ⟨h2, e, a.toList ++ y :: l1, l2, ?_, hed, ?_, ?_, hv2, hc2, hb2⟩
    · simp [delete, hle, hna, hyi, he, hf]
    · simp only [Node.toList] at hl1 ⊢
      rw [hl1]; simp
    · rw [toList_fixUp hf]
      simp only [Node.toList]
      rw [hl2]; simp

theorem delete_left (n : Nat) (item : TimedEntry) (ih : DeletesOneAll n item)
    (l : Node) (x : TimedEntry) (r : Node) (c : Bool)
    (hs : (Node.node l x r c).size < n + 1)
    (hv : isLLRB (.node l x r c) = true)
    (ho : Ordered (Node.node l x r c).toList)
    (hp : isRed (.node l x r c) = true ∨ isRed (Node.node l x r c).Left = true)
    (hu : cnt item (Node.node l x r c).toList = 1)
    (hlt : less item x = true) :
    DeletesOne (n + 1) item (.node l x r c) := by
  have hx : item.d < x.d := (less_eq_true_iff _ _).1 hlt
  have hcr : cnt item r.toList = 0 :=
    cnt_eq_zero_of_lt (fun z hz => Ordered_mid_le ho hz) hx
  have hcl : cnt item l.toList = 1 := by
    simp only [Node.toList, cnt_append, cnt_cons] at hu
    have : ¬ x.d = item.d := (ne_of_lt hx).symm
    simp only [this, if_false] at hu
    omega
  have hol : Ordered l.toList := Ordered_left ho
  obtain ⟨vl, vr, vb, vrr, vc⟩ := (isLLRB_node_iff _ _ _ _).1 hv
  rcases l with _ | ⟨ll, lx, lr, lc⟩
  · simp [Node.toList] at hcl
  obtain ⟨v1, v2, v3, v4, v4b⟩ := (isLLRB_node_iff _ _ _ _).1 vl
  cases c
  · -- a red node: its children are black
    have hlc : lc = true := by simpa using vc rfl
    subst hlc
    rcases r with _ | ⟨rl, rx, rr, rc⟩
    · simp at vb
    obtain ⟨v5, v6, v7, v8, v9⟩ := (isLLRB_node_iff _ _ _ _).1 vr
    have hrc : rc = true := by simpa using vrr
    subst hrc
    simp at vb hs
    cases hll : isRed ll
    · -- moveRedLeft
      cases hrl : isRed rl
      · -- no rotation: recursion on the left child, now red
        obtain ⟨l2, e, l1', l2', he, hed, hl1, hl2, hv2, hb2, -⟩ :=
          ih (.node ll lx lr false) (by simp; omega)
            (by simp [v1, v2, v3, v4, hll]) hol (by simp) hcl
        obtain ⟨h2, hf, hv3, hb3⟩ := fixUp_red_right l2 x rl rx rr hv2 v5 v6
          (by simp at hb2; omega) v7 hrl v8
        refine ⟨h2, e, l1', l2' ++ x :: (Node.node rl rx rr true).toList, ?_, hed, ?_, ?_,
          hv3, ?_, by simp⟩
        · simp [delete, hlt, moveRedLeft, flip, hll, hrl, he, hf]
        · simp only [Node.toList] at hl1 ⊢
          rw [hl1]; simp
        · rw [toList_fixUp hf]
          simp only [Node.toList]
          rw [hl2]; simp
        · simp at hb2 ⊢
          omega
      · -- rotation: recursion on a black node with a red left child
        rcases rl with _ | ⟨rll, rlx, rlr, rlc⟩
        · simp at hrl
        have hrlc : rlc = false := by simpa using hrl
        subst hrlc
        obtain ⟨w1, w2, w3, w4, w5⟩ := (isLLRB_node_iff _ _ _ _).1 v5
        simp at v7 vb hs
        have ho1 : Ordered (Node.node (.node ll lx lr false) x rll true).toList := by
          refine Ordered_sublist ?_ ho
          simp [Node.toList]
        have hc1 : cnt item (Node.node (.node ll lx lr false) x rll true).toList = 1 := by
          simp only [Node.toList, cnt_append, cnt_cons] at hu hcl hcr ⊢
          omega
        obtain ⟨l2, e, l1', l2', he, hed, hl1, hl2, hv2, hb2, hc2⟩ :=
          ih (.node (.node ll lx lr false) x rll true) (by simp; omega)
            (by simp [v1, v2, v3, v4, hll, w1, w5 rfl]; omega) ho1 (by simp) hc1
        have hf := fixUp_id l2 rlx (.node rlr rx rr true) false (by simp) hv2
        refine ⟨.node l2 rlx (.node rlr rx rr true) false, e, l1',
          l2' ++ rlx :: (Node.node rlr rx rr true).toList, ?_, hed, ?_, ?_, ?_, ?_, by simp⟩
        · simp [delete, hlt, moveRedLeft, flip, rotateRight, rotateLeft, hll, he, hf]
        · have h3 := congrArg (fun t => t ++ (rlx :: (rlr.toList ++ rx :: rr.toList))) hl1
          simpa [Node.toList] using h3
        · simp only [Node.toList]
          rw [hl2]; simp
        · simp at hb2 hc2
          simp [hv2, w2, v6, v8, hc2]
          omega
        · simp at hb2 ⊢
          omega
    · -- recursion on the left child, black with a red left child
      obtain ⟨l2, e, l1', l2', he, hed, hl1, hl2, hv2, hb2, hc2⟩ :=
        ih (.node ll lx lr true) (by simp; omega)
          (by simp [v1, v2, v3, v4]) hol (by simp [hll]) hcl
      have hf := fixUp_id l2 x (.node rl rx rr true) false (by simp) hv2
      refine ⟨.node l2 x (.node rl rx rr true) false, e, l1',
        l2' ++ x :: (Node.node rl rx rr true).toList, ?_, hed, ?_, ?_, ?_, ?_, by simp⟩
      · simp [delete, hlt, hll, he, hf]
      · simp only [Node.toList] at hl1 ⊢
        rw [hl1]; simp
      · simp only [Node.toList]
        rw [hl2]; simp
      · simp at hb2 hc2
        simp [hv2, v5, v6, v7, v8, hc2]
        omega
      · simp at hb2 ⊢
        omega
  · -- a black node with a red left child: recursion on that child
    simp at hp
    subst hp
    simp at vb hs
    obtain ⟨l2, e, l1', l2', he, hed, hl1, hl2, hv2, hb2, -⟩ :=
      ih (.node ll lx lr false) (by simp; omega)
        (by simp [v1, v2, v3, v4, v4b]) hol (by simp) hcl
    have hf := fixUp_id l2 x r true vrr hv2
    refine ⟨.node l2 x r true, e, l1', l2' ++ x :: r.toList, ?_, hed, ?_, ?_, ?_, ?_, by simp⟩
    · simp [delete, hlt, he, hf]
    · simp only [Node.toList] at hl1 ⊢
      rw [hl1]; simp
    · simp only [Node.toList]
      rw [hl2]; simp
    · simp at hb2
      simp [hv2, vr, vrr]
      omega
    · simp at hb2 ⊢
      omega

theorem delete_right (n : Nat) (item : TimedEntry) (ih : DeletesOneAll n item)
    (ihr : ∀ k, k + 1 = n → DeletesOneAll k item)
    (l : Node) (x : TimedEntry) (r : Node) (c : Bool)
    (hs : (Node.node l x r c).size < n + 1)
    (hv : isLLRB (.node l x r c) = true)
    (ho : Ordered (Node.node l x r c).toList)
    (hp : isRed (.node l x r c) = true ∨ isRed (Node.node l x r c).Left = true)
    (hu : cnt item (Node.node l x r c).toList = 1)
    (hge : less item x = false) :
    DeletesOne (n + 1) item (.node l x r c) := by
  have hx : x.d ≤ item.d := (less_eq_false_iff _ _).1 hge
  have hol : Ordered l.toList := Ordered_left ho
  have hor : Ordered r.toList := Ordered_right ho
  obtain ⟨vl, vr, vb, vrr, vc⟩ := (isLLRB_node_iff _ _ _ _).1 hv
  cases hl : isRed l
  · -- the left child is not red: the node is red
    have hc : c = false := by
      rcases hp with hp | hp
      · simpa using hp
      · simp [hl] at hp
    subst hc
    rcases r with _ | ⟨rl, rx, rr, rc⟩
    · -- a red leaf: it is the item to delete
      have hln : l = .nil := eq_nil_of_blackHeight_zero l (by simpa using vb) hl
      subst hln
      have hxe : x.d = item.d := by
        simp only [Node.toList, cnt_append, cnt_cons, cnt_nil, List.nil_append] at hu
        by_contra hne
        simp [hne] at hu
      have hxi : less x item = false := (less_eq_false_iff _ _).2 (le_of_eq hxe.symm)
      refine ⟨.nil, x, [], [], ?_, hxe, by simp [Node.toList], by simp [Node.toList], rfl,
        by simp, by simp⟩
      simp [delete, hge, hxi]
    have hrc : rc = true := by simpa using vrr
    subst hrc
    obtain ⟨v5, v6, v7, v8, v9⟩ := (isLLRB_node_iff _ _ _ _).1 vr
    cases hrl : isRed rl
    · -- moveRedRight
      rcases l with _ | ⟨ll, lx, lr, lc⟩
      · simp at vb
      have hlc : lc = true := by simpa using hl
      subst hlc
      obtain ⟨v1, v2, v3, v4, -⟩ := (isLLRB_node_iff _ _ _ _).1 vl
      simp at vb hs
      cases hll : isRed ll
      · -- no rotation
        cases hxi : less x item
        · -- the item of the node is the one to delete
          obtain ⟨r3, e', he, hl3, hv3, hb3, -⟩ :=
            deleteMin_isLLRB n (.node rl rx rr false) (by simp; omega) (by simp)
              (by simp [v5, v6, v7, v8, hrl]) (by simp)
          obtain ⟨h2, hf, hv2, hb2⟩ := fixUp_red_left ll lx lr e' r3
            (by simp [v1, v2, v3, v4, hll]) hv3 (by rw [hb3]; simp; omega)
          refine ⟨h2, x, (Node.node ll lx lr true).toList, (Node.node rl rx rr true).toList, ?_,
            less_false_antisymm hxi hge, rfl, ?_, hv2, ?_, by simp⟩
          · simp [delete, hge, hxi, moveRedRight, flip, hll, hrl, he, hf]
          · rw [toList_fixUp hf]
            simp only [Node.toList] at hl3 ⊢
            rw [hl3]
          · simp; omega
        · -- the item to delete is in the right subtree
          have hlt : x.d < item.d := (less_eq_true_iff _ _).1 hxi
          have hca : cnt item (Node.node ll lx lr true).toList = 0 :=
            cnt_eq_zero_of_gt (fun z hz => Ordered_le_mid ho hz) hlt
          have hcr : cnt item (Node.node rl rx rr false).toList = 1 := by
            simp only [Node.toList, cnt_append, cnt_cons] at hu hca ⊢
            have : ¬ x.d = item.d := ne_of_lt hlt
            simp only [this, if_false] at hu
            omega
          obtain ⟨r3, e, l1, l2, he, hed, hl1, hl2, hv3, hb3, -⟩ :=
            ih (.node rl rx rr false) (by simp; omega) (by simp [v5, v6, v7, v8, hrl]) hor
              (by simp) hcr
          obtain ⟨h2, hf, hv2, hb2⟩ := fixUp_red_left ll lx lr x r3
            (by simp [v1, v2, v3, v4, hll]) hv3 (by rw [hb3]; simp; omega)
          refine ⟨h2, e, (Node.node ll lx lr true).toList ++ x :: l1, l2, ?_, hed, ?_, ?_, hv2,
            ?_, by simp⟩
          · simp [delete, hge, hxi, moveRedRight, flip, hll, hrl, he, hf]
          · simp only [Node.toList] at hl1 ⊢
            rw [hl1]; simp
          · rw [toList_fixUp hf]
            simp only [Node.toList]
            rw [hl2]; simp
          · simp; omega
      · -- rotation: recursion on a black node with a red right child
        rcases ll with _ | ⟨lll, llx, llr, llc⟩
        · simp at hll
        have hllc : llc = false := by simpa using hll
        subst hllc
        obtain ⟨u1, u2, u3, u4, u5⟩ := (isLLRB_node_iff _ _ _ _).1 v1
        simp at v3 vb hs
        have hlx : lx.d ≤ x.d :=
          Ordered_le_mid ho (by simp [Node.toList])
        have hlxne : ¬ lx.d = item.d := by
          intro h1
          have h2 : x.d = item.d := le_antisymm hx (h1 ▸ hlx)
          simp only [Node.toList, cnt_append, cnt_cons, h1, h2, if_true] at hu
          omega
        have hlt : lx.d < item.d := lt_of_le_of_ne (le_trans hlx hx) hlxne
        have hlxi : less lx item = true := (less_eq_true_iff _ _).2 hlt
        have hca : cnt item (Node.node lll llx llr false).toList = 0 :=
          cnt_eq_zero_of_gt (fun z hz => Ordered_le_mid hol hz) hlt
        have ho1 : Ordered (Node.node lr x (.node rl rx rr false) true).toList := by
          have ho2 : Ordered ((lll.toList ++ llx :: llr.toList) ++
              lx :: (lr.toList ++ x :: (rl.toList ++ rx :: rr.toList))) := by
            simpa [Node.toList] using ho
          simpa [Node.toList] using Ordered_right ho2
        have hc1 : cnt item (Node.node lr x (.node rl rx rr false) true).toList = 1 := by
          simp only [Node.toList, cnt_append, cnt_cons, hlxne, if_false] at hu hca ⊢
          omega
        obtain ⟨k, hk⟩ : ∃ k, k + 1 = n := ⟨n - 1, by omega⟩
        have hR := delete_black_red_right k item (ihr k hk) lr x rl rx rr (by simp; omega) v2 v4
            (by simp [v5, v6, v7, v8, hrl]) (by omega) ho1 hge hc1
        rw [hk] at hR
        obtain ⟨r3, e, l1, l2, he, hed, hl1, hl2, hv3, hc3, hb3⟩ := hR
        have hf := fixUp_id (.node lll llx llr true) lx r3 false hc3
          (by simp [u1, u2, u3, u4])
        refine ⟨.node (.node lll llx llr true) lx r3 false, e,
          (Node.node lll llx llr true).toList ++ lx :: l1, l2, ?_, hed, ?_, ?_, ?_, ?_, by simp⟩
        · simp [delete, hge, hlxi, moveRedRight, flip, rotateRight, hrl, he, hf]
        · have h3 := congrArg (fun t => (lll.toList ++ llx :: llr.toList) ++ lx :: t) hl1
          simpa [Node.toList] using h3
        · simp only [Node.toList]
          rw [hl2]; simp
        · simp [u1, u2, u3, u4, hv3, hc3, hb3]
          omega
        · simp
    · -- the right child is black with a red left child
      simp at vb hs
      cases hxi : less x item
      · -- the item of the node is the one to delete
        obtain ⟨r3, e', he, hl3, hv3, hb3, hc3⟩ :=
          deleteMin_isLLRB n (.node rl rx rr true) (by simp; omega) (by simp) vr
            (by simp [hrl])
        have hf := fixUp_id l e' r3 false (hc3 (by simp)) vl
        refine ⟨.node l e' r3 false, x, l.toList, (Node.node rl rx rr true).toList, ?_,
          less_false_antisymm hxi hge, rfl, ?_, ?_, ?_, by simp⟩
        · simp [delete, hge, hxi, hl, hrl, he, hf]
        · simp only [Node.toList] at hl3 ⊢
          rw [hl3]
        · simp at hb3
          simp [vl, hv3, hc3, hl]
          omega
        · simp
      · -- the item to delete is in the right subtree
        have hlt : x.d < item.d := (less_eq_true_iff _ _).1 hxi
        have hca : cnt item l.toList = 0 :=
          cnt_eq_zero_of_gt (fun z hz => Ordered_le_mid ho hz) hlt
        have hcr : cnt item (Node.node rl rx rr true).toList = 1 := by
          simp only [Node.toList, cnt_append, cnt_cons] at hu hca ⊢
          have : ¬ x.d = item.d := ne_of_lt hlt
          simp only [this, if_false] at hu
          omega
        obtain ⟨r3, e, l1, l2, he, hed, hl1, hl2, hv3, hb3, hc3⟩ :=
          ih (.node rl rx rr true) (by simp; omega) vr hor (by simp [hrl]) hcr
        have hf := fixUp_id l x r3 false (hc3 (by simp)) vl
        refine ⟨.node l x r3 false, e, l.toList ++ x :: l1, l2, ?_, hed, ?_, ?_, ?_, ?_,
          by simp⟩
        · simp [delete, hge, hxi, hl, hrl, he, hf]
        · simp only [Node.toList] at hl1 ⊢
          rw [hl1]; simp
        · simp only [Node.toList]
          rw [hl2]; simp
        · simp at hb3
          simp [vl, hv3, hc3, hl]
          omega
        · simp
  · -- the left child is red: rotateRight, then as for a black node with a red right child
    rcases l with _ | ⟨ll, lx, lr, lc⟩
    · simp at hl
    have hlc : lc = false := by simpa using hl
    subst hlc
    have hc : c = true := by
      cases c
      · simp at vc
      · rfl
    subst hc
    obtain ⟨v1, v2, v3, v4, v4b⟩ := (isLLRB_node_iff _ _ _ _).1 vl
    have v4b' := v4b rfl
    simp at vb hs
    have hlx : lx.d ≤ x.d := Ordered_le_mid ho (by simp [Node.toList])
    have hlxi : less item lx = false := (less_eq_false_iff _ _).2 (le_trans hlx hx)
    have hlist : (Node.node ll lx (.node lr x r false) true).toList =
        (Node.node (.node ll lx lr false) x r true).toList := by
      simp [Node.toList]
    have heq : delete (n + 1) (.node (.node ll lx lr false) x r true) item =
        delete (n + 1) (.node ll lx (.node lr x r false) true) item := by
      simp [delete, hge, hlxi, rotateRight, v4b']
    obtain ⟨h', e, l1, l2, he, hed, hl1, hl2, hv3, hc3, hb3⟩ :=
      delete_black_red_right n item ih ll lx lr x r (by simp; omega) v1 v4b'
        (by simp [v2, vr, vrr, v4]; omega) v3 (by rw [hlist]; exact ho) hlxi
        (by rw [hlist]; exact hu)
    refine ⟨h', e, l1, l2, by rw [heq]; exact he, hed, by rw [← hlist]; exact hl1, hl2, hv3,
      ?_, fun _ => hc3⟩
    simp [hb3]

/-- On a tree in which exactly one item has the deadline of `item`, with the
shape invariant, at a node that is red or has a red left child, `delete`
returns: it has deleted that item and nothing else, and what it returns has
the shape invariant and the black height of the tree. -/
theorem delete_isLLRB (item : TimedEntry) (fuel : Nat) : DeletesOneAll fuel item := by
  induction fuel using Nat.strong_induction_on with
  | _ n ih =>
    intro h hs hv ho hp hu
    cases n with
    | zero => omega
    | succ m =>
      rcases h with _ | ⟨l, x, r, c⟩
      · simp [cnt, Node.toList] at hu
      cases hlt : less item x
      · exact delete_right m item (ih m (Nat.lt_succ_self _)) (fun k hk => ih k (by omega))
          l x r c hs hv ho hp hu hlt
      · exact delete_left m item (ih m (Nat.lt_succ_self _)) l x r c hs hv ho hp hu hlt

theorem rotateRight_toggle (l : Node) (x : TimedEntry) (r : Node) (c : Bool) :
    rotateRight (.node l x r (!c)) = (rotateRight (.node l x r c)).map toggle := by
  rcases l with _ | ⟨ll, lx, lr, lc⟩
  · simp [rotateRight]
  · cases lc <;> simp [rotateRight]

theorem moveRedRight_toggle (l : Node) (x : TimedEntry) (r : Node) (c : Bool) :
    moveRedRight (.node l x r (!c)) = (moveRedRight (.node l x r c)).map toggle := by
  rcases l with _ | ⟨ll, lx, lr, lc⟩ <;> rcases r with _ | ⟨rl, rx, rr, rc⟩ <;>
    try rcases ll with _ | ⟨lll, llx, llr, llc⟩
  all_goals try cases llc
  all_goals try cases lc
  all_goals simp [moveRedRight, flip, rotateRight]

theorem delete_toggle (fuel : Nat) (l : Node) (x : TimedEntry) (r : Node) (c : Bool)
    (item : TimedEntry) :
    delete fuel (.node l x r (!c)) item =
      (delete fuel (.node l x r c) item).map (fun p => (toggle p.1, p.2)) := by
  cases fuel with
  | zero => simp [delete]
  | succ n =>
    simp only [delete]
    split
    · split
      · simp
      · have key : (if (!isRed l && !isRed l.Left) = true
              then moveRedLeft (.node l x r (!c)) else some (.node l x r (!c))) =
            (if (!isRed l && !isRed l.Left) = true
              then moveRedLeft (.node l x r c) else some (.node l x r c)).map toggle := by
          split
          · exact moveRedLeft_toggle _ _ _ _
          · rfl
        rw [key]
        rcases (if (!isRed l && !isRed l.Left) = true
              then moveRedLeft (.node l x r c) else some (.node l x r c)) with _ | h1
        · rfl
        · rcases h1 with _ | ⟨l1, x1, r1, c1⟩
          · rfl
          · simp only [Option.map_some', toggle_node]
            rcases delete n l1 item with _ | ⟨l2, deleted⟩
            · rfl
            · simp only [fixUp_toggle]
              rcases fixUp (.node l2 x1 r1 c1) with _ | h2 <;> rfl
    · have key : (if isRed l = true then rotateRight (.node l x r (!c))
            else some (.node l x r (!c))) =
          (if isRed l = true then rotateRight (.node l x r c)
            else some (.node l x r c)).map toggle := by
        split
        · exact rotateRight_toggle _ _ _ _
        · rfl
      rw [key]
      rcases (if isRed l = true then rotateRight (.node l x r c)
            else some (.node l x r c)) with _ | h1
      · rfl
      · rcases h1 with _ | ⟨l1, x1, r1, c1⟩
        · rfl
        · simp only [Option.map_some', toggle_node]
          split
          · simp
          · have key2 : (if (decide (r1 ≠ Node.nil) && !isRed r1 && !isRed r1.Left) = true
                  then moveRedRight (.node l1 x1 r1 (!c1)) else some (.node l1 x1 r1 (!c1))) =
                (if (decide (r1 ≠ Node.nil) && !isRed r1 && !isRed r1.Left) = true
                  then moveRedRight (.node l1 x1 r1 c1) else some (.node l1 x1 r1 c1)).map
                  toggle := by
              split
              · exact moveRedRight_toggle _ _ _ _
              · rfl
            rw [key2]
            rcases (if (decide (r1 ≠ Node.nil) && !isRed r1 && !isRed r1.Left) = true
                  then moveRedRight (.node l1 x1 r1 c1) else some (.node l1 x1 r1 c1))
              with _ | h2
            · rfl
            · rcases h2 with _ | ⟨l2, x2, r2, c2⟩
              · rfl
              · simp only [Option.map_some', toggle_node]
                split
                · rcases deleteMin n r2 with _ | ⟨r3, _ | sub⟩
                  · rfl
                  · rfl
                  · simp only [fixUp_toggle]
                    rcases fixUp (.node l2 sub r3 c2) with _ | h3 <;> rfl
                · rcases delete n r2 item with _ | ⟨r3, deleted⟩
                  · rfl
                  · simp only [fixUp_toggle]
                    rcases fixUp (.node l2 x2 r3 c2) with _ | h3 <;> rfl

theorem delete_root (h : Node) (item : TimedEntry) (hv : isLLRB h = true)
    (hb : isRed h = false) (ho : Ordered h.toList) (hu : cnt item h.toList = 1) :
    ∃ h' e l1 l2, delete (h.size + 1) h item = some (h', some e) ∧ e.d = item.d ∧
      h.toList = l1 ++ e :: l2 ∧ h'.toList = l1 ++ l2 ∧ isLLRB (setBlack h') = true := by
  rcases h with _ | ⟨l, x, r, c⟩
  · simp [Node.toList] at hu
  have hc : c = true := by simpa using hb
  subst hc
  obtain ⟨vl, vr, vb, vrr, -⟩ := (isLLRB_node_iff _ _ _ _).1 hv
  cases hl : isRed l
  · obtain ⟨h', e, l1, l2, he, hed, hl1, hl2, hv', -, -⟩ :=
      delete_isLLRB item ((Node.node l x r true).size + 1) (.node l x r false)
        (by simp) (by rw [isLLRB_node_iff]; exact ⟨vl, vr, vb, vrr, fun _ => hl⟩) ho
        (by simp) hu
    have ht := delete_toggle ((Node.node l x r true).size + 1) l x r false item
    rw [he] at ht
    simp only [Bool.not_false, Option.map_some'] at ht
    refine ⟨toggle h', e, l1, l2, ht, hed, hl1, ?_, ?_⟩
    · rw [toList_toggle]; exact hl2
    · rw [setBlack_toggle]; exact isLLRB_setBlack _ hv'
  · obtain ⟨h', e, l1, l2, he, hed, hl1, hl2, hv', -, -⟩ :=
      delete_isLLRB item ((Node.node l x r true).size + 1) (.node l x r true)
        (Nat.lt_succ_self _) hv ho (by simp [hl]) hu
    exact ⟨h', e, l1, l2, he, hed, hl1, hl2, isLLRB_setBlack _ hv'⟩

/-- On a tree that satisfies its representation invariant and holds exactly
one item with the deadline of `key`, `Delete` returns that item, deletes it
and nothing else, and leaves a tree that satisfies the invariant. -/
theorem LLRB.Delete_spec (t : LLRB) (hw : t.WF) (key : TimedEntry)
    (hu : cnt key t.root.toList = 1) :
    ∃ t' e l1 l2, t.Delete key = some (t', some e) ∧ e.d = key.d ∧
      t.root.toList = l1 ++ e :: l2 ∧ t'.root.toList = l1 ++ l2 ∧ t'.WF ∧
      t'.count = t.count - 1 := by
  obtain ⟨w1, w2, w3, w4⟩ := hw
  obtain ⟨h', e, l1, l2, he, hed, hl1, hl2, hv⟩ := delete_root t.root key w1 w2 w3 hu
  refine ⟨{ count := t.count - 1, root := setBlack h' }, e, l1, l2, ?_, hed, hl1, ?_, ?_, rfl⟩
  · simp [LLRB.Delete, he]
  · simp [toList_setBlack, hl2]
  · refine ⟨hv, isRed_setBlack _, ?_, ?_⟩
    · simp only [toList_setBlack, hl2]
      rw [hl1] at w3
      exact Ordered_sublist (List.Sublist.append (List.Sublist.refl _)
        (List.sublist_cons_self _ _)) w3
    · simp only [toList_setBlack, hl2]
      rw [w4, hl1]
      simp
      omega

end llrb

/-! ## The list: `Remove` of a deadline that one pending entry has -/

namespace timedlist

open llrb

theorem eq_of_cnt_one {te e : TimedEntry} {l1 l2 : List TimedEntry}
    (hu : cnt te (l1 ++ e :: l2) = 1) (hed : e.d = te.d) (hin : te ∈ l1 ++ e :: l2) :
    e = te := by
  simp only [cnt_append, cnt_cons, hed, if_true] at hu
  have h1 : cnt te l1 = 0 := by omega
  have h2 : cnt te l2 = 0 := by omega
  simp only [cnt, List.countP_eq_zero, decide_eq_true_eq] at h1 h2
  simp only [List.mem_append, List.mem_cons] at hin
  rcases hin with hin | hin | hin
  · exact absurd rfl (h1 te hin)
  · exact hin.symm
  · exact absurd rfl (h2 te hin)

/-- `Remove` on a list in the state that `Add` and the loop keep it in, with a
handle whose deadline exactly one pending entry `e` has: the call returns the
value of `e`, has deleted `e` from the store and nothing else, and leaves the
list in such a state again. When the handle itself is pending, `e` is the
handle. -/
theorem Remove_Live (t : TimedList) (hl : t.Live) (te : TimedEntry) (now : Time)
    (hu : cnt te t.pending = 1) :
    ∃ t' e l1 l2, t.Remove te now = some (t', e.v) ∧ e.d = te.d ∧
      t.pending = l1 ++ e :: l2 ∧ t'.pending = l1 ++ l2 ∧ t'.Live ∧ t'.C = t.C ∧
      t'.Len = t.Len - 1 ∧ (te ∈ t.pending → e = te) := by
  obtain ⟨hw, h2, h3⟩ := hl
  obtain ⟨ents, e, l1, l2, hd, hed, hl1, hl2, hwf, hcnt⟩ :=
    LLRB.Delete_spec t.entries hw te hu
  have hne : t.pending ≠ [] := by simp [TimedList.pending, hl1]
  obtain ⟨k1, k2, k3⟩ := h3 hne
  obtain ⟨tm, htm⟩ := Option.ne_none_iff_exists'.1 k1
  have hte : te ∈ t.pending → e = te := by
    intro hin
    simp only [TimedList.pending] at hin hu
    rw [hl1] at hin hu
    exact eq_of_cnt_one hu hed hin
  by_cases hz : ents.Len = 0
  · have hr : ents.root.toList = [] := (WF_length_zero hwf).1 hz
    refine ⟨{ t with entries := ents, ctx := some true, t := none, loops := 0 }, e, l1, l2,
      ?_, hed, hl1, hl2, ?_, rfl, hcnt, hte⟩
    · simp [TimedList.Remove, hd, hz, TimedList.stop, htm, k2]
    · exact ⟨hwf, fun _ => ⟨rfl, rfl⟩, fun h => absurd hr h⟩
  · have hr : ents.root.toList ≠ [] := fun h => hz ((WF_length_zero hwf).2 h)
    obtain ⟨m, hm⟩ : ∃ m, ents.Min = some m := by
      rw [LLRB.Min_eq_head]
      cases hh : ents.root.toList with
      | nil => exact absurd hh hr
      | cons a as => exact ⟨a, rfl⟩
    by_cases hgt : m.d > e.d
    · refine ⟨{ t with entries := ents, t := some (tm.Stop.Reset (Until m.d now) now) },
        e, l1, l2, ?_, hed, hl1, hl2, ?_, rfl, hcnt, hte⟩
      · simp [TimedList.Remove, hd, hz, hm, hgt, htm]
      · exact ⟨hwf, fun h => absurd h hr, fun _ => ⟨by simp, k2, k3⟩⟩
    · refine ⟨{ t with entries := ents }, e, l1, l2, ?_, hed, hl1, hl2, ?_, rfl, hcnt, hte⟩
      · simp [TimedList.Remove, hd, hz, hm, hgt]
      · exact ⟨hwf, fun h => absurd h hr, fun _ => ⟨k1, k2, k3⟩⟩

theorem Drain_Live (t : TimedList) (hl : t.Live) : ∃ t', t.Drain = some t' ∧ t'.Live := by
  have hw := Live_WF hl
  obtain ⟨t1, s1, s2, s3, s4, s5, s6, -⟩ := stop_WF t hw
  have hw1 : t1.entries.WF := by rw [s2]; exact hw.1
  obtain ⟨t', d1, d2, d3, d4, d5, d6, d7⟩ :=
    drainLoop_WF (t1.entries.Len.toNat + 1) t1 hw1 (fuel_enough hw1)
  refine ⟨t', by simp [TimedList.Drain, s1, d1], d4, fun _ => ⟨by rw [d5, s4], by rw [d7, s5]⟩,
    fun h => absurd d3 h⟩

theorem Purge_Live (t : TimedList) (hl : t.Live) : ∃ t', t.Purge = some t' ∧ t'.Live := by
  have hw := Live_WF hl
  obtain ⟨t1, s1, s2, s3, s4, s5, s6, -⟩ := stop_WF t hw
  have hw1 : t1.entries.WF := by rw [s2]; exact hw.1
  obtain ⟨t', d1, d2, d3, d4, d5, d6, d7⟩ :=
    purgeLoop_WF (t1.entries.Len.toNat + 1) t1 hw1 (fuel_enough hw1)
  refine ⟨t', by simp [TimedList.Purge, s1, d1], d4, fun _ => ⟨by rw [d5, s4], by rw [d7, s5]⟩,
    fun h => absurd d3 h⟩

/-- Every list reached from a new list by steps among which no `Remove` is
called with a deadline that two or more pending entries share is in the state
that `Add` and the loop keep it in; in particular its tree satisfies the
representation invariant. -/
theorem exec_tieFree_Live (ops : List Op) (t : TimedList) (hl : t.Live)
    (htf : tieFree t ops) (t' : TimedList) (h : exec t ops = some t') : t'.Live := by
  induction ops generalizing t with
  | nil =>
    simp [exec] at h
    subst h
    exact hl
  | cons op ops ih =>
    simp only [exec] at h
    cases hs : step t op with
    | none => rw [hs] at h; simp at h
    | some t1 =>
      rw [hs] at h
      simp only at h
      obtain ⟨hop, hrest⟩ := htf
      refine ih t1 ?_ (hrest t1 hs) h
      cases op with
      | add addr v d now0 now =>
        obtain ⟨t2, h2, hl2, -, -⟩ := Add_Live t hl addr v d now0 now
        simp only [step, h2, Option.map_some', Option.some.injEq] at hs
        subst hs
        exact hl2
      | remove te now =>
        have hc := hop te now rfl
        cases hr : t.Remove te now with
        | none => simp [step, hr] at hs
        | some r =>
          have hc1 : cnt te t.pending = 1 := by
            by_contra hne
            have h0 : cnt te t.pending = 0 := by omega
            simp only [cnt, List.countP_eq_zero, decide_eq_true_eq] at h0
            rw [Remove_fails_without_deadline t te now hl.1.2.2.1 h0] at hr
            simp at hr
          obtain ⟨t2, e, l1, l2, h2, -, -, -, hl2, -⟩ := Remove_Live t hl te now hc1
          simp only [step, h2, Option.map_some', Option.some.injEq] at hs
          subst hs
          exact hl2
      | fire now =>
        simp only [step] at hs
        cases hp : t.pending with
        | nil =>
          have := (hl.2.1 hp).1
          simp [TimedList.run, this] at hs
        | cons e rest =>
          obtain ⟨t2, h2, hl2, -, -⟩ := run_Live t hl e rest hp now
          rw [h2] at hs
          simp only [Option.some.injEq] at hs
          subst hs
          exact hl2
      | drain =>
        obtain ⟨t2, h2, hl2⟩ := Drain_Live t hl
        simp only [step, h2, Option.some.injEq] at hs
        subst hs
        exact hl2
      | purge =>
        obtain ⟨t2, h2, hl2⟩ := Purge_Live t hl
        simp only [step, h2, Option.some.injEq] at hs
        subst hs
        exact hl2

/-! ## The list: `Drain`, `Purge` and `Len` after a `Remove` that lost an entry -/

/-- C4, at a failing input: `x`, `y`, `z` (deadline 2) and `w` (deadline 1) are
added at clock reading 0 and `Remove` of `x` returns; the list it leaves has
`w` and `y` pending and a length of 3. On this list `Drain` stops the timer
and the loop and then panics in its first `DeleteMin`: nothing is popped or
handed to the output, `w` and `y` stay in the store and `Len` stays 3. -/
theorem C4_Drain_fails_after_Remove :
    ∃ t1 x t2 y t3 z t4 w t5 t6, NewTimedList.Add 1 "x" 2 0 0 = some (t1, x) ∧
      t1.Add 2 "y" 2 0 0 = some (t2, y) ∧ t2.Add 3 "z" 2 0 0 = some (t3, z) ∧
      t3.Add 4 "w" 1 0 0 = some (t4, w) ∧ t4.Remove x 0 = some (t5, "x") ∧
      t5.pending = [w, y] ∧ t5.Len = 3 ∧ t5.stop = some t6 ∧ t6.pending = [w, y] ∧
      t6.Len > 0 ∧ t6.entries.DeleteMin = none ∧ t5.Drain = none :=
  ⟨_, _, _, _, _, _, _, _, _, _, rfl, rfl, rfl, rfl, rfl, rfl, rfl, rfl, rfl, by decide, rfl,
    rfl⟩

/-- C5, at a failing input: `x`, `y`, `z` (deadline 2) and `w` (deadline 1) are
added at clock reading 0 and `Remove` of `x` returns; the list it leaves has
`w` and `y` pending and a length of 3. On this list `Purge` stops the timer
and the loop and then panics in its first `DeleteMin`: no entry is discarded,
`w` and `y` stay in the store and `Len` stays 3. -/
theorem C5_Purge_fails_after_Remove :
    ∃ t1 x t2 y t3 z t4 w t5 t6, NewTimedList.Add 1 "x" 2 0 0 = some (t1, x) ∧
      t1.Add 2 "y" 2 0 0 = some (t2, y) ∧ t2.Add 3 "z" 2 0 0 = some (t3, z) ∧
      t3.Add 4 "w" 1 0 0 = some (t4, w) ∧ t4.Remove x 0 = some (t5, "x") ∧
      t5.pending = [w, y] ∧ t5.Len = 3 ∧ t5.stop = some t6 ∧ t6.pending = [w, y] ∧
      t6.Len > 0 ∧ t6.entries.DeleteMin = none ∧ t5.Purge = none :=
  ⟨_, _, _, _, _, _, _, _, _, _, rfl, rfl, rfl, rfl, rfl, rfl, rfl, rfl, rfl, by decide, rfl,
    rfl⟩

/-- C7, at a failing input: four `Add` steps (`x`, `y`, `z` with deadline 2, `w`
with deadline 1) and a successful `Remove` of `x` leave a list whose `Len` is
3, as the count of the steps says, while its store holds two entries. From
there neither `Drain` nor `Purge` sets `Len` to 0 and no turn of the loop
lowers it by 1: each of the three panics. -/
theorem C7_Len_after_lost_entry :
    ∃ t5, exec NewTimedList [.add 1 "x" 2 0 0, .add 2 "y" 2 0 0, .add 3 "z" 2 0 0,
        .add 4 "w" 1 0 0, .remove ⟨1, "x", 2⟩ 0] = some t5 ∧
      t5.Len = 3 ∧ t5.pending.length = 2 ∧
      step t5 .drain = none ∧ step t5 .purge = none ∧ ∀ now, step t5 (.fire now) = none :=
  ⟨_, rfl, rfl, rfl, rfl, rfl, fun _ => rfl⟩

/-! ## The list: the order in which the values are received -/

end timedlist
